import Mathlib

/-!
# Pairing optimisation engine (`src/App.js`)

A shallow embedding of `src/App.js`.

* The solvers: `optimizePairs`, `hungarianAlgorithm`, `greedyAlgorithm`,
  `fullSearchOptimize`, `generatePermutations`, `adaptToTournamentRules`,
  `findBestDefenders` and `findBestAttackers`.
* The state of the component `App` and the functions that act on it:
  `saveEditedName`, `updateRating`, `getOptimalRecommendations`,
  `calculateBestDefender`, `calculateBestAttackers`,
  `calculateBestAttackerChoice`, `collectManualPairs` and `nextStep`.  A
  function of the component reads the state it closes over; here the state is
  an explicit argument, and a function that calls setters returns the next
  state.

Modelling conventions.

* Names are JavaScript strings (`String`).  A value that may be `undefined`
  (an array read past the end) or `null` (an empty slot) is an `Option`, with
  `none` for `undefined` and `null`.
* A rating read `ratings[p][o]` yields `undefined` when the key is absent;
  arithmetic on `undefined` yields `NaN`.  Both are `none : Option Int`, since
  every use in the modelled code treats them alike (comparisons are false,
  sums stay `NaN`).
* Ratings are integers.  A mean `sum / count` is kept as the exact fraction
  and two means are compared by cross-multiplication; for the sums and counts
  of a few small integers the floating-point quotients compare alike.
* `ratings[p]` being `undefined` makes `ratings[p][o]` throw a `TypeError`;
  a function that can throw returns `Option`, with `none` for the throw.
* Plain objects used as dictionaries are insertion ordered association lists
  of their own properties; `Object.entries` lists array-index keys first
  (ascending), then the other keys in insertion order.
* A plain object also inherits the properties of `Object.prototype`
  (`objectPrototypeKeys`).  This is modelled where the code tests or assigns
  a key that the object need not own: the test `!playerScores[pair.player]`
  of `findBestDefenders` on its accumulator `{}` (`addScore`, which throws on
  an inherited key), and the assignments `newRatings[...] = ...` of
  `saveEditedName` (`objAssign`, which creates no own property `__proto__`).
  A read of the rating store at a key that the object does not own is
  `undefined` in the model; it is so in the source unless the key is a
  property name of `Object.prototype`.  The model of a read is therefore
  exact where the entry read is an own one (as under `FullyPopulated` and
  `RatingsInRange`) or the key is no such property name.
* `Array.prototype.sort` is stable; it is modelled by stable insertion sort,
  which is the unique stable sort for a comparator that is a total preorder.
* `arr.splice(arr.indexOf(x), 1)` removes `x` when it is present and the
  last element when it is absent (`indexOf` is `-1`).
* The external `munkres` routine is a parameter.
-/

namespace Pairings

/-- A player or opponent name. -/
abbrev Name := String

/-- One row `ratings[player]` of the rating store. -/
abbrev Row := List (Name × Int)

/-- The rating store `ratings`, keyed by player, then by opponent. -/
abbrev Ratings := List (Name × Row)

/-- Property key of a possibly `undefined` value (`undefined` becomes the
key `"undefined"`). -/
def keyOf : Option Name → Name
  | some s => s
  | none => "undefined"

/-- The read `ratings[p][o]`: `none` is the `TypeError` thrown when
`ratings[p]` is `undefined`; `some none` is the value `undefined`. -/
def getRating (ratings : Ratings) (p o : Option Name) : Option (Option Int) :=
  match ratings.lookup (keyOf p) with
  | none => none
  | some row => some (row.lookup (keyOf o))

/-- JavaScript `a + b` on numbers, `none` being `NaN` / `undefined`. -/
def jsAdd : Option Int → Option Int → Option Int
  | some a, some b => some (a + b)
  | _, _ => none

/-- JavaScript `a - b` on numbers, `none` being `NaN` / `undefined`. -/
def jsSub : Option Int → Option Int → Option Int
  | some a, some b => some (a - b)
  | _, _ => none

/-- JavaScript `a > b` on numbers: false as soon as one side is `NaN`. -/
def jsGt : Option Int → Option Int → Bool
  | some a, some b => decide (b < a)
  | _, _ => false

/-- A pair object `{ player, opponent, rating }`. -/
structure Pair where
  player : Option Name
  opponent : Option Name
  rating : Option Int
  deriving DecidableEq, Repr

/-- The `type` field added by the role classifier. -/
inductive Role where
  | defender
  | attacker
  | remaining
  deriving DecidableEq, Repr

/-- A pair object with its role, `{ ...pair, type }`. -/
structure TypedPair extends Pair where
  type : Role
  deriving DecidableEq, Repr

/-- `Array.prototype.map` with a callback that may throw. -/
def mapThrow {α β : Type} (f : α → Option β) : List α → Option (List β)
  | [] => some []
  | a :: as =>
    match f a with
    | none => none
    | some b =>
      match mapThrow f as with
      | none => none
      | some bs => some (b :: bs)

/-- `Array.prototype.forEach` threading a state through a callback that may
throw. -/
def foldThrow {α σ : Type} (f : σ → α → Option σ) : σ → List α → Option σ
  | s, [] => some s
  | s, a :: as =>
    match f s a with
    | none => none
    | some s1 => foldThrow f s1 as

/-- The comparator `(a, b) => b.rating - a.rating` leaves `a` before `b`
unless it is positive, that is unless `b.rating > a.rating`. -/
def ratingOrder (a b : Pair) : Prop := jsGt b.rating a.rating = false

instance : DecidableRel ratingOrder := fun a b =>
  inferInstanceAs (Decidable (jsGt b.rating a.rating = false))

/-- Source `findBestAttackers`: stable sort by descending rating, first
`count` entries. -/
def findBestAttackers (pairs : List Pair) (count : Nat) : List Pair :=
  (pairs.insertionSort ratingOrder).take count

/-- The value `{ sum, count, pairs }` kept per player in `playerScores`. -/
structure PlayerScore where
  sum : Option Int
  count : Nat
  pairs : List Pair
  deriving Repr

/-- The property names of `Object.prototype`, which every plain object
inherits; each of them reads as a function (`__proto__` as the prototype
itself), hence as a truthy value that has no `pairs`. -/
def objectPrototypeKeys : List Name :=
  ["constructor", "__defineGetter__", "__defineSetter__", "hasOwnProperty",
   "__lookupGetter__", "__lookupSetter__", "isPrototypeOf", "propertyIsEnumerable",
   "toString", "valueOf", "__proto__", "toLocaleString"]

/-- One iteration of the `pairs.forEach` of `findBestDefenders` on an entry
that `playerScores` owns or that is absent altogether: create the entry of
`pair.player` at the end of the object when absent, then add the pair to
it. -/
def addEntry (pair : Pair) : List (Name × PlayerScore) → List (Name × PlayerScore)
  | [] => [(keyOf pair.player,
      { sum := jsAdd (some 0) pair.rating, count := 1, pairs := [pair] })]
  | e :: es =>
    if e.1 = keyOf pair.player then
      (e.1, { sum := jsAdd e.2.sum pair.rating, count := e.2.count + 1,
              pairs := e.2.pairs ++ [pair] }) :: es
    else e :: addEntry pair es

/-- One iteration of the `pairs.forEach` of `findBestDefenders`.  The object
`playerScores` starts as `{}`: for a player key that it does not own but
inherits from `Object.prototype` the test `!playerScores[pair.player]` is
false, no entry is created, and `playerScores[pair.player].pairs.push(pair)`
throws a `TypeError` (`none`), `pairs` being `undefined` there. -/
def addScore (pair : Pair) (playerScores : List (Name × PlayerScore)) :
    Option (List (Name × PlayerScore)) :=
  if (playerScores.lookup (keyOf pair.player)).isNone
      && decide (keyOf pair.player ∈ objectPrototypeKeys) then none
  else some (addEntry pair playerScores)

/-- Numeric value of a string of decimal digits. -/
def digitsValue (cs : List Char) : Nat :=
  cs.foldl (fun n c => 10 * n + (c.toNat - 48)) 0

/-- The array index a property key denotes, if any: a canonical decimal
numeral (no leading zero) below `2^32 - 1`. -/
def arrayIndex (key : Name) : Option Nat :=
  match key.data with
  | [] => none
  | c :: cs =>
    if (c :: cs).all Char.isDigit && (c != '0' || cs.isEmpty)
        && decide (digitsValue (c :: cs) < 4294967295) then
      some (digitsValue (c :: cs))
    else none

/-- Order of two array-index keys in `Object.entries`. -/
def indexOrder (a b : Name × PlayerScore) : Prop :=
  (arrayIndex a.1).getD 0 ≤ (arrayIndex b.1).getD 0

instance : DecidableRel indexOrder := fun a b =>
  inferInstanceAs (Decidable ((arrayIndex a.1).getD 0 ≤ (arrayIndex b.1).getD 0))

/-- `Object.entries(playerScores)`: array-index keys in ascending numeric
order, then the remaining keys in insertion order. -/
def objectEntries (obj : List (Name × PlayerScore)) : List (Name × PlayerScore) :=
  (obj.filter (fun e => (arrayIndex e.1).isSome)).insertionSort indexOrder
    ++ obj.filter (fun e => !(arrayIndex e.1).isSome)

/-- The item `{ player, avg, bestPair }` of `findBestDefenders`.  The mean
`data.sum / data.count` is kept as the exact fraction `avgNum / avgDen`
(`avgNum = none` for `NaN`). -/
structure Scored where
  player : Name
  avgNum : Option Int
  avgDen : Nat
  bestPair : Pair
  deriving Repr

/-- The test `b.avg > a.avg` on two fractions with positive denominators. -/
def avgGt (b a : Scored) : Bool :=
  match b.avgNum, a.avgNum with
  | some x, some y => decide (y * (b.avgDen : Int) < x * (a.avgDen : Int))
  | _, _ => false

/-- The comparator `(a, b) => b.avg - a.avg` leaves `a` before `b` unless
`b.avg > a.avg`. -/
def avgOrder (a b : Scored) : Prop := avgGt b a = false

instance : DecidableRel avgOrder := fun a b =>
  inferInstanceAs (Decidable (avgGt b a = false))

/-- The reduction `data.pairs.reduce((best, current) => current.rating >
best.rating ? current : best)`; without an initial value it throws on an
empty array. -/
def reduceBest : List Pair → Option Pair
  | [] => none
  | p :: ps => some (ps.foldl
      (fun best current => if jsGt current.rating best.rating then current else best) p)

/-- Source `findBestDefenders`. -/
def findBestDefenders (pairs : List Pair) (count : Nat) : Option (List Pair) :=
  match foldThrow (fun acc pair => addScore pair acc) [] pairs with
  | none => none
  | some playerScores =>
    match mapThrow (fun e : Name × PlayerScore =>
        (reduceBest e.2.pairs).map fun bp =>
          ({ player := e.1, avgNum := e.2.sum, avgDen := e.2.count, bestPair := bp } : Scored))
        (objectEntries playerScores) with
    | none => none
    | some items => some (((items.insertionSort avgOrder).take count).map (·.bestPair))

/-- Tag a pair with a role. -/
def withType (t : Role) (p : Pair) : TypedPair := { toPair := p, type := t }

/-- Source `adaptToTournamentRules` (its parameters `teamMembers`,
`opponents` and `ratings` are never read and are left out).  The sets
`usedPlayers` and `usedOpponents` are the lists of values added so far. -/
def adaptToTournamentRules (pairs : List Pair) : Option (List TypedPair) :=
  match findBestDefenders pairs 2 with
  | none => none
  | some defenders =>
    let usedPlayers := defenders.map (·.player)
    let usedOpponents := defenders.map (·.opponent)
    let remainingPairs := pairs.filter
      (fun p => !(decide (p.player ∈ usedPlayers)) && !(decide (p.opponent ∈ usedOpponents)))
    let attackers := findBestAttackers remainingPairs 4
    let usedPlayers2 := usedPlayers ++ attackers.map (·.player)
    let usedOpponents2 := usedOpponents ++ attackers.map (·.opponent)
    let rest := pairs.filter
      (fun p => !(decide (p.player ∈ usedPlayers2)) && !(decide (p.opponent ∈ usedOpponents2)))
    some (defenders.map (withType Role.defender) ++ attackers.map (withType Role.attacker)
      ++ rest.map (withType Role.remaining))

/-- The external routine `munkres(matrix)`: from a cost matrix to a list of
`[rowIndex, columnIndex]`. -/
abbrev Munkres := List (List (Option Int)) → List (Nat × Nat)

/-- The cost matrix `matrix` of `hungarianAlgorithm`, with entries
`6 - ratings[player][opponent]`. -/
def costMatrix (teamMembers opponents : List Name) (ratings : Ratings) :
    Option (List (List (Option Int))) :=
  mapThrow (fun player => mapThrow (fun opponent =>
      (getRating ratings (some player) (some opponent)).map (jsSub (some 6))) opponents)
    teamMembers

/-- Source `hungarianAlgorithm`. -/
def hungarianAlgorithm (munkres : Munkres) (teamMembers opponents : List Name)
    (ratings : Ratings) : Option (List TypedPair) :=
  match costMatrix teamMembers opponents ratings with
  | none => none
  | some matrix =>
    match mapThrow (fun idx : Nat × Nat =>
        (getRating ratings teamMembers[idx.1]? opponents[idx.2]?).map fun r =>
          ({ player := teamMembers[idx.1]?, opponent := opponents[idx.2]?, rating := r } : Pair))
        (munkres matrix) with
    | none => none
    | some pairs => adaptToTournamentRules pairs

/-- Loop state of `greedyAlgorithm`: `pairs`, `usedPlayers`, `usedOpponents`. -/
structure GreedyState where
  pairs : List Pair
  usedPlayers : List (Option Name)
  usedOpponents : List (Option Name)
  deriving Repr

/-- One iteration of the scan `allPairs.forEach` of `greedyAlgorithm`. -/
def greedyStep (s : GreedyState) (pair : Pair) : GreedyState :=
  if !(decide (pair.player ∈ s.usedPlayers)) && !(decide (pair.opponent ∈ s.usedOpponents)) then
    { pairs := s.pairs ++ [pair],
      usedPlayers := s.usedPlayers ++ [pair.player],
      usedOpponents := s.usedOpponents ++ [pair.opponent] }
  else s

/-- The candidate list `allPairs` of `greedyAlgorithm`, player-major. -/
def greedyAllPairs (teamMembers opponents : List Name) (ratings : Ratings) :
    Option (List Pair) :=
  (mapThrow (fun player => mapThrow (fun opponent =>
      (getRating ratings (some player) (some opponent)).map fun r =>
        ({ player := some player, opponent := some opponent, rating := r } : Pair)) opponents)
    teamMembers).map List.flatten

/-- Source `greedyAlgorithm`. -/
def greedyAlgorithm (teamMembers opponents : List Name) (ratings : Ratings) :
    Option (List TypedPair) :=
  match greedyAllPairs teamMembers opponents ratings with
  | none => none
  | some allPairs =>
    adaptToTournamentRules
      ((allPairs.insertionSort ratingOrder).foldl greedyStep
        { pairs := [], usedPlayers := [], usedOpponents := [] }).pairs

/-- Source `generatePermutations`, by recursion on a bound for the length of
`arr`. -/
def generatePermutationsAux {α : Type} : Nat → List α → List (List α)
  | 0, arr => [arr]
  | fuel + 1, arr =>
    if arr.length ≤ 1 then [arr]
    else arr.enum.flatMap fun ic =>
      (generatePermutationsAux fuel (arr.eraseIdx ic.1)).map (ic.2 :: ·)

/-- Source `generatePermutations`: the recursion depth never exceeds the
length of `arr`. -/
def generatePermutations {α : Type} (arr : List α) : List (List α) :=
  generatePermutationsAux arr.length arr

/-- The pairs `currentPairs` built from one permutation in
`fullSearchOptimize`. -/
def currentPairsOf (teamMembers : List Name) (ratings : Ratings)
    (permutation : List Name) : Option (List Pair) :=
  mapThrow (fun ip : Nat × Name =>
      (getRating ratings (some ip.2) permutation[ip.1]?).map fun r =>
        ({ player := some ip.2, opponent := permutation[ip.1]?, rating := r } : Pair))
    teamMembers.enum

/-- The score `currentPairs.reduce((sum, pair) => sum + pair.rating, 0)`. -/
def scoreOf (currentPairs : List Pair) : Option Int :=
  currentPairs.foldl (fun sum pair => jsAdd sum pair.rating) (some 0)

/-- One iteration of `allPermutations.forEach` in `fullSearchOptimize`, on
the state `(bestScore, bestPairs)`. -/
def fullSearchStep (teamMembers : List Name) (ratings : Ratings)
    (best : Int × List Pair) (permutation : List Name) : Option (Int × List Pair) :=
  match currentPairsOf teamMembers ratings permutation with
  | none => none
  | some currentPairs =>
    match scoreOf currentPairs with
    | some currentScore =>
      if best.1 < currentScore then some (currentScore, currentPairs) else some best
    | none => some best

/-- Source `fullSearchOptimize`. -/
def fullSearchOptimize (munkres : Munkres) (teamMembers opponents : List Name)
    (ratings : Ratings) : Option (List TypedPair) :=
  if teamMembers.length > 5 then hungarianAlgorithm munkres teamMembers opponents ratings
  else
    match foldThrow (fullSearchStep teamMembers ratings) (-1, [])
        (generatePermutations opponents) with
    | none => none
    | some best => adaptToTournamentRules best.2

/-- Source `optimizePairs`; `method = none` is the argument left unset, which
the default parameter replaces by `'full'`. -/
def optimizePairs (munkres : Munkres) (teamMembers opponents : List Name)
    (ratings : Ratings) (method : Option String) : Option (List TypedPair) :=
  match method.getD "full" with
  | "greedy" => greedyAlgorithm teamMembers opponents ratings
  | "full" => fullSearchOptimize munkres teamMembers opponents ratings
  | _ => hungarianAlgorithm munkres teamMembers opponents ratings

/-! ## Specification vocabulary -/

/-- Keys of a `playerScores` object, in insertion order. -/
def scoreKeys (obj : List (Name × PlayerScore)) : List Name := obj.map (·.1)

/-- All pairs stored in a `playerScores` object. -/
def scorePairs (obj : List (Name × PlayerScore)) : List Pair := obj.flatMap (·.2.pairs)

/-- Every entry holds at least one pair, and only pairs of its own key. -/
def ScoresOk (obj : List (Name × PlayerScore)) : Prop :=
  ∀ e ∈ obj, e.2.pairs ≠ [] ∧ ∀ q ∈ e.2.pairs, keyOf q.player = e.1

/-- No pair has a player named by a property of `Object.prototype`. -/
def NoInheritedNames (pairs : List Pair) : Prop :=
  ∀ p ∈ pairs, keyOf p.player ∉ objectPrototypeKeys

instance (pairs : List Pair) : Decidable (NoInheritedNames pairs) :=
  inferInstanceAs (Decidable (∀ p ∈ pairs, keyOf p.player ∉ objectPrototypeKeys))

/-- No name of the list is a property name of `Object.prototype`. -/
def OwnNames (names : List Name) : Prop := ∀ n ∈ names, n ∉ objectPrototypeKeys

instance (names : List Name) : Decidable (OwnNames names) :=
  inferInstanceAs (Decidable (∀ n ∈ names, n ∉ objectPrototypeKeys))

/-- The object `playerScores` built by `findBestDefenders` when no iteration
throws. -/
def playerScoresOf (pairs : List Pair) : List (Name × PlayerScore) :=
  pairs.foldl (fun acc pair => addEntry pair acc) []

/-- The pair chosen by the reduction of `findBestDefenders`, with a dummy
value for the empty array (on which the source throws). -/
def bestOf (ps : List Pair) : Pair :=
  (reduceBest ps).getD { player := none, opponent := none, rating := none }

/-- The item built from one entry of `playerScores`. -/
def scoredOf (e : Name × PlayerScore) : Scored :=
  { player := e.1, avgNum := e.2.sum, avgDen := e.2.count, bestPair := bestOf e.2.pairs }

/-- The value `findBestDefenders` returns. -/
def defendersOf (pairs : List Pair) (count : Nat) : List Pair :=
  (((((objectEntries (playerScoresOf pairs)).map scoredOf).insertionSort
    avgOrder).take count).map (·.bestPair))

/-- The test `!usedPlayers.has(p.player) && !usedOpponents.has(p.opponent)`
of `adaptToTournamentRules`, the used sets holding the players and the
opponents of the pairs `used`. -/
def unusedBy (used : List Pair) : Pair → Bool := fun p =>
  !(decide (p.player ∈ used.map (·.player))) && !(decide (p.opponent ∈ used.map (·.opponent)))

/-- The attackers chosen by `adaptToTournamentRules`. -/
def attackersOf (pairs : List Pair) : List Pair :=
  findBestAttackers (pairs.filter (unusedBy (defendersOf pairs 2))) 4

/-- The pairs `adaptToTournamentRules` emits with role `remaining`. -/
def restOf (pairs : List Pair) : List Pair :=
  pairs.filter (unusedBy (defendersOf pairs 2 ++ attackersOf pairs))

/-- The list `adaptToTournamentRules` returns when `findBestDefenders` does
not throw: defenders, then attackers, then the remaining pairs. -/
def classified (pairs : List Pair) : List TypedPair :=
  (defendersOf pairs 2).map (withType Role.defender)
    ++ (attackersOf pairs).map (withType Role.attacker)
    ++ (restOf pairs).map (withType Role.remaining)

/-- The pairs of a classified list, roles dropped. -/
def untyped (res : List TypedPair) : List Pair := res.map (·.toPair)

/-- Total rating of a list of classified pairs,
`pairs.reduce((sum, pair) => sum + pair.rating, 0)`. -/
def totalRating (res : List TypedPair) : Option Int :=
  res.foldl (fun sum pair => jsAdd sum pair.rating) (some 0)

/-- No player name and no opponent name occurs in two pairs. -/
def NoRepeat (res : List TypedPair) : Prop :=
  (res.filterMap (·.player)).Nodup ∧ (res.filterMap (·.opponent)).Nodup

/-- The ratings `{A: {X: 5, Y: 4}, B: {X: 3, Y: 1}}`. -/
def exampleRatings : Ratings :=
  [("A", [("X", 5), ("Y", 4)]), ("B", [("X", 3), ("Y", 1)])]

/-- The ratings `{A: {X: 5}, B: {X: 3}}`, two players against one opponent. -/
def twoOneRatings : Ratings := [("A", [("X", 5)]), ("B", [("X", 3)])]

/-- A stand-in for `munkres` on the cost matrix `[[1], [3]]`, whose only
minimum-cost assignment is row 0 to column 0. -/
def munkresTwoOne : Munkres := fun _ => [(0, 0)]

/-- The stored rating of a player against an opponent, if there is one. -/
def ratingAt (ratings : Ratings) (p o : Name) : Option Int :=
  (ratings.lookup p).bind (·.lookup o)

/-- The value is a number between `lo` and `hi`. -/
def IsRating (lo hi : Int) : Option Int → Prop
  | some v => lo ≤ v ∧ v ≤ hi
  | none => False

instance (lo hi : Int) : DecidablePred (IsRating lo hi) := fun x =>
  match x with
  | some v => inferInstanceAs (Decidable (lo ≤ v ∧ v ≤ hi))
  | none => inferInstanceAs (Decidable False)

/-- The rating store has a row for every listed player and, in it, an entry
for every listed opponent. -/
def FullyPopulated (players opponents : List Name) (ratings : Ratings) : Prop :=
  ∀ p ∈ players, (ratings.lookup p).isSome ∧ ∀ o ∈ opponents, (ratingAt ratings p o).isSome

instance (players opponents : List Name) (ratings : Ratings) :
    Decidable (FullyPopulated players opponents ratings) :=
  inferInstanceAs (Decidable (∀ p ∈ players,
    (ratings.lookup p).isSome ∧ ∀ o ∈ opponents, (ratingAt ratings p o).isSome))

/-- Every listed player has a rating in `[1, 5]` against every listed
opponent. -/
def RatingsInRange (players opponents : List Name) (ratings : Ratings) : Prop :=
  ∀ p ∈ players, ∀ o ∈ opponents, IsRating 1 5 (ratingAt ratings p o)

instance (players opponents : List Name) (ratings : Ratings) :
    Decidable (RatingsInRange players opponents ratings) :=
  inferInstanceAs (Decidable (∀ p ∈ players, ∀ o ∈ opponents,
    IsRating 1 5 (ratingAt ratings p o)))

/-- All candidate pairs of `greedyAlgorithm`, player-major. -/
def candidatePairs (teamMembers opponents : List Name) (ratings : Ratings) : List Pair :=
  teamMembers.flatMap fun p => opponents.map fun o =>
    ({ player := some p, opponent := some o, rating := ratingAt ratings p o } : Pair)

/-- Initial loop state of `greedyAlgorithm`. -/
def greedyInit : GreedyState := { pairs := [], usedPlayers := [], usedOpponents := [] }

/-- The matching chosen by the scan of `greedyAlgorithm` over the sorted
candidates. -/
def greedyMatching (candidates : List Pair) : List Pair :=
  ((candidates.insertionSort ratingOrder).foldl greedyStep greedyInit).pairs

/-- Invariant of the scan of `greedyAlgorithm` after the candidates `seen`:
the used sets are those of the chosen pairs, the chosen pairs form a matching
drawn from `seen`, and every candidate seen is blocked by a chosen pair. -/
def GreedyInv (seen : List Pair) (s : GreedyState) : Prop :=
  s.usedPlayers = s.pairs.map (·.player) ∧ s.usedOpponents = s.pairs.map (·.opponent)
    ∧ (s.pairs.map (·.player)).Nodup ∧ (s.pairs.map (·.opponent)).Nodup
    ∧ (∀ q ∈ s.pairs, q ∈ seen)
    ∧ ∀ q ∈ seen, q.player ∈ s.usedPlayers ∨ q.opponent ∈ s.usedOpponents

/-- The pairs `fullSearchOptimize` builds from one permutation: the `i`-th
player with the `i`-th entry of the permutation, `undefined` past its end. -/
def pairUp (ratings : Ratings) : List Name → List Name → List Pair
  | [], _ => []
  | p :: ps, permutation =>
    { player := some p, opponent := permutation.head?,
      rating := ratingAt ratings p (keyOf permutation.head?) }
      :: pairUp ratings ps permutation.tail

/-- Sum of the ratings of a list of pairs, `undefined` counting as zero. -/
def ratingSum (l : List Pair) : Int := (l.map fun p => p.rating.getD 0).sum

/-- A one-to-one assignment of all players to distinct opponents, as a list
of (player, opponent): every player exactly once, no opponent twice. -/
def IsAssignment (players opponents : List Name) (asg : List (Name × Name)) : Prop :=
  (asg.map (·.1)).Perm players ∧ (asg.map (·.2)).Nodup ∧ ∀ x ∈ asg, x.2 ∈ opponents

/-- Sum of the stored ratings of an assignment. -/
def assignmentTotal (ratings : Ratings) (asg : List (Name × Name)) : Int :=
  (asg.map fun x => (ratingAt ratings x.1 x.2).getD 0).sum

/-- The pair object of a player and an opponent, with their stored rating. -/
def pairOfNames (ratings : Ratings) (x : Name × Name) : Pair :=
  { player := some x.1, opponent := some x.2, rating := ratingAt ratings x.1 x.2 }

/-- The (player, opponent) names of a list of classified pairs. -/
def namesOf (res : List TypedPair) : List (Option Name × Option Name) :=
  res.map fun q => (q.player, q.opponent)

/-- Cost of an index assignment in a cost matrix (an entry that is absent
or `NaN` counts as zero). -/
def costOf (matrix : List (List (Option Int))) (result : List (Nat × Nat)) : Int :=
  (result.map fun ij => ((matrix[ij.1]?.bind (·[ij.2]?)).join).getD 0).sum

/-- The list `result` assigns each of the rows `0 .. rows - 1` exactly once,
to pairwise distinct columns below `cols`. -/
def IsIndexAssignment (rows cols : Nat) (result : List (Nat × Nat)) : Prop :=
  (result.map (·.1)).Perm (List.range rows) ∧ (result.map (·.2)).Nodup
    ∧ ∀ ij ∈ result, ij.2 < cols

/-- The list `result` is an assignment of all rows of minimum cost: what
`munkres` is assumed to return. -/
def IsMinCostAssignment (matrix : List (List (Option Int))) (rows cols : Nat)
    (result : List (Nat × Nat)) : Prop :=
  IsIndexAssignment rows cols result
    ∧ ∀ other, IsIndexAssignment rows cols other → costOf matrix result ≤ costOf matrix other

/-- The names at a (row, column) index pair. -/
def namesAt (teamMembers opponents : List Name) (ij : Nat × Nat) : Name × Name :=
  (keyOf teamMembers[ij.1]?, keyOf opponents[ij.2]?)

/-- The (row, column) index pair of a (player, opponent). -/
def indicesOf (teamMembers opponents : List Name) (x : Name × Name) : Nat × Nat :=
  (teamMembers.indexOf x.1, opponents.indexOf x.2)

/-- A stand-in for `munkres` on the cost matrix `[[1, 2], [3, 5]]` of the
ratings `{A: {X: 5, Y: 4}, B: {X: 3, Y: 1}}`, whose minimum-cost assignment
is row 0 to column 1 and row 1 to column 0. -/
def munkresExample : Munkres := fun _ => [(0, 1), (1, 0)]

instance : DecidablePred NoRepeat := fun res =>
  inferInstanceAs (Decidable ((res.filterMap (fun q : TypedPair => q.player)).Nodup
    ∧ (res.filterMap (fun q : TypedPair => q.opponent)).Nodup))

/-- Number of pairs of a classified list with a given role. -/
def roleCount (t : Role) (res : List TypedPair) : Nat :=
  (res.filter fun q => decide (q.type = t)).length

/-- Candidate pairs drawn from 5 players and 5 opponents (unique names) in
which every player occurs and all ratings are numbers, pairwise distinct. -/
def CandidatesOk (players opponents : List Name) (pairs : List Pair) : Prop :=
  players.Nodup ∧ players.length = 5 ∧ opponents.Nodup ∧ opponents.length = 5
    ∧ (∀ q ∈ pairs, q.player ∈ players.map some ∧ q.opponent ∈ opponents.map some
        ∧ q.rating.isSome)
    ∧ (∀ p ∈ players, ∃ q ∈ pairs, q.player = some p)
    ∧ (pairs.map (·.rating)).Nodup

instance (players opponents : List Name) (pairs : List Pair) :
    Decidable (CandidatesOk players opponents pairs) :=
  inferInstanceAs (Decidable (players.Nodup ∧ players.length = 5 ∧ opponents.Nodup
    ∧ opponents.length = 5
    ∧ (∀ q ∈ pairs, q.player ∈ players.map some ∧ q.opponent ∈ opponents.map some
        ∧ q.rating.isSome)
    ∧ (∀ p ∈ players, ∃ q ∈ pairs, q.player = some p)
    ∧ (pairs.map (fun q : Pair => q.rating)).Nodup))

/-- Five players. -/
def fivePlayers : List Name := ["P1", "P2", "P3", "P4", "P5"]

/-- Five opponents. -/
def fiveOpponents : List Name := ["O1", "O2", "O3", "O4", "O5"]

/-- Candidate pairs in which the two best players both meet opponent `O1`. -/
def sharedOpponentPairs : List Pair :=
  [⟨some "P1", some "O1", some 5⟩, ⟨some "P2", some "O1", some 4⟩,
   ⟨some "P3", some "O2", some 3⟩, ⟨some "P4", some "O3", some 2⟩,
   ⟨some "P5", some "O4", some 1⟩]

/-! ## The application state and the protocol (`App`) -/

/-- JavaScript truthiness of a slot holding a name, `null` or `undefined`:
the empty string is falsy, as are `null` and `undefined` (`none`). -/
def truthy : Option Name → Bool
  | some s => s != ""
  | none => false

/-- Strict equality `value === slot` between a name that may be `undefined`
and a slot that may be `null`: true only for two equal names. -/
def sameName : Option Name → Option Name → Bool
  | some a, some b => a == b
  | _, _ => false

/-- A pair object `{ ourPlayer, opponent, rating, type }` of
`collectManualPairs`. -/
structure ManualPair where
  ourPlayer : Name
  opponent : Name
  rating : Option Int
  type : Role
  deriving DecidableEq, Repr

/-- The React state of `App` that the pairing logic reads and writes. -/
structure AppState where
  optimizationMethod : String
  teamMembers : List Name
  opponents : List Name
  editingPlayer : Option (Name × Bool)
  editedName : String
  ratings : Ratings
  step : Nat
  firstDefender : Option Name
  opponentFirstDefender : Option Name
  firstAttackers : List (Option Name)
  opponentFirstAttackers : List (Option Name)
  firstAttackerChoice : Option Name
  opponentFirstAttackerChoice : Option Name
  secondDefender : Option Name
  opponentSecondDefender : Option Name
  secondAttackers : List (Option Name)
  opponentSecondAttackers : List (Option Name)
  secondAttackerChoice : Option Name
  opponentSecondAttackerChoice : Option Name
  finalPairs : List ManualPair
  deriving DecidableEq, Repr

/-- Code points `String.prototype.trim` strips. -/
def isJsWhitespace (c : Char) : Bool :=
  c.toNat ∈ [0x09, 0x0A, 0x0B, 0x0C, 0x0D, 0x20, 0xA0, 0x1680, 0x2000, 0x2001, 0x2002,
    0x2003, 0x2004, 0x2005, 0x2006, 0x2007, 0x2008, 0x2009, 0x200A, 0x2028, 0x2029, 0x202F,
    0x205F, 0x3000, 0xFEFF]

/-- `String.prototype.trim`. -/
def jsTrim (s : String) : String :=
  String.mk ((s.data.dropWhile isJsWhitespace).reverse.dropWhile isJsWhitespace).reverse

/-- Definition of the own property `key` of an object kept as an association
list, as a computed key `{ [key]: value }` of an object literal does: an
existing key keeps its place. -/
def objSet {β : Type} (obj : List (Name × β)) (key : Name) (value : β) : List (Name × β) :=
  if (obj.lookup key).isSome then
    obj.map fun e => if e.1 = key then (key, value) else e
  else obj ++ [(key, value)]

/-- Assignment `obj[key] = value` on a plain object.  For the key `__proto__`
that the object does not own, the assignment reaches the setter inherited
from `Object.prototype` and creates no own property: a number is ignored, an
object becomes the prototype (which the association list does not record).
Every other assignment defines the own property. -/
def objAssign {β : Type} (obj : List (Name × β)) (key : Name) (value : β) :
    List (Name × β) :=
  if key = "__proto__" ∧ (obj.lookup key).isNone then obj else objSet obj key value

/-- The statement `delete obj[key]`. -/
def objDelete {β : Type} (obj : List (Name × β)) (key : Name) : List (Name × β) :=
  obj.filter fun e => e.1 != key

/-- The function `updateSelected` of `saveEditedName` on a slot holding one
name. -/
def updateSelected (oldName newName : Name) (selected : Option Name) : Option Name :=
  if selected = some oldName then some newName else selected

/-- The updater `prev => prev.map(p => p === oldName ? newName : p)` of
`saveEditedName` on a slot holding a list. -/
def renameIn (oldName newName : Name) (l : List (Option Name)) : List (Option Name) :=
  l.map fun p => if p = some oldName then some newName else p

/-- The ratings updater of `saveEditedName` for a renamed player: the copy
`{ ...prev }` has the own rows of `prev`; the row of `oldName`, when there is
one, is assigned to `newName` and deleted under `oldName`. -/
def renamePlayerRatings (oldName newName : Name) (prev : Ratings) : Ratings :=
  match prev.lookup oldName with
  | some row => objDelete (objAssign prev newName row) oldName
  | none => prev

/-- The ratings updater of `saveEditedName` for a renamed opponent.  Every
own row of `prev` is copied and assigned to its key in the new object `{}`; a
row under the key `__proto__` becomes the prototype and is no own row of the
result.  In each copy the entry of `oldName`, when there is one, is assigned
to `newName` and deleted under `oldName`. -/
def renameOpponentRatings (oldName newName : Name) (prev : Ratings) : Ratings :=
  (prev.filter fun e => e.1 != "__proto__").map fun e =>
    (e.1, match e.2.lookup oldName with
      | some v => objDelete (objAssign e.2 newName v) oldName
      | none => e.2)

/-- The state updates `saveEditedName` performs once the new name is
accepted: `setOpponents` / `setTeamMembers`, `setRatings`, the twelve slot
updates, `setEditingPlayer(null)` and `setEditedName('')`. -/
def applyRename (s : AppState) (oldName : Name) (isOpponent : Bool) (newName : Name) :
    AppState :=
  { s with
    opponents :=
      if isOpponent then s.opponents.map fun op => if op = oldName then newName else op
      else s.opponents
    teamMembers :=
      if isOpponent then s.teamMembers
      else s.teamMembers.map fun pl => if pl = oldName then newName else pl
    ratings :=
      if isOpponent then renameOpponentRatings oldName newName s.ratings
      else renamePlayerRatings oldName newName s.ratings
    firstDefender := updateSelected oldName newName s.firstDefender
    opponentFirstDefender := updateSelected oldName newName s.opponentFirstDefender
    firstAttackers := renameIn oldName newName s.firstAttackers
    opponentFirstAttackers := renameIn oldName newName s.opponentFirstAttackers
    firstAttackerChoice := updateSelected oldName newName s.firstAttackerChoice
    opponentFirstAttackerChoice :=
      updateSelected oldName newName s.opponentFirstAttackerChoice
    secondDefender := updateSelected oldName newName s.secondDefender
    opponentSecondDefender := updateSelected oldName newName s.opponentSecondDefender
    secondAttackers := renameIn oldName newName s.secondAttackers
    opponentSecondAttackers := renameIn oldName newName s.opponentSecondAttackers
    secondAttackerChoice := updateSelected oldName newName s.secondAttackerChoice
    opponentSecondAttackerChoice :=
      updateSelected oldName newName s.opponentSecondAttackerChoice
    editingPlayer := none
    editedName := "" }

/-- Source `saveEditedName`; `none` is the `TypeError` of reading
`editingPlayer.player` when nothing is being edited.  A blank name and a name
already in the list (after the `alert`) return without any update. -/
def saveEditedName (s : AppState) : Option AppState :=
  if jsTrim s.editedName = "" then some s
  else
    match s.editingPlayer with
    | none => none
    | some (oldName, isOpponent) =>
      let newName := jsTrim s.editedName
      let namesList := if isOpponent then s.opponents else s.teamMembers
      if decide (newName ∈ namesList) && decide (newName ≠ oldName) then some s
      else some (applyRename s oldName isOpponent newName)

/-- Source `updateRating`; `value` is the number `parseInt(value)` yields
(the case of `NaN` is not modelled). -/
def updateRating (s : AppState) (player opponent : Name) (value : Int) : AppState :=
  { s with ratings :=
      objSet s.ratings player (objSet ((s.ratings.lookup player).getD []) opponent value) }

/-- The statement `arr.splice(arr.indexOf(x), 1)`: the first occurrence of
`x` is removed; when `x` does not occur `indexOf` is `-1` and `splice(-1, 1)`
removes the last element. -/
def spliceOut (arr : List Name) (x : Option Name) : List Name :=
  match x with
  | some n => if n ∈ arr then arr.erase n else arr.dropLast
  | none => arr.dropLast

/-- The list `availablePlayers` of `getOptimalRecommendations`. -/
def availablePlayersOf (s : AppState) (currentStep : Nat) : List Name :=
  let a1 := if truthy s.firstDefender && currentStep != 1 then
      spliceOut s.teamMembers s.firstDefender else s.teamMembers
  let a2 := if truthy s.secondDefender then spliceOut a1 s.secondDefender else a1
  let a3 := s.firstAttackers.foldl spliceOut a2
  let a4 := s.secondAttackers.foldl spliceOut a3
  if truthy s.opponentFirstAttackerChoice then spliceOut a4 s.opponentFirstAttackerChoice
  else a4

/-- The list `availableOpponents` of `getOptimalRecommendations`. -/
def availableOpponentsOf (s : AppState) : List Name :=
  let b1 := if truthy s.opponentFirstDefender then
      spliceOut s.opponents s.opponentFirstDefender else s.opponents
  let b2 := if truthy s.opponentSecondDefender then
      spliceOut b1 s.opponentSecondDefender else b1
  let b3 := s.opponentFirstAttackers.foldl spliceOut b2
  let b4 := s.opponentSecondAttackers.foldl spliceOut b3
  let b5 := if truthy s.firstAttackerChoice then spliceOut b4 s.firstAttackerChoice else b4
  if truthy s.secondAttackerChoice then spliceOut b5 s.secondAttackerChoice else b5

/-- An item `{ player, score }` of the `calculateBest...` functions; the
score is the exact fraction `scoreNum / scoreDen`. -/
structure NameScore where
  name : Option Name
  scoreNum : Int
  scoreDen : Nat
  deriving DecidableEq, Repr

/-- The comparator `(a, b) => b.score - a.score` leaves `a` before `b` unless
`b.score > a.score`. -/
def scoreOrder (a b : NameScore) : Prop :=
  ¬ (a.scoreNum * (b.scoreDen : Int) < b.scoreNum * (a.scoreDen : Int))

instance : DecidableRel scoreOrder := fun a b =>
  inferInstanceAs (Decidable
    (¬ (a.scoreNum * (b.scoreDen : Int) < b.scoreNum * (a.scoreDen : Int))))

/-- The read `ratings[player][key] || 0`; `none` is the `TypeError` thrown
when `ratings[player]` is `undefined`. -/
def ratingOrZero (ratings : Ratings) (player key : Name) : Option Int :=
  match ratings.lookup player with
  | none => none
  | some row => some ((row.lookup key).getD 0)

/-- Source `calculateBestDefender`; the result `none` inside is `null`. -/
def calculateBestDefender (s : AppState) (availablePlayers opponentAvailable : List Name) :
    Option (Option Name) :=
  if availablePlayers.length = 0 then some none
  else if opponentAvailable.length = 0 then some availablePlayers[0]?
  else
    match mapThrow (fun player =>
        (mapThrow (fun opp => ratingOrZero s.ratings player opp) opponentAvailable).map
          fun scores => ({ name := some player, scoreNum := scores.foldl (· + ·) 0,
                           scoreDen := scores.length } : NameScore))
        availablePlayers with
    | none => none
    | some playerScores =>
      match (playerScores.insertionSort scoreOrder)[0]? with
      | some item => if truthy item.name then some item.name else some availablePlayers[0]?
      | none => some availablePlayers[0]?

/-- Source `calculateBestAttackers`. -/
def calculateBestAttackers (s : AppState) (defender : Option Name)
    (availablePlayers : List Name) : Option (List (Option Name)) :=
  if !truthy defender || availablePlayers.length = 0 then some []
  else
    match mapThrow (fun player =>
        (ratingOrZero s.ratings player (keyOf defender)).map fun v =>
          ({ name := some player, scoreNum := v, scoreDen := 1 } : NameScore))
        availablePlayers with
    | none => none
    | some playerScores =>
      some (((playerScores.insertionSort scoreOrder).take 2).map (·.name))

/-- Source `calculateBestAttackerChoice`; the result `none` inside is
`null`. -/
def calculateBestAttackerChoice (s : AppState) (attackers : List (Option Name))
    (defender : Option Name) : Option (Option Name) :=
  if attackers.length = 0 || !truthy defender then some none
  else
    match mapThrow (fun attacker =>
        (ratingOrZero s.ratings (keyOf defender) (keyOf attacker)).map fun v =>
          ({ name := attacker, scoreNum := v, scoreDen := 1 } : NameScore))
        attackers with
    | none => none
    | some attackerScores =>
      match (attackerScores.insertionSort scoreOrder)[0]? with
      | some item => if truthy item.name then some item.name else some none
      | none => some none

/-- The object `getOptimalRecommendations` returns. -/
inductive Recommendation where
  | defender (player : Option Name)
  | attackers (players : List (Option Name))
  | attackerChoice (opponent : Option Name)
  | nothing
  deriving DecidableEq, Repr

/-- The expression `found?.field || fallback()`: the fallback is evaluated
only when the field is falsy. -/
def orElse (found : Option Name) (fallback : Option (Option Name)) : Option (Option Name) :=
  if truthy found then some found else fallback

/-- Source `getOptimalRecommendations`.  In cases 2 and 5 the left operand of
`||` is an array, which is truthy even when empty, so the right operand
(`calculateBestAttackers`) is never evaluated. -/
def getOptimalRecommendations (munkres : Munkres) (s : AppState) (currentStep : Nat) :
    Option Recommendation :=
  let availablePlayers := availablePlayersOf s currentStep
  let availableOpponents := availableOpponentsOf s
  match optimizePairs munkres availablePlayers availableOpponents s.ratings
      (some s.optimizationMethod) with
  | none => none
  | some optimalPairs =>
    match currentStep with
    | 1 =>
      (orElse ((optimalPairs.find? fun p => decide (p.type = Role.defender)).bind (·.player))
        (calculateBestDefender s availablePlayers availableOpponents)).map
        Recommendation.defender
    | 2 =>
      some (Recommendation.attackers
        (((optimalPairs.filter fun p => decide (p.type = Role.attacker)).take 2).map
          (·.player)))
    | 3 =>
      (orElse ((optimalPairs.find? fun p => sameName p.player s.firstDefender).bind
          (·.opponent))
        (calculateBestAttackerChoice s s.opponentFirstAttackers s.firstDefender)).map
        Recommendation.attackerChoice
    | 4 =>
      (orElse ((optimalPairs.find? fun p =>
            decide (p.type = Role.defender) && !sameName p.player s.firstDefender).bind
          (·.player))
        (calculateBestDefender s
          (availablePlayers.filter fun p =>
            !sameName (some p) s.firstDefender && !decide (some p ∈ s.firstAttackers))
          availableOpponents)).map
        Recommendation.defender
    | 5 =>
      some (Recommendation.attackers
        (((optimalPairs.filter fun p => decide (p.type = Role.attacker)).take 2).map
          (·.player)))
    | 6 =>
      (orElse ((optimalPairs.find? fun p => sameName p.player s.secondDefender).bind
          (·.opponent))
        (calculateBestAttackerChoice s s.opponentSecondAttackers s.secondDefender)).map
        Recommendation.attackerChoice
    | _ => some Recommendation.nothing

/-- One `if (player && opponent) pairs.push({ ... })` block of
`collectManualPairs`; `none` is the `TypeError` of reading a row the rating
store does not have. -/
def pushManualPair (s : AppState) (player opponent : Option Name) (t : Role)
    (pairs : List ManualPair) : Option (List ManualPair) :=
  if truthy player && truthy opponent then
    (getRating s.ratings player opponent).map fun r =>
      pairs ++ [{ ourPlayer := keyOf player, opponent := keyOf opponent, rating := r,
                  type := t }]
  else some pairs

/-- The value `new Set(names)`: the names in order of first occurrence. -/
def setOf (names : List Name) : List Name :=
  names.foldl (fun acc x => if x ∈ acc then acc else acc ++ [x]) []

/-- Source `collectManualPairs`. -/
def collectManualPairs (s : AppState) : Option (List ManualPair) :=
  match pushManualPair s s.firstDefender s.firstAttackerChoice Role.defender [] with
  | none => none
  | some p1 =>
    match pushManualPair s s.secondDefender s.secondAttackerChoice Role.defender p1 with
    | none => none
    | some p2 =>
      match pushManualPair s s.opponentFirstAttackerChoice s.opponentFirstDefender
          Role.attacker p2 with
      | none => none
      | some p3 =>
        match pushManualPair s s.opponentSecondAttackerChoice s.opponentSecondDefender
            Role.attacker p3 with
        | none => none
        | some p4 =>
          let allPlayers := p4.foldl (fun set pair => set.filter (· != pair.ourPlayer))
            (setOf s.teamMembers)
          let allOpponents := p4.foldl (fun set pair => set.filter (· != pair.opponent))
            (setOf s.opponents)
          pushManualPair s allPlayers[0]? allOpponents[0]? Role.remaining p4

/-- The field `optimal.defender` of a recommendation. -/
def Recommendation.defenderField : Recommendation → Option Name
  | Recommendation.defender d => d
  | _ => none

/-- The field `optimal.attackers` of a recommendation. -/
def Recommendation.attackersField : Recommendation → List (Option Name)
  | Recommendation.attackers l => l
  | _ => []

/-- The field `optimal.attackerChoice` of a recommendation. -/
def Recommendation.attackerChoiceField : Recommendation → Option Name
  | Recommendation.attackerChoice c => c
  | _ => none

/-- Source `nextStep`.  The recommendation is computed from the state of the
current render, before any of the updates takes effect. -/
def nextStep (munkres : Munkres) (s : AppState) : Option AppState :=
  if s.step = 0 then
    (getOptimalRecommendations munkres s 1).map fun optimal =>
      { s with step := 1, firstDefender := optimal.defenderField }
  else if s.step = 1 then
    (getOptimalRecommendations munkres s 2).map fun optimal =>
      { s with step := 2, firstAttackers := optimal.attackersField }
  else if s.step = 2 then
    (getOptimalRecommendations munkres s 3).map fun optimal =>
      { s with step := 3, firstAttackerChoice := optimal.attackerChoiceField }
  else if s.step = 3 then
    (getOptimalRecommendations munkres s 4).map fun optimal =>
      { s with step := 4, secondDefender := optimal.defenderField }
  else if s.step = 4 then
    (getOptimalRecommendations munkres s 5).map fun optimal =>
      { s with step := 5, secondAttackers := optimal.attackersField }
  else if s.step = 5 then
    (getOptimalRecommendations munkres s 6).map fun optimal =>
      { s with step := 6, secondAttackerChoice := optimal.attackerChoiceField }
  else if s.step = 6 then
    (collectManualPairs s).map fun manualPairs =>
      { s with finalPairs := manualPairs, step := 7 }
  else some s

/-- The initial state of `App`, with five players `P1 .. P5`, five opponents
`O1 .. O5` and every rating 3. -/
def initialState (method : String) : AppState :=
  { optimizationMethod := method
    teamMembers := fivePlayers
    opponents := fiveOpponents
    editingPlayer := none
    editedName := ""
    ratings := fivePlayers.map fun p => (p, fiveOpponents.map fun o => (o, (3 : Int)))
    step := 0
    firstDefender := none
    opponentFirstDefender := none
    firstAttackers := []
    opponentFirstAttackers := []
    firstAttackerChoice := none
    opponentFirstAttackerChoice := none
    secondDefender := none
    opponentSecondDefender := none
    secondAttackers := []
    opponentSecondAttackers := []
    secondAttackerChoice := none
    opponentSecondAttackerChoice := none
    finalPairs := [] }

/-- No name of the first list is a name of the second. -/
def DisjointNames (l₁ l₂ : List Name) : Prop := ∀ x ∈ l₁, x ∉ l₂

instance (l₁ l₂ : List Name) : Decidable (DisjointNames l₁ l₂) :=
  inferInstanceAs (Decidable (∀ x ∈ l₁, x ∉ l₂))

/-- The initial state while the first player is being renamed to
`edited`. -/
def editingFirstPlayer (edited : String) : AppState :=
  { initialState "full" with editingPlayer := some ("P1", false), editedName := edited }

/-- The initial state while the first opponent is being renamed to
`edited`. -/
def editingFirstOpponent (edited : String) : AppState :=
  { initialState "full" with editingPlayer := some ("O1", true), editedName := edited }

/-- The slots the human fills for our side, in protocol order. -/
def ourSlots (s : AppState) :
    Option Name × List (Option Name) × Option Name
      × Option Name × List (Option Name) × Option Name :=
  (s.firstDefender, s.firstAttackers, s.firstAttackerChoice,
   s.secondDefender, s.secondAttackers, s.secondAttackerChoice)

/-- The slots recording the picks of the opposing side. -/
def opponentSlots (s : AppState) :
    Option Name × List (Option Name) × Option Name
      × Option Name × List (Option Name) × Option Name :=
  (s.opponentFirstDefender, s.opponentFirstAttackers, s.opponentFirstAttackerChoice,
   s.opponentSecondDefender, s.opponentSecondAttackers, s.opponentSecondAttackerChoice)

/-- The slots of our side after `nextStep` has left step `k` with the
recommendation `optimal`: the slot of step `k + 1` holds the recommendation. -/
def ourSlotsAfter (s : AppState) (k : Nat) (optimal : Recommendation) :
    Option Name × List (Option Name) × Option Name
      × Option Name × List (Option Name) × Option Name :=
  match k with
  | 0 => (optimal.defenderField, s.firstAttackers, s.firstAttackerChoice,
      s.secondDefender, s.secondAttackers, s.secondAttackerChoice)
  | 1 => (s.firstDefender, optimal.attackersField, s.firstAttackerChoice,
      s.secondDefender, s.secondAttackers, s.secondAttackerChoice)
  | 2 => (s.firstDefender, s.firstAttackers, optimal.attackerChoiceField,
      s.secondDefender, s.secondAttackers, s.secondAttackerChoice)
  | 3 => (s.firstDefender, s.firstAttackers, s.firstAttackerChoice,
      optimal.defenderField, s.secondAttackers, s.secondAttackerChoice)
  | 4 => (s.firstDefender, s.firstAttackers, s.firstAttackerChoice,
      s.secondDefender, optimal.attackersField, s.secondAttackerChoice)
  | _ => (s.firstDefender, s.firstAttackers, s.firstAttackerChoice,
      s.secondDefender, s.secondAttackers, optimal.attackerChoiceField)

/-- A roster: unique names, none of them empty (`saveEditedName` rejects a
blank name). -/
def ValidRoster (names : List Name) : Prop := names.Nodup ∧ "" ∉ names

instance (names : List Name) : Decidable (ValidRoster names) :=
  inferInstanceAs (Decidable (names.Nodup ∧ "" ∉ names))

/-- The protocol state of a full reconciliation: our two defenders `a`, `b`
and the two attackers `c`, `d` the opposing side chose to face are four
distinct roster players; the attackers `w`, `x` chosen against our defenders
and the two opposing defenders `y`, `z` are four distinct roster
opponents. -/
def FullProtocol (s : AppState) (a b c d w x y z : Name) : Prop :=
  s.firstDefender = some a ∧ s.secondDefender = some b
    ∧ s.opponentFirstAttackerChoice = some c ∧ s.opponentSecondAttackerChoice = some d
    ∧ s.firstAttackerChoice = some w ∧ s.secondAttackerChoice = some x
    ∧ s.opponentFirstDefender = some y ∧ s.opponentSecondDefender = some z
    ∧ [a, b, c, d].Nodup ∧ (∀ p ∈ [a, b, c, d], p ∈ s.teamMembers)
    ∧ [w, x, y, z].Nodup ∧ (∀ o ∈ [w, x, y, z], o ∈ s.opponents)

instance (s : AppState) (a b c d w x y z : Name) : Decidable (FullProtocol s a b c d w x y z) :=
  inferInstanceAs (Decidable (s.firstDefender = some a ∧ s.secondDefender = some b
    ∧ s.opponentFirstAttackerChoice = some c ∧ s.opponentSecondAttackerChoice = some d
    ∧ s.firstAttackerChoice = some w ∧ s.secondAttackerChoice = some x
    ∧ s.opponentFirstDefender = some y ∧ s.opponentSecondDefender = some z
    ∧ [a, b, c, d].Nodup ∧ (∀ p ∈ [a, b, c, d], p ∈ s.teamMembers)
    ∧ [w, x, y, z].Nodup ∧ (∀ o ∈ [w, x, y, z], o ∈ s.opponents)))

/-- The eight slots `collectManualPairs` reads. -/
def reconciliationSlots (s : AppState) : List (Option Name) :=
  [s.firstDefender, s.firstAttackerChoice, s.secondDefender, s.secondAttackerChoice,
   s.opponentFirstAttackerChoice, s.opponentFirstDefender,
   s.opponentSecondAttackerChoice, s.opponentSecondDefender]

/-- Every filled slot that `collectManualPairs` reads as a player names a
roster player, and every one it reads as an opponent names a roster
opponent. -/
def SlotsInRoster (s : AppState) : Prop :=
  (∀ slot ∈ [s.firstDefender, s.secondDefender, s.opponentFirstAttackerChoice,
      s.opponentSecondAttackerChoice], ∀ n, slot = some n → n ∈ s.teamMembers)
    ∧ ∀ slot ∈ [s.firstAttackerChoice, s.secondAttackerChoice, s.opponentFirstDefender,
      s.opponentSecondDefender], ∀ n, slot = some n → n ∈ s.opponents

/-- A state at the end of the protocol on the initial rosters: defenders
`P1` and `P4`, attackers `P2`, `P3` facing the opposing defenders `O1`, `O4`,
and `O2`, `O3` attacking our defenders. -/
def completedState : AppState :=
  { initialState "greedy" with
    step := 6
    firstDefender := some "P1"
    opponentFirstDefender := some "O1"
    firstAttackers := [some "P2", some "P3"]
    opponentFirstAttackers := [some "O2", some "O3"]
    firstAttackerChoice := some "O2"
    opponentFirstAttackerChoice := some "P2"
    secondDefender := some "P4"
    opponentSecondDefender := some "O4"
    secondAttackers := [some "P3", some "P5"]
    opponentSecondAttackers := [some "O3", some "O5"]
    secondAttackerChoice := some "O3"
    opponentSecondAttackerChoice := some "P3" }

/-- The state after the first three steps of the protocol on the initial
rosters: defenders `P1` and `O1`, attackers `P2`, `P3` and `O2`, `O3`, of
which `O2` attacks `P1` and `P2` attacks `O1`. -/
def afterThreeSteps : AppState :=
  { initialState "greedy" with
    step := 3
    firstDefender := some "P1"
    opponentFirstDefender := some "O1"
    firstAttackers := [some "P2", some "P3"]
    opponentFirstAttackers := [some "O2", some "O3"]
    firstAttackerChoice := some "O2"
    opponentFirstAttackerChoice := some "P2" }

/-- The state at step 2 of the protocol on the initial rosters once the
human has picked the attackers `P2` and `P3`. -/
def pickingAttackers : AppState :=
  { initialState "greedy" with
    step := 2
    firstDefender := some "P1"
    opponentFirstDefender := some "O1"
    firstAttackers := [some "P2", some "P3"] }

/-! ## Vocabulary of the recommendations -/

/-- The score `ratings[defender][attacker] || 0` of an attacker against a
defender with a row in the rating store. -/
def choiceScore (s : AppState) (defender : Name) (attacker : Option Name) : Int :=
  (ratingAt s.ratings defender (keyOf attacker)).getD 0

/-- The rating sum of a player against a list of opponents, entries absent
from the store counting as zero. -/
def ratingSumAgainst (s : AppState) (opponents : List Name) (player : Name) : Int :=
  (opponents.map fun o => (ratingAt s.ratings player o).getD 0).sum

/-- In the list `l` the element `x` is the first one whose score is
greatest: every element before it scores less, every element after it scores
no more. -/
def IsFirstMax {α β : Type} [Preorder β] (score : α → β) (l : List α) (x : α) : Prop :=
  ∃ pre post, l = pre ++ x :: post ∧ (∀ y ∈ pre, score y < score x)
    ∧ ∀ y ∈ post, score y ≤ score x

/-- The defender slot read at the attacker-choice step `step`: `firstDefender`
at step 3, `secondDefender` at step 6. -/
def choiceDefender (s : AppState) (step : Nat) : Option Name :=
  if step = 3 then s.firstDefender else s.secondDefender

/-- The attackers read at the attacker-choice step `step`:
`opponentFirstAttackers` at step 3, `opponentSecondAttackers` at step 6. -/
def choiceAttackers (s : AppState) (step : Nat) : List (Option Name) :=
  if step = 3 then s.opponentFirstAttackers else s.opponentSecondAttackers

/-- The mean rating of a player against a list of opponents. -/
def meanRatingAgainst (s : AppState) (opponents : List Name) (player : Name) : ℚ :=
  (ratingSumAgainst s opponents player : ℚ) / (opponents.length : ℚ)

/-- The initial state with the rating store replaced by `exampleRatings`. -/
def exampleState : AppState := { initialState "greedy" with ratings := exampleRatings }

/-! ## Vocabulary of the greedy bound and of the classifier on a matching -/

/-- The numeric rating of a pair, zero when it has none. -/
def ratingValue (q : Pair) : Int := q.rating.getD 0

/-- Descending order of numeric ratings. -/
def valueOrder (a b : Pair) : Prop := ratingValue b ≤ ratingValue a

instance : DecidableRel valueOrder := fun a b =>
  inferInstanceAs (Decidable (ratingValue b ≤ ratingValue a))

instance : IsTotal Pair valueOrder := ⟨fun a b => le_total (ratingValue b) (ratingValue a)⟩

instance : IsTrans Pair valueOrder := ⟨fun _ _ _ h₁ h₂ => le_trans h₂ h₁⟩

/-- The candidate `q` meets a chosen pair of `chosen` in its player or in its
opponent, and that pair is rated at least as high. -/
def Blocked (chosen : List Pair) (q : Pair) : Prop :=
  ∃ g ∈ chosen, (g.player = q.player ∨ g.opponent = q.opponent)
    ∧ ratingValue q ≤ ratingValue g

/-- A set of pairs over the rosters in which no player and no opponent
repeats. -/
def IsMatching (players opponents : List Name) (asg : List (Name × Name)) : Prop :=
  (asg.map fun x : Name × Name => x.1).Nodup ∧ (asg.map fun x : Name × Name => x.2).Nodup
    ∧ ∀ x ∈ asg, x.1 ∈ players ∧ x.2 ∈ opponents

instance (players opponents : List Name) (asg : List (Name × Name)) :
    Decidable (IsMatching players opponents asg) :=
  inferInstanceAs (Decidable ((asg.map fun x : Name × Name => x.1).Nodup
    ∧ (asg.map fun x : Name × Name => x.2).Nodup
    ∧ ∀ x ∈ asg, x.1 ∈ players ∧ x.2 ∈ opponents))

/-- The names of a list in order of first appearance. -/
def firstAppearances : List Name → List Name
  | [] => []
  | x :: xs => x :: (firstAppearances xs).filter fun y => y != x

/-- The group of a player named by the specification: its pairs in input
order, with the sum and the number of their ratings. -/
def groupOf (pairs : List Pair) (player : Name) : Name × PlayerScore :=
  (player,
    { sum := (pairs.filter fun p => keyOf p.player == player).foldl
        (fun acc p => jsAdd acc p.rating) (some 0)
      count := (pairs.filter fun p => keyOf p.player == player).length
      pairs := pairs.filter fun p => keyOf p.player == player })

/-- Defender selection in the words of the specification: group the pairs by
player, rank the players by descending mean rating with ties in order of
first appearance, take the first `count` players and emit for each its first
pair of highest rating. -/
def specDefenders (pairs : List Pair) (count : Nat) : List Pair :=
  (((((firstAppearances (pairs.map fun p => keyOf p.player)).map (groupOf pairs)).map
    scoredOf).insertionSort avgOrder).take count).map (·.bestPair)

/-- The input stably sorted by descending rating. -/
def stableByRating (pairs : List Pair) : List Pair := pairs.insertionSort ratingOrder

/-- No player of the pairs is named by a canonical array index. -/
def NoIndexNames (pairs : List Pair) : Prop :=
  ∀ p ∈ pairs, arrayIndex (keyOf p.player) = none

instance (pairs : List Pair) : Decidable (NoIndexNames pairs) :=
  inferInstanceAs (Decidable (∀ p ∈ pairs, arrayIndex (keyOf p.player) = none))

/-- Rating store of the players `3`, `2`, `1` against the opponents `X`, `Y`,
`Z`, every rating 3. -/
def indexNamedRatings : Ratings :=
  ["3", "2", "1"].map fun p => (p, ["X", "Y", "Z"].map fun o => (o, (3 : Int)))

/-- The matching of the players `3`, `2`, `1`, in this order, all rated 3. -/
def tiedIndexPairs : List Pair :=
  [⟨some "3", some "X", some 3⟩, ⟨some "2", some "Y", some 3⟩, ⟨some "1", some "Z", some 3⟩]

/-- Order of two pairs in the stable descending sort of `l`: the higher
rating first and, among equal ratings, the pair that comes first in `l`. -/
def StableBefore (l : List Pair) (a b : Pair) : Prop :=
  ratingValue b < ratingValue a ∨ (ratingValue a = ratingValue b ∧ [a, b].Sublist l)

/-- The item `findBestDefenders` builds for the player of a pair that is the
only pair of its player. -/
def scoredSingle (p : Pair) : Scored :=
  scoredOf (keyOf p.player, { sum := jsAdd (some 0) p.rating, count := 1, pairs := [p] })

/-- A matching as the solvers hand it to the classifier: no two pairs have
the same player key or the same opponent, and every rating is a number. -/
def IsPairMatching (pairs : List Pair) : Prop :=
  (pairs.map fun p : Pair => keyOf p.player).Nodup
    ∧ (pairs.map fun p : Pair => p.opponent).Nodup ∧ ∀ q ∈ pairs, q.rating.isSome

instance (pairs : List Pair) : Decidable (IsPairMatching pairs) :=
  inferInstanceAs (Decidable ((pairs.map fun p : Pair => keyOf p.player).Nodup
    ∧ (pairs.map fun p : Pair => p.opponent).Nodup ∧ ∀ q ∈ pairs, q.rating.isSome))

/-- A fully populated rating store for the one player `constructor` and the
one opponent `X`. -/
def constructorRatings : Ratings := [("constructor", [("X", 3)])]

/-- Ratings of the players `A` and `B` against `X`, `Y`, `Z`, for a roster in
which the name `A` occurs twice. -/
def duplicateRatings : Ratings :=
  [("A", [("X", 5), ("Y", 1), ("Z", 3)]), ("B", [("X", 5), ("Y", 1), ("Z", 1)])]

/-- A stand-in for `munkres` on the cost matrix of `duplicateRatings` for the
players `A`, `A`, `B`: rows 0, 1, 2 to columns 2, 1, 0, of the minimum cost
9. -/
def duplicateMunkres : Munkres := fun _ => [(0, 2), (1, 1), (2, 0)]

/-! ## Lemmas -/

/-! ### `mapThrow` and `foldThrow` -/

theorem mapThrow_eq_some_map {α β : Type} (f : α → Option β) (g : α → β) :
    ∀ l : List α, (∀ a ∈ l, f a = some (g a)) → mapThrow f l = some (l.map g)
  | [], _ => rfl
  | a :: as, h => by
    have ha := h a (List.mem_cons_self _ _)
    have ih := mapThrow_eq_some_map f g as (fun b hb => h b (List.mem_cons_of_mem _ hb))
    simp [mapThrow, ha, ih]

theorem mapThrow_some_forall₂ {α β : Type} (f : α → Option β) :
    ∀ (l : List α) (bs : List β), mapThrow f l = some bs →
      List.Forall₂ (fun a b => f a = some b) l bs
  | [], bs, h => by
    simp [mapThrow] at h
    subst h
    exact List.Forall₂.nil
  | a :: as, bs, h => by
    unfold mapThrow at h
    cases hfa : f a with
    | none => simp [hfa] at h
    | some b =>
      cases hrec : mapThrow f as with
      | none => simp [hfa, hrec] at h
      | some bs1 =>
        simp [hfa, hrec] at h
        subst h
        exact List.Forall₂.cons hfa (mapThrow_some_forall₂ f as bs1 hrec)

/-! ### Grouping by player in `findBestDefenders` -/

theorem addEntry_keys (p : Pair) (obj : List (Name × PlayerScore)) :
    scoreKeys (addEntry p obj) =
      if keyOf p.player ∈ scoreKeys obj then scoreKeys obj
      else scoreKeys obj ++ [keyOf p.player] := by
  induction obj with
  | nil => simp [addEntry, scoreKeys]
  | cons e es ih =>
    unfold addEntry
    by_cases h : e.1 = keyOf p.player
    · simp [h, scoreKeys]
    · have h2 : ¬ keyOf p.player = e.1 := fun h3 => h h3.symm
      simp only [scoreKeys] at ih
      simp only [h, if_false, scoreKeys, List.map_cons, List.mem_cons, h2, false_or, ih]
      split <;> simp

theorem addEntry_perm (p : Pair) (obj : List (Name × PlayerScore)) :
    (scorePairs (addEntry p obj)).Perm (scorePairs obj ++ [p]) := by
  induction obj with
  | nil => simp [addEntry, scorePairs]
  | cons e es ih =>
    unfold addEntry
    by_cases h : e.1 = keyOf p.player
    · simp only [h, if_true, scorePairs, List.flatMap_cons, List.append_assoc]
      exact List.Perm.append_left _ List.perm_append_comm
    · simp only [h, if_false, scorePairs, List.flatMap_cons, List.append_assoc]
      exact List.Perm.append_left _ ih

theorem addEntry_ok (p : Pair) (obj : List (Name × PlayerScore)) (h : ScoresOk obj) :
    ScoresOk (addEntry p obj) := by
  induction obj with
  | nil =>
    intro e he
    simp [addEntry] at he
    subst he
    simp
  | cons e es ih =>
    have hes : ScoresOk es := fun x hx => h x (List.mem_cons_of_mem _ hx)
    have he := h e (List.mem_cons_self _ _)
    unfold addEntry
    by_cases hk : e.1 = keyOf p.player
    · simp only [hk, if_true]
      intro x hx
      rcases List.mem_cons.1 hx with rfl | hx
      · refine ⟨by simp, ?_⟩
        intro q hq
        rcases List.mem_append.1 hq with hq | hq
        · simpa [hk] using he.2 q hq
        · simp at hq
          subst hq
          rfl
      · exact hes x hx
    · simp only [hk, if_false]
      intro x hx
      rcases List.mem_cons.1 hx with rfl | hx
      · exact he
      · exact ih hes x hx

theorem foldl_addEntry_perm (pairs : List Pair) :
    ∀ obj : List (Name × PlayerScore),
      (scorePairs (pairs.foldl (fun acc pair => addEntry pair acc) obj)).Perm
        (scorePairs obj ++ pairs) := by
  induction pairs with
  | nil => intro obj; simp
  | cons p ps ih =>
    intro obj
    simp only [List.foldl_cons]
    refine (ih (addEntry p obj)).trans ?_
    refine ((addEntry_perm p obj).append_right ps).trans ?_
    simp

theorem foldl_addEntry_ok (pairs : List Pair) :
    ∀ obj : List (Name × PlayerScore), ScoresOk obj →
      ScoresOk (pairs.foldl (fun acc pair => addEntry pair acc) obj) := by
  induction pairs with
  | nil => intro obj h; simpa using h
  | cons p ps ih =>
    intro obj h
    simp only [List.foldl_cons]
    exact ih _ (addEntry_ok p obj h)

theorem foldl_addEntry_keys_nodup (pairs : List Pair) :
    ∀ obj : List (Name × PlayerScore), (scoreKeys obj).Nodup →
      (scoreKeys (pairs.foldl (fun acc pair => addEntry pair acc) obj)).Nodup := by
  induction pairs with
  | nil => intro obj h; simpa using h
  | cons p ps ih =>
    intro obj h
    simp only [List.foldl_cons]
    apply ih
    rw [addEntry_keys]
    split
    · exact h
    · rename_i hk
      exact List.Nodup.append h (List.nodup_singleton _) (by simpa using hk)

theorem foldl_addEntry_mem_keys (pairs : List Pair) :
    ∀ (obj : List (Name × PlayerScore)) (k : Name),
      k ∈ scoreKeys (pairs.foldl (fun acc pair => addEntry pair acc) obj) ↔
        k ∈ scoreKeys obj ∨ k ∈ pairs.map (fun p => keyOf p.player) := by
  induction pairs with
  | nil => intro obj k; simp
  | cons p ps ih =>
    intro obj k
    simp only [List.foldl_cons]
    rw [ih, addEntry_keys]
    split
    · rename_i hk
      simp only [List.map_cons, List.mem_cons]
      constructor
      · rintro (h | h)
        · exact Or.inl h
        · exact Or.inr (Or.inr h)
      · rintro (h | h | h)
        · exact Or.inl h
        · exact Or.inl (h ▸ hk)
        · exact Or.inr h
    · simp only [List.map_cons, List.mem_cons, List.mem_append, List.mem_singleton]
      tauto

theorem playerScoresOf_perm (pairs : List Pair) :
    (scorePairs (playerScoresOf pairs)).Perm pairs := by
  simpa [playerScoresOf, scorePairs] using foldl_addEntry_perm pairs []

theorem playerScoresOf_ok (pairs : List Pair) : ScoresOk (playerScoresOf pairs) :=
  foldl_addEntry_ok pairs [] (fun e he => by simp at he)

theorem playerScoresOf_keys_nodup (pairs : List Pair) :
    (scoreKeys (playerScoresOf pairs)).Nodup :=
  foldl_addEntry_keys_nodup pairs [] (by simp [scoreKeys])

theorem playerScoresOf_mem_keys (pairs : List Pair) (k : Name) :
    k ∈ scoreKeys (playerScoresOf pairs) ↔ k ∈ pairs.map (fun p => keyOf p.player) := by
  simpa [playerScoresOf, scoreKeys] using foldl_addEntry_mem_keys pairs [] k

theorem objectEntries_perm (obj : List (Name × PlayerScore)) :
    (objectEntries obj).Perm obj := by
  unfold objectEntries
  refine ((List.perm_insertionSort _ _).append_right _).trans ?_
  exact List.filter_append_perm _ _

theorem foldl_best_mem (ps : List Pair) :
    ∀ p : Pair, ps.foldl
      (fun best current => if jsGt current.rating best.rating then current else best) p
        ∈ p :: ps := by
  induction ps with
  | nil => intro p; simp
  | cons q qs ih =>
    intro p
    simp only [List.foldl_cons]
    split
    · exact List.mem_cons_of_mem _ (ih q)
    · rcases List.mem_cons.1 (ih p) with h | h
      · rw [h]; exact List.mem_cons_self _ _
      · exact List.mem_cons_of_mem _ (List.mem_cons_of_mem _ h)

theorem reduceBest_eq (ps : List Pair) (h : ps ≠ []) : reduceBest ps = some (bestOf ps) := by
  cases ps with
  | nil => exact absurd rfl h
  | cons p ps => simp [bestOf, reduceBest]

theorem bestOf_mem (ps : List Pair) (h : ps ≠ []) : bestOf ps ∈ ps := by
  cases ps with
  | nil => exact absurd rfl h
  | cons p ps =>
    simp only [bestOf, reduceBest, Option.getD_some]
    exact foldl_best_mem ps p

/-- The loop of `findBestDefenders` throws as soon as a player is named by
a property of `Object.prototype`, and builds `playerScores` otherwise. -/
theorem foldThrow_addScore (pairs : List Pair) :
    ∀ obj : List (Name × PlayerScore), (∀ k ∈ scoreKeys obj, k ∉ objectPrototypeKeys) →
      foldThrow (fun acc pair => addScore pair acc) obj pairs
        = if NoInheritedNames pairs
          then some (pairs.foldl (fun acc pair => addEntry pair acc) obj) else none := by
  induction pairs with
  | nil =>
    intro obj _
    have : NoInheritedNames [] := fun p hp => by simp at hp
    rw [if_pos this]
    rfl
  | cons p ps ih =>
    intro obj hobj
    by_cases hp : keyOf p.player ∈ objectPrototypeKeys
    · have hnot : ¬ NoInheritedNames (p :: ps) := fun h => h p (List.mem_cons_self _ _) hp
      have hnone : obj.lookup (keyOf p.player) = none := by
        rw [List.lookup_eq_none_iff]
        intro e he
        have hk : e.1 ∈ scoreKeys obj := List.mem_map_of_mem (·.1) he
        have hne : keyOf p.player ≠ e.1 := fun heq => hobj _ hk (heq ▸ hp)
        simpa using hne
      rw [if_neg hnot]
      simp [foldThrow, addScore, hnone, hp]
    · have hstep : addScore p obj = some (addEntry p obj) := by
        simp [addScore, hp]
      have hkeys : ∀ k ∈ scoreKeys (addEntry p obj), k ∉ objectPrototypeKeys := by
        intro k hk
        rw [addEntry_keys] at hk
        split at hk
        · exact hobj k hk
        · rcases List.mem_append.1 hk with hk | hk
          · exact hobj k hk
          · rw [List.mem_singleton.1 hk]
            exact hp
      have hiff : NoInheritedNames (p :: ps) ↔ NoInheritedNames ps := by
        constructor
        · intro h q hq
          exact h q (List.mem_cons_of_mem _ hq)
        · intro h q hq
          rcases List.mem_cons.1 hq with rfl | hq
          · exact hp
          · exact h q hq
      simp only [foldThrow, hstep, List.foldl_cons]
      rw [ih _ hkeys]
      by_cases hps : NoInheritedNames ps
      · rw [if_pos hps, if_pos (hiff.2 hps)]
      · rw [if_neg hps, if_neg (fun h => hps (hiff.1 h))]

theorem findBestDefenders_eq (pairs : List Pair) (count : Nat) (hown : NoInheritedNames pairs) :
    findBestDefenders pairs count =
      some (((((objectEntries (playerScoresOf pairs)).map scoredOf).insertionSort
        avgOrder).take count).map (·.bestPair)) := by
  unfold findBestDefenders
  rw [foldThrow_addScore pairs [] (by intro k hk; simp [scoreKeys] at hk), if_pos hown]
  have h := mapThrow_eq_some_map
    (fun e : Name × PlayerScore =>
      (reduceBest e.2.pairs).map fun bp =>
        ({ player := e.1, avgNum := e.2.sum, avgDen := e.2.count, bestPair := bp } : Scored))
    scoredOf (objectEntries (playerScoresOf pairs)) (by
      intro e he
      have hmem : e ∈ playerScoresOf pairs := (objectEntries_perm _).mem_iff.1 he
      have hne := (playerScoresOf_ok pairs e hmem).1
      simp [reduceBest_eq _ hne, scoredOf])
  simp only [playerScoresOf] at h
  simp only [h, playerScoresOf]

/-- With a player named by a property of `Object.prototype`,
`findBestDefenders` throws. -/
theorem findBestDefenders_throws (pairs : List Pair) (count : Nat)
    (h : ¬ NoInheritedNames pairs) : findBestDefenders pairs count = none := by
  unfold findBestDefenders
  rw [foldThrow_addScore pairs [] (by intro k hk; simp [scoreKeys] at hk), if_neg h]

/-! ### Sub-permutations -/

theorem subperm_map {α β : Type} (f : α → β) {l₁ l₂ : List α} (h : l₁.Subperm l₂) :
    (l₁.map f).Subperm (l₂.map f) := by
  obtain ⟨l, hp, hs⟩ := h
  exact ⟨l.map f, hp.map f, hs.map f⟩

theorem subperm_append {α : Type} {l₁ l₂ l₃ l₄ : List α} (h₁ : l₁.Subperm l₂)
    (h₂ : l₃.Subperm l₄) : (l₁ ++ l₃).Subperm (l₂ ++ l₄) :=
  ((List.subperm_append_right l₃).2 h₁).trans ((List.subperm_append_left l₂).2 h₂)

theorem subperm_nodup {α : Type} {l₁ l₂ : List α} (h : l₁.Subperm l₂) (hn : l₂.Nodup) :
    l₁.Nodup := by
  obtain ⟨l, hp, hs⟩ := h
  exact hp.nodup_iff.1 (hn.sublist hs)

theorem map_subperm_flatMap {α β : Type} (f : α → β) (g : α → List β) :
    ∀ l : List α, (∀ a ∈ l, f a ∈ g a) → (l.map f).Subperm (l.flatMap g)
  | [], _ => by simp
  | a :: as, h => by
    have ha : [f a].Subperm (g a) :=
      (List.singleton_sublist.2 (h a (List.mem_cons_self _ _))).subperm
    have ih := map_subperm_flatMap f g as (fun b hb => h b (List.mem_cons_of_mem _ hb))
    simpa using subperm_append ha ih

/-! ### The defenders chosen by `findBestDefenders` -/

theorem scored_subperm (pairs : List Pair) (count : Nat) :
    ((((objectEntries (playerScoresOf pairs)).map scoredOf).insertionSort
      avgOrder).take count).Subperm ((playerScoresOf pairs).map scoredOf) := by
  refine (List.take_sublist _ _).subperm.trans ?_
  refine (List.perm_insertionSort _ _).subperm.trans ?_
  exact ((objectEntries_perm _).map _).subperm

theorem defendersOf_subperm (pairs : List Pair) (count : Nat) :
    (defendersOf pairs count).Subperm pairs := by
  unfold defendersOf
  refine (subperm_map (·.bestPair) (scored_subperm pairs count)).trans ?_
  rw [List.map_map]
  have hp : ((playerScoresOf pairs).flatMap fun e => e.2.pairs).Subperm pairs :=
    (playerScoresOf_perm pairs).subperm
  refine (map_subperm_flatMap _ (fun e => e.2.pairs) (playerScoresOf pairs) ?_).trans hp
  intro e he
  exact bestOf_mem _ (playerScoresOf_ok pairs e he).1

theorem defendersOf_keys_nodup (pairs : List Pair) (count : Nat) :
    ((defendersOf pairs count).map (fun p => keyOf p.player)).Nodup := by
  unfold defendersOf
  rw [List.map_map]
  refine subperm_nodup (subperm_map _ (scored_subperm pairs count)) ?_
  rw [List.map_map]
  have h : (playerScoresOf pairs).map
      (((fun p : Pair => keyOf p.player) ∘ fun s : Scored => s.bestPair) ∘ scoredOf)
      = scoreKeys (playerScoresOf pairs) := by
    unfold scoreKeys
    apply List.map_congr_left
    intro e he
    have hok := playerScoresOf_ok pairs e he
    exact hok.2 _ (bestOf_mem _ hok.1)
  rw [h]
  exact playerScoresOf_keys_nodup pairs

theorem defendersOf_length (pairs : List Pair) (count : Nat) :
    (defendersOf pairs count).length = min count (scoreKeys (playerScoresOf pairs)).length := by
  unfold defendersOf scoreKeys
  simp [List.length_insertionSort, (objectEntries_perm (playerScoresOf pairs)).length_eq]
/-! ### The three parts of the classifier output -/

theorem unusedBy_eq (used : List Pair) :
    unusedBy used = fun p =>
      !(decide (p.player ∈ used.map (·.player)))
        && !(decide (p.opponent ∈ used.map (·.opponent))) := rfl

/-- When no player is named by a property of `Object.prototype` the
classifier returns the classified list. -/
theorem adaptToTournamentRules_eq (pairs : List Pair) (hown : NoInheritedNames pairs) :
    adaptToTournamentRules pairs = some (classified pairs) := by
  unfold adaptToTournamentRules
  rw [findBestDefenders_eq pairs 2 hown]
  simp only [classified, attackersOf, restOf, unusedBy_eq, defendersOf, List.map_append]

/-- With a player named by a property of `Object.prototype` the classifier
throws. -/
theorem adaptToTournamentRules_throws (pairs : List Pair) (h : ¬ NoInheritedNames pairs) :
    adaptToTournamentRules pairs = none := by
  unfold adaptToTournamentRules
  rw [findBestDefenders_throws pairs 2 h]

/-- Whatever the classifier returns is the classified list, and then no
player is named by a property of `Object.prototype`. -/
theorem adapt_some (pairs : List Pair) (res : List TypedPair)
    (h : adaptToTournamentRules pairs = some res) :
    NoInheritedNames pairs ∧ res = classified pairs := by
  by_cases hown : NoInheritedNames pairs
  · rw [adaptToTournamentRules_eq pairs hown] at h
    exact ⟨hown, (Option.some.inj h).symm⟩
  · rw [adaptToTournamentRules_throws pairs hown] at h
    cases h

theorem noInheritedNames_of_players (names : List Name) (pairs : List Pair)
    (hown : OwnNames names)
    (h : ∀ q ∈ pairs, q.player = none ∨ ∃ n ∈ names, q.player = some n) :
    NoInheritedNames pairs := by
  intro q hq
  rcases h q hq with hnone | ⟨n, hn, hsome⟩
  · rw [hnone]
    decide
  · rw [hsome]
    exact hown n hn

theorem untyped_map_withType (t : Role) (l : List Pair) :
    untyped (l.map (withType t)) = l := by
  simp [untyped, withType, Function.comp_def]

theorem adapt_untyped (pairs : List Pair) (res : List TypedPair)
    (h : adaptToTournamentRules pairs = some res) :
    untyped res = defendersOf pairs 2 ++ attackersOf pairs ++ restOf pairs := by
  obtain ⟨_, rfl⟩ := adapt_some pairs res h
  unfold classified
  have := untyped_map_withType
  simp only [untyped] at this ⊢
  simp only [List.map_append, this]

theorem unusedBy_false_of_mem (used : List Pair) (p : Pair) (h : p ∈ used) :
    unusedBy used p = false := by
  have : p.player ∈ used.map (·.player) := List.mem_map_of_mem _ h
  simp [unusedBy, this]

theorem append_filter_unused_subperm (pairs used : List Pair) (h : used.Subperm pairs) :
    (used ++ pairs.filter (unusedBy used)).Subperm pairs := by
  have h1 : (used.filter (fun p => !unusedBy used p)).Subperm
      (pairs.filter (fun p => !unusedBy used p)) := h.filter _
  have h2 : used.filter (fun p => !unusedBy used p) = used := by
    apply List.filter_eq_self.2
    intro p hp
    simp [unusedBy_false_of_mem used p hp]
  rw [h2] at h1
  refine ((List.subperm_append_right _).2 h1).trans ?_
  refine List.Perm.subperm ?_
  refine List.perm_append_comm.trans ?_
  exact List.filter_append_perm _ _

theorem attackersOf_subperm (pairs : List Pair) :
    (attackersOf pairs).Subperm (pairs.filter (unusedBy (defendersOf pairs 2))) := by
  unfold attackersOf findBestAttackers
  exact (List.take_sublist _ _).subperm.trans (List.perm_insertionSort _ _).subperm

theorem defenders_attackers_subperm (pairs : List Pair) :
    (defendersOf pairs 2 ++ attackersOf pairs).Subperm pairs :=
  ((List.subperm_append_left _).2 (attackersOf_subperm pairs)).trans
    (append_filter_unused_subperm pairs _ (defendersOf_subperm pairs 2))

/-- The classifier emits each input pair at most once. -/
theorem classified_subperm (pairs : List Pair) :
    (defendersOf pairs 2 ++ attackersOf pairs ++ restOf pairs).Subperm pairs :=
  append_filter_unused_subperm pairs _ (defenders_attackers_subperm pairs)

/-- On a matching the classifier emits every input pair exactly once. -/
theorem classified_perm (pairs : List Pair) (hp : (pairs.map (·.player)).Nodup)
    (ho : (pairs.map (·.opponent)).Nodup) :
    (defendersOf pairs 2 ++ attackersOf pairs ++ restOf pairs).Perm pairs := by
  have hsp := defenders_attackers_subperm pairs
  apply (classified_subperm pairs).perm_of_length_le
  unfold restOf
  generalize defendersOf pairs 2 ++ attackersOf pairs = used at *
  have hsub : used ⊆ pairs := hsp.subset
  have hnd : pairs.Nodup := List.Nodup.of_map _ hp
  have h1 : (pairs.filter (fun p => !unusedBy used p)).Subperm used := by
    apply List.subperm_of_subset (hnd.filter _)
    intro p hp1
    rw [List.mem_filter] at hp1
    obtain ⟨hmem, hun⟩ := hp1
    simp only [unusedBy, Bool.not_and, Bool.not_not, Bool.or_eq_true, decide_eq_true_eq,
      List.mem_map] at hun
    rcases hun with ⟨d, hd, hdp⟩ | ⟨d, hd, hdo⟩
    · have : d = p := List.inj_on_of_nodup_map hp (hsub hd) hmem hdp
      exact this ▸ hd
    · have : d = p := List.inj_on_of_nodup_map ho (hsub hd) hmem hdo
      exact this ▸ hd
  have h2 := h1.length_le
  have h3 := (List.filter_append_perm (fun p => !unusedBy used p) pairs).length_eq
  have h4 : pairs.filter (fun p => !(!unusedBy used p)) = pairs.filter (unusedBy used) := by
    congr 1
    funext p
    simp
  rw [List.length_append, h4] at h3
  rw [List.length_append]
  omega
/-! ### Reading the rating store -/

theorem getRating_of_row (ratings : Ratings) (p o : Name)
    (h : (ratings.lookup p).isSome) :
    getRating ratings (some p) (some o) = some (ratingAt ratings p o) := by
  unfold getRating ratingAt keyOf
  cases hrow : ratings.lookup p with
  | none => simp [hrow] at h
  | some row => simp

/-! ### The greedy scan -/

theorem greedyAllPairs_eq (teamMembers opponents : List Name) (ratings : Ratings)
    (h : ∀ p ∈ teamMembers, ∀ o ∈ opponents, (ratings.lookup p).isSome) :
    greedyAllPairs teamMembers opponents ratings
      = some (candidatePairs teamMembers opponents ratings) := by
  unfold greedyAllPairs candidatePairs
  rw [mapThrow_eq_some_map _ (fun p => opponents.map fun o =>
    ({ player := some p, opponent := some o, rating := ratingAt ratings p o } : Pair))]
  · simp [List.flatMap]
  · intro p hp
    apply mapThrow_eq_some_map
    intro o ho
    simp [getRating_of_row ratings p o (h p hp o ho)]

theorem greedyAlgorithm_eq (teamMembers opponents : List Name) (ratings : Ratings)
    (h : ∀ p ∈ teamMembers, ∀ o ∈ opponents, (ratings.lookup p).isSome) :
    greedyAlgorithm teamMembers opponents ratings
      = adaptToTournamentRules
          (greedyMatching (candidatePairs teamMembers opponents ratings)) := by
  unfold greedyAlgorithm
  rw [greedyAllPairs_eq _ _ _ h]
  rfl

theorem greedyInv_init : GreedyInv [] greedyInit := by
  simp [GreedyInv, greedyInit]

theorem greedyInv_step (seen : List Pair) (s : GreedyState) (q : Pair)
    (h : GreedyInv seen s) : GreedyInv (seen ++ [q]) (greedyStep s q) := by
  obtain ⟨h1, h2, h3, h4, h5, h6⟩ := h
  unfold greedyStep
  by_cases hq : (!(decide (q.player ∈ s.usedPlayers))
      && !(decide (q.opponent ∈ s.usedOpponents))) = true
  · rw [if_pos hq]
    simp only [Bool.and_eq_true, Bool.not_eq_true', decide_eq_false_iff_not] at hq
    obtain ⟨hq1, hq2⟩ := hq
    rw [h1] at hq1
    rw [h2] at hq2
    refine ⟨by simp [h1], by simp [h2], ?_, ?_, ?_, ?_⟩
    · simp only [List.map_append, List.map_cons, List.map_nil]
      exact List.Nodup.append h3 (List.nodup_singleton _) (by simpa using hq1)
    · simp only [List.map_append, List.map_cons, List.map_nil]
      exact List.Nodup.append h4 (List.nodup_singleton _) (by simpa using hq2)
    · intro x hx
      rcases List.mem_append.1 hx with hx | hx
      · exact List.mem_append_left _ (h5 x hx)
      · exact List.mem_append_right _ hx
    · intro x hx
      rcases List.mem_append.1 hx with hx | hx
      · rcases h6 x hx with h | h
        · exact Or.inl (List.mem_append_left _ h)
        · exact Or.inr (List.mem_append_left _ h)
      · simp only [List.mem_singleton] at hx
        subst hx
        exact Or.inl (by simp)
  · rw [if_neg hq]
    simp only [Bool.and_eq_true, Bool.not_eq_true', decide_eq_false_iff_not, not_and,
      not_not] at hq
    refine ⟨h1, h2, h3, h4, ?_, ?_⟩
    · intro x hx
      exact List.mem_append_left _ (h5 x hx)
    · intro x hx
      rcases List.mem_append.1 hx with hx | hx
      · exact h6 x hx
      · simp only [List.mem_singleton] at hx
        subst hx
        by_cases hp : x.player ∈ s.usedPlayers
        · exact Or.inl hp
        · exact Or.inr (hq hp)

theorem greedyInv_foldl (l : List Pair) :
    ∀ (seen : List Pair) (s : GreedyState), GreedyInv seen s →
      GreedyInv (seen ++ l) (l.foldl greedyStep s) := by
  induction l with
  | nil => intro seen s h; simpa using h
  | cons q qs ih =>
    intro seen s h
    have := ih (seen ++ [q]) (greedyStep s q) (greedyInv_step seen s q h)
    simpa using this

theorem greedyMatching_inv (candidates : List Pair) :
    GreedyInv (candidates.insertionSort ratingOrder)
      ((candidates.insertionSort ratingOrder).foldl greedyStep greedyInit) := by
  simpa using greedyInv_foldl (candidates.insertionSort ratingOrder) [] greedyInit greedyInv_init

theorem greedyMatching_players_nodup (candidates : List Pair) :
    ((greedyMatching candidates).map (·.player)).Nodup :=
  (greedyMatching_inv candidates).2.2.1

theorem greedyMatching_opponents_nodup (candidates : List Pair) :
    ((greedyMatching candidates).map (·.opponent)).Nodup :=
  (greedyMatching_inv candidates).2.2.2.1

theorem greedyMatching_subset (candidates : List Pair) :
    ∀ q ∈ greedyMatching candidates, q ∈ candidates := by
  intro q hq
  exact (List.perm_insertionSort _ _).mem_iff.1 ((greedyMatching_inv candidates).2.2.2.2.1 q hq)

theorem greedyMatching_maximal (candidates : List Pair) :
    ∀ q ∈ candidates, q.player ∈ (greedyMatching candidates).map (·.player)
      ∨ q.opponent ∈ (greedyMatching candidates).map (·.opponent) := by
  intro q hq
  obtain ⟨h1, h2, _, _, _, h6⟩ := greedyMatching_inv candidates
  have := h6 q ((List.perm_insertionSort _ _).mem_iff.2 hq)
  rw [h1, h2] at this
  exact this
theorem mem_candidatePairs (teamMembers opponents : List Name) (ratings : Ratings) (q : Pair) :
    q ∈ candidatePairs teamMembers opponents ratings ↔
      ∃ p ∈ teamMembers, ∃ o ∈ opponents,
        q = { player := some p, opponent := some o, rating := ratingAt ratings p o } := by
  unfold candidatePairs
  simp only [List.mem_flatMap, List.mem_map]
  constructor
  · rintro ⟨p, hp, o, ho, rfl⟩
    exact ⟨p, hp, o, ho, rfl⟩
  · rintro ⟨p, hp, o, ho, rfl⟩
    exact ⟨p, hp, o, ho, rfl⟩

theorem length_le_of_nodup_subset {α : Type} {l₁ l₂ : List α} (hn : l₁.Nodup)
    (hs : l₁ ⊆ l₂) : l₁.length ≤ l₂.length :=
  (List.subperm_of_subset hn hs).length_le

theorem greedyMatching_players_subset (teamMembers opponents : List Name) (ratings : Ratings) :
    (greedyMatching (candidatePairs teamMembers opponents ratings)).map (·.player)
      ⊆ teamMembers.map some := by
  intro x hx
  obtain ⟨q, hq, rfl⟩ := List.mem_map.1 hx
  obtain ⟨p, hp, o, _, rfl⟩ := (mem_candidatePairs _ _ _ q).1 (greedyMatching_subset _ q hq)
  exact List.mem_map_of_mem _ hp

theorem greedyMatching_opponents_subset (teamMembers opponents : List Name)
    (ratings : Ratings) :
    (greedyMatching (candidatePairs teamMembers opponents ratings)).map (·.opponent)
      ⊆ opponents.map some := by
  intro x hx
  obtain ⟨q, hq, rfl⟩ := List.mem_map.1 hx
  obtain ⟨p, _, o, ho, rfl⟩ := (mem_candidatePairs _ _ _ q).1 (greedyMatching_subset _ q hq)
  exact List.mem_map_of_mem _ ho

theorem greedyMatching_covers (teamMembers opponents : List Name) (ratings : Ratings) :
    teamMembers.map some
        ⊆ (greedyMatching (candidatePairs teamMembers opponents ratings)).map (·.player)
      ∨ opponents.map some
        ⊆ (greedyMatching (candidatePairs teamMembers opponents ratings)).map (·.opponent) := by
  by_cases h : teamMembers.map some
      ⊆ (greedyMatching (candidatePairs teamMembers opponents ratings)).map (·.player)
  · exact Or.inl h
  · right
    rw [List.subset_def] at h
    push_neg at h
    obtain ⟨x, hx, hxn⟩ := h
    obtain ⟨p, hp, rfl⟩ := List.mem_map.1 hx
    intro y hy
    obtain ⟨o, ho, rfl⟩ := List.mem_map.1 hy
    have hq : ({ player := some p, opponent := some o, rating := ratingAt ratings p o } : Pair)
        ∈ candidatePairs teamMembers opponents ratings :=
      (mem_candidatePairs _ _ _ _).2 ⟨p, hp, o, ho, rfl⟩
    rcases greedyMatching_maximal _ _ hq with h1 | h1
    · exact absurd h1 hxn
    · exact h1

/-- The greedy scan stops only when one side is exhausted. -/
theorem greedyMatching_length (teamMembers opponents : List Name) (ratings : Ratings)
    (hp : teamMembers.Nodup) (ho : opponents.Nodup) :
    (greedyMatching (candidatePairs teamMembers opponents ratings)).length
      = min teamMembers.length opponents.length := by
  have h1 := length_le_of_nodup_subset (greedyMatching_players_nodup _)
    (greedyMatching_players_subset teamMembers opponents ratings)
  have h2 := length_le_of_nodup_subset (greedyMatching_opponents_nodup _)
    (greedyMatching_opponents_subset teamMembers opponents ratings)
  have hp' : (teamMembers.map some).Nodup := hp.map (Option.some_injective _)
  have ho' : (opponents.map some).Nodup := ho.map (Option.some_injective _)
  simp only [List.length_map] at h1 h2
  rcases greedyMatching_covers teamMembers opponents ratings with h | h
  · have h3 := length_le_of_nodup_subset hp' h
    simp only [List.length_map] at h3
    omega
  · have h3 := length_le_of_nodup_subset ho' h
    simp only [List.length_map] at h3
    omega

/-! ### Lengths and totals of classified lists -/

theorem classified_length_of_matching (pairs : List Pair) (res : List TypedPair)
    (h : adaptToTournamentRules pairs = some res)
    (hp : (pairs.map (·.player)).Nodup) (ho : (pairs.map (·.opponent)).Nodup) :
    res.length = pairs.length := by
  have h1 := adapt_untyped pairs res h
  have h2 := (classified_perm pairs hp ho).length_eq
  rw [← h1] at h2
  simpa [untyped] using h2

theorem subperm_filterMap {α β : Type} (f : α → Option β) {l₁ l₂ : List α}
    (h : l₁.Subperm l₂) : (l₁.filterMap f).Subperm (l₂.filterMap f) := by
  obtain ⟨l, hp, hs⟩ := h
  exact ⟨l.filterMap f, hp.filterMap f, hs.filterMap f⟩

theorem noRepeat_of_untyped_subperm (res : List TypedPair) (pairs : List Pair)
    (h : (untyped res).Subperm pairs)
    (hp : (pairs.filterMap (·.player)).Nodup) (ho : (pairs.filterMap (·.opponent)).Nodup) :
    NoRepeat res := by
  have e1 : res.filterMap (·.player) = (untyped res).filterMap (·.player) := by
    simp [untyped, List.filterMap_map, Function.comp_def]
  have e2 : res.filterMap (·.opponent) = (untyped res).filterMap (·.opponent) := by
    simp [untyped, List.filterMap_map, Function.comp_def]
  refine ⟨?_, ?_⟩
  · rw [e1]
    exact subperm_nodup (subperm_filterMap _ h) hp
  · rw [e2]
    exact subperm_nodup (subperm_filterMap _ h) ho

/-- The classifier keeps a list without repeated names free of repeats. -/
theorem noRepeat_adapt (pairs : List Pair) (res : List TypedPair)
    (h : adaptToTournamentRules pairs = some res)
    (hp : (pairs.filterMap (·.player)).Nodup) (ho : (pairs.filterMap (·.opponent)).Nodup) :
    NoRepeat res := by
  apply noRepeat_of_untyped_subperm res pairs _ hp ho
  rw [adapt_untyped pairs res h]
  exact classified_subperm pairs

theorem nodup_filterMap_of_nodup_map {α β : Type} (f : α → Option β) (l : List α)
    (h : (l.map f).Nodup) : (l.filterMap f).Nodup := by
  have : l.filterMap f = (l.map f).filterMap id := by
    simp [List.filterMap_map]
  rw [this]
  exact h.filterMap (by
    intro a a' b hb hb'
    simp only [id, Option.mem_def] at hb hb'
    rw [hb, hb'])
/-! ### `generatePermutations` -/

theorem perm_cons_eraseIdx {α : Type} :
    ∀ (l : List α) (i : Nat) (c : α), l[i]? = some c → l.Perm (c :: l.eraseIdx i)
  | [], i, c, h => by simp at h
  | a :: as, 0, c, h => by
    simp at h
    subst h
    simp
  | a :: as, i + 1, c, h => by
    simp only [List.getElem?_cons_succ] at h
    simp only [List.eraseIdx_cons_succ]
    exact ((perm_cons_eraseIdx as i c h).cons a).trans (List.Perm.swap c a _)

theorem generatePermutationsAux_sound {α : Type} :
    ∀ (fuel : Nat) (arr l : List α), l ∈ generatePermutationsAux fuel arr → l.Perm arr
  | 0, arr, l, h => by
    simp [generatePermutationsAux] at h
    subst h
    exact List.Perm.refl _
  | fuel + 1, arr, l, h => by
    unfold generatePermutationsAux at h
    split at h
    · simp at h
      subst h
      exact List.Perm.refl _
    · simp only [List.mem_flatMap, List.mem_map] at h
      obtain ⟨ic, hic, rest, hrest, rfl⟩ := h
      have h1 := generatePermutationsAux_sound fuel _ _ hrest
      have h2 := perm_cons_eraseIdx arr ic.1 ic.2 (List.mem_enum_iff_getElem?.1 hic)
      exact (h1.cons ic.2).trans h2.symm

theorem generatePermutationsAux_complete {α : Type} :
    ∀ (fuel : Nat) (arr l : List α), arr.length ≤ fuel → l.Perm arr →
      l ∈ generatePermutationsAux fuel arr
  | 0, arr, l, hf, hp => by
    have : arr = [] := List.length_eq_zero.1 (Nat.le_zero.1 hf)
    subst this
    simp [generatePermutationsAux, hp.eq_nil]
  | fuel + 1, arr, l, hf, hp => by
    unfold generatePermutationsAux
    split
    · rename_i hlen
      rw [List.mem_singleton]
      match arr, hlen, hp with
      | [], _, hp => exact hp.eq_nil
      | [a], _, hp => exact List.perm_singleton.1 hp
      | a :: b :: t, hlen, _ => simp at hlen
    · rename_i hlen
      cases l with
      | nil =>
        have := hp.length_eq
        simp at this
        omega
      | cons c rest =>
        have hc : c ∈ arr := hp.subset (List.mem_cons_self _ _)
        obtain ⟨i, hi, hget⟩ := List.getElem_of_mem hc
        have hget' : arr[i]? = some c := by
          rw [List.getElem?_eq_getElem hi, hget]
        have h2 := perm_cons_eraseIdx arr i c hget'
        have h3 : rest.Perm (arr.eraseIdx i) := (hp.trans h2).cons_inv
        have hl : (arr.eraseIdx i).length ≤ fuel := by
          rw [List.length_eraseIdx_of_lt hi]
          omega
        simp only [List.mem_flatMap, List.mem_map]
        exact ⟨(i, c), List.mem_enum_iff_getElem?.2 hget', rest,
          generatePermutationsAux_complete fuel _ _ hl h3, rfl⟩

/-- The lists `generatePermutations` returns are exactly the reorderings of
its argument. -/
theorem mem_generatePermutations {α : Type} (arr l : List α) :
    l ∈ generatePermutations arr ↔ l.Perm arr :=
  ⟨generatePermutationsAux_sound _ arr l,
   generatePermutationsAux_complete _ arr l (Nat.le_refl _)⟩

/-- The bound on the recursion depth is never reached: `generatePermutations`
satisfies the recursive equation of the source. -/
theorem generatePermutations_eq {α : Type} (arr : List α) :
    generatePermutations arr =
      if arr.length ≤ 1 then [arr]
      else arr.enum.flatMap fun ic =>
        (generatePermutations (arr.eraseIdx ic.1)).map (ic.2 :: ·) := by
  unfold generatePermutations
  cases hn : arr.length with
  | zero => simp [generatePermutationsAux]
  | succ k =>
    rw [generatePermutationsAux]
    rw [hn]
    split
    · rfl
    · apply List.flatMap_congr
      intro ic hic
      have hi := List.fst_lt_of_mem_enum hic
      have hl : (arr.eraseIdx ic.1).length = k := by
        rw [List.length_eraseIdx_of_lt hi]
        omega
      rw [hl]
/-! ### The exhaustive search -/

theorem getRating_of_row_key (ratings : Ratings) (p : Name) (o : Option Name)
    (h : (ratings.lookup p).isSome) :
    getRating ratings (some p) o = some (ratingAt ratings p (keyOf o)) := by
  have hk : keyOf (some p) = p := rfl
  unfold getRating ratingAt
  rw [hk]
  cases hrow : ratings.lookup p with
  | none => simp [hrow] at h
  | some row => simp

theorem mapThrow_enumFrom_eq_pairUp (ratings : Ratings) (permutation : List Name) :
    ∀ (teamMembers : List Name) (k : Nat),
      (∀ p ∈ teamMembers, (ratings.lookup p).isSome) →
      mapThrow (fun ip : Nat × Name =>
          (getRating ratings (some ip.2) permutation[ip.1]?).map fun r =>
            ({ player := some ip.2, opponent := permutation[ip.1]?, rating := r } : Pair))
        (teamMembers.enumFrom k) = some (pairUp ratings teamMembers (permutation.drop k))
  | [], k, _ => by simp [mapThrow, pairUp]
  | p :: ps, k, h => by
    have hp := h p (List.mem_cons_self _ _)
    have ih := mapThrow_enumFrom_eq_pairUp ratings permutation ps (k + 1)
      (fun q hq => h q (List.mem_cons_of_mem _ hq))
    simp only [List.enumFrom_cons, mapThrow, getRating_of_row_key ratings p _ hp,
      Option.map_some', ih, pairUp, List.head?_drop, List.tail_drop]

theorem currentPairsOf_eq (teamMembers : List Name) (ratings : Ratings)
    (permutation : List Name) (h : ∀ p ∈ teamMembers, (ratings.lookup p).isSome) :
    currentPairsOf teamMembers ratings permutation
      = some (pairUp ratings teamMembers permutation) := by
  have := mapThrow_enumFrom_eq_pairUp ratings permutation teamMembers 0 h
  simpa [currentPairsOf, List.enum] using this

theorem pairUp_players (ratings : Ratings) :
    ∀ (teamMembers permutation : List Name),
      (pairUp ratings teamMembers permutation).map (·.player) = teamMembers.map some
  | [], _ => rfl
  | p :: ps, permutation => by
    simp [pairUp, pairUp_players ratings ps permutation.tail]

theorem pairUp_opponents (ratings : Ratings) :
    ∀ (teamMembers permutation : List Name),
      (pairUp ratings teamMembers permutation).filterMap (·.opponent)
        = permutation.take teamMembers.length
  | [], _ => by simp [pairUp]
  | p :: ps, [] => by
    have := pairUp_opponents ratings ps []
    simp only [List.take_nil] at this
    simp [pairUp, this]
  | p :: ps, o :: os => by
    simp [pairUp, pairUp_opponents ratings ps os]

theorem pairUp_length (ratings : Ratings) (teamMembers permutation : List Name) :
    (pairUp ratings teamMembers permutation).length = teamMembers.length := by
  have := congrArg List.length (pairUp_players ratings teamMembers permutation)
  simpa using this

theorem fullSearchStep_eq (teamMembers : List Name) (ratings : Ratings)
    (h : ∀ p ∈ teamMembers, (ratings.lookup p).isSome) (best : Int × List Pair)
    (permutation : List Name) :
    fullSearchStep teamMembers ratings best permutation =
      some (match scoreOf (pairUp ratings teamMembers permutation) with
        | some s => if best.1 < s then (s, pairUp ratings teamMembers permutation) else best
        | none => best) := by
  unfold fullSearchStep
  rw [currentPairsOf_eq _ _ _ h]
  dsimp only
  cases hs : scoreOf (pairUp ratings teamMembers permutation) with
  | none => rfl
  | some s =>
    dsimp only
    split <;> rfl

/-- The loop of `fullSearchOptimize` ends with the initial state or with the
pairs of one permutation and their score, and no permutation scores more. -/
theorem fullSearch_fold (teamMembers : List Name) (ratings : Ratings)
    (h : ∀ p ∈ teamMembers, (ratings.lookup p).isSome) :
    ∀ (perms : List (List Name)) (init : Int × List Pair),
      ∃ best, foldThrow (fullSearchStep teamMembers ratings) init perms = some best
        ∧ init.1 ≤ best.1
        ∧ (best = init ∨ ∃ perm ∈ perms, best.2 = pairUp ratings teamMembers perm
            ∧ scoreOf (pairUp ratings teamMembers perm) = some best.1)
        ∧ ∀ perm ∈ perms, ∀ s, scoreOf (pairUp ratings teamMembers perm) = some s → s ≤ best.1
  | [], init => ⟨init, rfl, le_refl _, Or.inl rfl, by simp⟩
  | perm :: perms, init => by
    obtain ⟨best, hb1, hb2, hb3, hb4⟩ := fullSearch_fold teamMembers ratings h perms
      (match scoreOf (pairUp ratings teamMembers perm) with
        | some s => if init.1 < s then (s, pairUp ratings teamMembers perm) else init
        | none => init)
    refine ⟨best, ?_, ?_, ?_, ?_⟩
    · simp only [foldThrow, fullSearchStep_eq teamMembers ratings h, hb1]
    · cases hs : scoreOf (pairUp ratings teamMembers perm) with
      | none => simpa [hs] using hb2
      | some s =>
        rw [hs] at hb2
        by_cases hlt : init.1 < s
        · simp only [if_pos hlt] at hb2
          omega
        · simpa only [if_neg hlt] using hb2
    · rcases hb3 with hb3 | ⟨q, hq, hq2, hq3⟩
      · cases hs : scoreOf (pairUp ratings teamMembers perm) with
        | none =>
          left
          simpa [hs] using hb3
        | some s =>
          rw [hs] at hb3
          by_cases hlt : init.1 < s
          · right
            simp only [if_pos hlt] at hb3
            refine ⟨perm, List.mem_cons_self _ _, ?_, ?_⟩
            · rw [hb3]
            · rw [hb3, hs]
          · left
            simpa only [if_neg hlt] using hb3
      · exact Or.inr ⟨q, List.mem_cons_of_mem _ hq, hq2, hq3⟩
    · intro q hq s hs
      rcases List.mem_cons.1 hq with rfl | hq
      · rw [hs] at hb2
        by_cases hlt : init.1 < s
        · simpa only [if_pos hlt] using hb2
        · simp only [if_neg hlt] at hb2
          omega
      · exact hb4 q hq s hs
theorem fullSearchOptimize_small (munkres : Munkres) (teamMembers opponents : List Name)
    (ratings : Ratings) (hn : teamMembers.length ≤ 5) :
    fullSearchOptimize munkres teamMembers opponents ratings =
      match foldThrow (fullSearchStep teamMembers ratings) (-1, [])
          (generatePermutations opponents) with
      | none => none
      | some best => adaptToTournamentRules best.2 := by
  unfold fullSearchOptimize
  rw [if_neg (by omega)]

theorem pairUp_noRepeat (ratings : Ratings) (teamMembers opponents perm : List Name)
    (hp : teamMembers.Nodup) (ho : opponents.Nodup) (hperm : perm.Perm opponents) :
    ((pairUp ratings teamMembers perm).filterMap (·.player)).Nodup
      ∧ ((pairUp ratings teamMembers perm).filterMap (·.opponent)).Nodup := by
  refine ⟨?_, ?_⟩
  · apply nodup_filterMap_of_nodup_map
    rw [pairUp_players]
    exact hp.map (Option.some_injective _)
  · rw [pairUp_opponents]
    exact (hperm.nodup_iff.2 ho).sublist (List.take_sublist _ _)

theorem pairUp_player_mem (ratings : Ratings) (teamMembers perm : List Name) :
    ∀ q ∈ pairUp ratings teamMembers perm, ∃ n ∈ teamMembers, q.player = some n := by
  intro q hq
  have hmem : q.player ∈ (pairUp ratings teamMembers perm).map (·.player) :=
    List.mem_map_of_mem (·.player) hq
  rw [pairUp_players] at hmem
  obtain ⟨n, hn, hnq⟩ := List.mem_map.1 hmem
  exact ⟨n, hn, hnq.symm⟩

theorem noInherited_pairUp (ratings : Ratings) (teamMembers perm : List Name)
    (hown : OwnNames teamMembers) : NoInheritedNames (pairUp ratings teamMembers perm) :=
  noInheritedNames_of_players teamMembers _ hown
    (fun q hq => Or.inr (pairUp_player_mem ratings teamMembers perm q hq))

theorem noInherited_greedyMatching (teamMembers opponents : List Name) (ratings : Ratings)
    (hown : OwnNames teamMembers) :
    NoInheritedNames (greedyMatching (candidatePairs teamMembers opponents ratings)) := by
  apply noInheritedNames_of_players teamMembers _ hown
  intro q hq
  obtain ⟨p, hp, o, _, rfl⟩ := (mem_candidatePairs _ _ _ q).1 (greedyMatching_subset _ q hq)
  exact Or.inr ⟨p, hp, rfl⟩

/-- With a row for every player, whatever the exhaustive search returns has
no repeated name. -/
theorem fullSearch_noRepeat (munkres : Munkres) (teamMembers opponents : List Name)
    (ratings : Ratings) (hn : teamMembers.length ≤ 5) (hp : teamMembers.Nodup)
    (ho : opponents.Nodup) (hrow : ∀ p ∈ teamMembers, (ratings.lookup p).isSome)
    (res : List TypedPair)
    (h : fullSearchOptimize munkres teamMembers opponents ratings = some res) :
    NoRepeat res := by
  obtain ⟨best, hb1, _, hb3, _⟩ :=
    fullSearch_fold teamMembers ratings hrow (generatePermutations opponents) (-1, [])
  rw [fullSearchOptimize_small _ _ _ _ hn, hb1] at h
  rcases hb3 with hb3 | ⟨perm, hperm, hb3, _⟩
  · apply noRepeat_adapt best.2 _ h <;> simp [hb3]
  · have hperm' := (mem_generatePermutations opponents perm).1 hperm
    obtain ⟨h1, h2⟩ := pairUp_noRepeat ratings teamMembers opponents perm hp ho hperm'
    rw [← hb3] at h1 h2
    exact noRepeat_adapt best.2 _ h h1 h2

/-- With a row for every player, none of them named by a property of
`Object.prototype`, the exhaustive search over at most 5 players returns. -/
theorem fullSearch_returns (munkres : Munkres) (teamMembers opponents : List Name)
    (ratings : Ratings) (hn : teamMembers.length ≤ 5)
    (hrow : ∀ p ∈ teamMembers, (ratings.lookup p).isSome) (hown : OwnNames teamMembers) :
    ∃ res, fullSearchOptimize munkres teamMembers opponents ratings = some res := by
  obtain ⟨best, hb1, _, hb3, _⟩ :=
    fullSearch_fold teamMembers ratings hrow (generatePermutations opponents) (-1, [])
  rw [fullSearchOptimize_small _ _ _ _ hn, hb1]
  refine ⟨_, adaptToTournamentRules_eq best.2 ?_⟩
  rcases hb3 with hb3 | ⟨perm, _, hb3, _⟩
  · rw [hb3]
    intro q hq
    simp at hq
  · rw [hb3]
    exact noInherited_pairUp ratings teamMembers perm hown

/-- Whatever the greedy solver returns has no repeated name. -/
theorem greedy_noRepeat (teamMembers opponents : List Name) (ratings : Ratings)
    (hrow : ∀ p ∈ teamMembers, ∀ o ∈ opponents, (ratings.lookup p).isSome)
    (res : List TypedPair) (h : greedyAlgorithm teamMembers opponents ratings = some res) :
    NoRepeat res := by
  rw [greedyAlgorithm_eq _ _ _ hrow] at h
  apply noRepeat_adapt _ _ h
  · exact nodup_filterMap_of_nodup_map _ _ (greedyMatching_players_nodup _)
  · exact nodup_filterMap_of_nodup_map _ _ (greedyMatching_opponents_nodup _)

/-- With a row for every player, none of them named by a property of
`Object.prototype`, the greedy solver returns. -/
theorem greedy_returns (teamMembers opponents : List Name) (ratings : Ratings)
    (hrow : ∀ p ∈ teamMembers, ∀ o ∈ opponents, (ratings.lookup p).isSome)
    (hown : OwnNames teamMembers) :
    ∃ res, greedyAlgorithm teamMembers opponents ratings = some res := by
  rw [greedyAlgorithm_eq _ _ _ hrow]
  exact ⟨_, adaptToTournamentRules_eq _ (noInherited_greedyMatching _ _ _ hown)⟩

/-! ### The optimal-matching solver -/

theorem mapThrow_some_map {α β γ : Type} (f : α → Option β) (g : β → γ) (k : α → γ)
    (hk : ∀ a b, f a = some b → g b = k a) :
    ∀ (l : List α) (bs : List β), mapThrow f l = some bs → bs.map g = l.map k := by
  intro l bs h
  have h2 := mapThrow_some_forall₂ f l bs h
  clear h
  induction h2 with
  | nil => rfl
  | cons hab _ ih => simp [hk _ _ hab, ih]

theorem costMatrix_eq (teamMembers opponents : List Name) (ratings : Ratings)
    (h : ∀ p ∈ teamMembers, ∀ o ∈ opponents, (ratings.lookup p).isSome) :
    costMatrix teamMembers opponents ratings
      = some (teamMembers.map fun p => opponents.map fun o =>
          jsSub (some 6) (ratingAt ratings p o)) := by
  unfold costMatrix
  apply mapThrow_eq_some_map
  intro p hp
  apply mapThrow_eq_some_map
  intro o ho
  simp [getRating_of_row ratings p o (h p hp o ho)]

/-- The pair `hungarianAlgorithm` builds from one entry of the result of
`munkres`. -/
theorem hungarian_pairs_fields (teamMembers opponents : List Name) (ratings : Ratings)
    (result : List (Nat × Nat)) (pairs : List Pair)
    (h : mapThrow (fun idx : Nat × Nat =>
        (getRating ratings teamMembers[idx.1]? opponents[idx.2]?).map fun r =>
          ({ player := teamMembers[idx.1]?, opponent := opponents[idx.2]?, rating := r } : Pair))
        result = some pairs) :
    pairs.map (·.player) = result.map (fun idx => teamMembers[idx.1]?)
      ∧ pairs.map (·.opponent) = result.map (fun idx => opponents[idx.2]?) := by
  refine ⟨mapThrow_some_map _ _ _ ?_ _ _ h, mapThrow_some_map _ _ _ ?_ _ _ h⟩
  · intro a b hab
    simp only [Option.map_eq_some'] at hab
    obtain ⟨r, _, rfl⟩ := hab
    rfl
  · intro a b hab
    simp only [Option.map_eq_some'] at hab
    obtain ⟨r, _, rfl⟩ := hab
    rfl

theorem nodup_filterMap_getElem? {α : Type} (names : List α) (idxs : List Nat)
    (hn : names.Nodup) (hi : idxs.Nodup) : (idxs.filterMap (names[·]?)).Nodup := by
  apply List.Nodup.filterMap _ hi
  intro i j b hb hb'
  simp only [Option.mem_def] at hb hb'
  have hlt : i < names.length := by
    by_contra hge
    rw [List.getElem?_eq_none (by omega)] at hb
    cases hb
  exact List.getElem?_inj hlt hn (hb.trans hb'.symm)

theorem hungarian_noRepeat (munkres : Munkres) (teamMembers opponents : List Name)
    (ratings : Ratings) (hp : teamMembers.Nodup) (ho : opponents.Nodup)
    (hm : ∀ matrix, costMatrix teamMembers opponents ratings = some matrix →
      ((munkres matrix).map (·.1)).Nodup ∧ ((munkres matrix).map (·.2)).Nodup)
    (res : List TypedPair)
    (h : hungarianAlgorithm munkres teamMembers opponents ratings = some res) :
    NoRepeat res := by
  unfold hungarianAlgorithm at h
  cases hc : costMatrix teamMembers opponents ratings with
  | none => simp [hc] at h
  | some matrix =>
    rw [hc] at h
    dsimp only at h
    cases hpairs : mapThrow (fun idx : Nat × Nat =>
        (getRating ratings teamMembers[idx.1]? opponents[idx.2]?).map fun r =>
          ({ player := teamMembers[idx.1]?, opponent := opponents[idx.2]?, rating := r } : Pair))
        (munkres matrix) with
    | none => simp [hpairs] at h
    | some pairs =>
      rw [hpairs] at h
      dsimp only at h
      obtain ⟨h1, h2⟩ := hungarian_pairs_fields _ _ _ _ _ hpairs
      obtain ⟨hm1, hm2⟩ := hm matrix hc
      apply noRepeat_adapt pairs res h
      · have e : pairs.filterMap (·.player) = (pairs.map (·.player)).filterMap id := by
          simp [List.filterMap_map]
        rw [e, h1]
        have := nodup_filterMap_getElem? teamMembers _ hp hm1
        simpa [List.filterMap_map, Function.comp_def] using this
      · have e : pairs.filterMap (·.opponent) = (pairs.map (·.opponent)).filterMap id := by
          simp [List.filterMap_map]
        rw [e, h2]
        have := nodup_filterMap_getElem? opponents _ ho hm2
        simpa [List.filterMap_map, Function.comp_def] using this

theorem hungarian_returns (munkres : Munkres) (teamMembers opponents : List Name)
    (ratings : Ratings) (hr : FullyPopulated teamMembers opponents ratings)
    (hown : OwnNames teamMembers)
    (hm : ∀ matrix, ∀ ij ∈ munkres matrix,
      ij.1 < teamMembers.length ∧ ij.2 < opponents.length) :
    ∃ res, hungarianAlgorithm munkres teamMembers opponents ratings = some res := by
  unfold hungarianAlgorithm
  rw [costMatrix_eq _ _ _ (fun p hp o _ => (hr p hp).1)]
  dsimp only
  rw [mapThrow_eq_some_map _ (fun idx : Nat × Nat =>
    ({ player := teamMembers[idx.1]?, opponent := opponents[idx.2]?,
       rating := ratingAt ratings (keyOf teamMembers[idx.1]?) (keyOf opponents[idx.2]?) }
      : Pair))]
  · refine ⟨_, adaptToTournamentRules_eq _ ?_⟩
    apply noInheritedNames_of_players teamMembers _ hown
    intro q hq
    obtain ⟨ij, _, rfl⟩ := List.mem_map.1 hq
    cases hget : teamMembers[ij.1]? with
    | none => exact Or.inl rfl
    | some n => exact Or.inr ⟨n, List.getElem?_mem hget, rfl⟩
  · intro ij hij
    obtain ⟨h1, h2⟩ := hm _ ij hij
    have hmem : teamMembers[ij.1] ∈ teamMembers := List.getElem_mem _
    rw [List.getElem?_eq_getElem h1]
    rw [getRating_of_row_key ratings _ _ (hr _ hmem).1]
    rfl
/-! ### Scores -/

theorem foldl_jsAdd_none (l : List Pair) :
    l.foldl (fun sum pair => jsAdd sum pair.rating) none = none := by
  induction l with
  | nil => rfl
  | cons q qs ih => simpa [List.foldl_cons, jsAdd] using ih

theorem foldl_jsAdd_of_none (l : List Pair) (h : ∃ q ∈ l, q.rating = none) :
    ∀ a : Option Int, l.foldl (fun sum pair => jsAdd sum pair.rating) a = none := by
  induction l with
  | nil => simp at h
  | cons q qs ih =>
    intro a
    obtain ⟨x, hx, hxr⟩ := h
    rw [List.foldl_cons]
    rcases List.mem_cons.1 hx with rfl | hx
    · rw [hxr]
      have : jsAdd a none = none := by cases a <;> rfl
      rw [this]
      exact foldl_jsAdd_none qs
    · exact ih ⟨x, hx, hxr⟩ _

theorem scoreOf_none (l : List Pair) (h : ∃ q ∈ l, q.rating = none) : scoreOf l = none :=
  foldl_jsAdd_of_none l h _

theorem foldl_jsAdd_some (l : List Pair) (h : ∀ q ∈ l, ∃ v, q.rating = some v) :
    ∀ a : Int, l.foldl (fun sum pair => jsAdd sum pair.rating) (some a)
      = some (a + ratingSum l) := by
  induction l with
  | nil => intro a; simp [ratingSum]
  | cons q qs ih =>
    intro a
    obtain ⟨v, hv⟩ := h q (List.mem_cons_self _ _)
    rw [List.foldl_cons, hv]
    have : jsAdd (some a) (some v) = some (a + v) := rfl
    rw [this, ih (fun x hx => h x (List.mem_cons_of_mem _ hx))]
    simp [ratingSum, hv, add_assoc]

theorem scoreOf_some (l : List Pair) (h : ∀ q ∈ l, ∃ v, q.rating = some v) :
    scoreOf l = some (ratingSum l) := by
  have := foldl_jsAdd_some l h 0
  simpa [scoreOf] using this

theorem totalRating_eq_scoreOf (res : List TypedPair) :
    totalRating res = scoreOf (untyped res) := by
  unfold totalRating scoreOf untyped
  rw [List.foldl_map]

theorem ratingSum_perm {l₁ l₂ : List Pair} (h : l₁.Perm l₂) : ratingSum l₁ = ratingSum l₂ :=
  (h.map _).sum_eq

/-- The classifier keeps the total rating of a matching. -/
theorem totalRating_adapt (pairs : List Pair) (res : List TypedPair)
    (h : adaptToTournamentRules pairs = some res)
    (hp : (pairs.map (·.player)).Nodup) (ho : (pairs.map (·.opponent)).Nodup)
    (hr : ∀ q ∈ pairs, ∃ v, q.rating = some v) :
    totalRating res = some (ratingSum pairs) := by
  have hperm : (untyped res).Perm pairs := by
    rw [adapt_untyped pairs res h]
    exact classified_perm pairs hp ho
  rw [totalRating_eq_scoreOf, scoreOf_some _ (fun q hq => hr q (hperm.mem_iff.1 hq)),
    ratingSum_perm hperm]

/-! ### Assignments -/

theorem pairUp_eq_map_zip (ratings : Ratings) :
    ∀ (teamMembers perm : List Name), teamMembers.length ≤ perm.length →
      pairUp ratings teamMembers perm = (teamMembers.zip perm).map (pairOfNames ratings)
  | [], _, _ => by simp [pairUp]
  | p :: ps, [], h => by simp at h
  | p :: ps, o :: os, h => by
    have ih := pairUp_eq_map_zip ratings ps os (by simpa using h)
    simp [pairUp, ih, pairOfNames, keyOf]

theorem ratingSum_map_pairOfNames (ratings : Ratings) (asg : List (Name × Name)) :
    ratingSum (asg.map (pairOfNames ratings)) = assignmentTotal ratings asg := by
  simp [ratingSum, assignmentTotal, pairOfNames, Function.comp_def]

theorem zip_map_fst_snd_append {α β : Type} :
    ∀ (l : List (α × β)) (e : List β), (l.map (·.1)).zip (l.map (·.2) ++ e) = l
  | [], e => by simp
  | x :: xs, e => by simp [zip_map_fst_snd_append xs e]

theorem exists_perm_map_eq {α β : Type} (f : α → β) :
    ∀ (l₂ : List β) (l : List α), (l.map f).Perm l₂ → ∃ l' : List α, l'.Perm l ∧ l'.map f = l₂
  | [], l, h => by
    have : l = [] := by simpa using h.eq_nil
    exact ⟨[], by simp [this], rfl⟩
  | b :: bs, l, h => by
    have hb : b ∈ l.map f := h.symm.subset (List.mem_cons_self _ _)
    obtain ⟨a, ha, rfl⟩ := List.mem_map.1 hb
    obtain ⟨s, t, rfl⟩ := List.append_of_mem ha
    have h1 : (f a :: (s ++ t).map f).Perm (f a :: bs) := by
      refine List.Perm.trans ?_ h
      simpa using (@List.perm_middle _ (f a) (s.map f) (t.map f)).symm
    obtain ⟨l', hl1, hl2⟩ := exists_perm_map_eq f bs (s ++ t) h1.cons_inv
    exact ⟨a :: l', (hl1.cons a).trans List.perm_middle.symm, by simp [hl2]⟩

theorem assignmentTotal_perm (ratings : Ratings) {a₁ a₂ : List (Name × Name)}
    (h : a₁.Perm a₂) : assignmentTotal ratings a₁ = assignmentTotal ratings a₂ :=
  (h.map _).sum_eq

theorem append_filter_perm_of_nodup_subset (names chosen : List Name) (hn : names.Nodup)
    (hc : chosen.Nodup) (hs : chosen ⊆ names) :
    (chosen ++ names.filter (fun o => !decide (o ∈ chosen))).Perm names := by
  have h1 : chosen.Perm (names.filter (fun o => decide (o ∈ chosen))) := by
    apply (List.perm_ext_iff_of_nodup hc (hn.filter _)).2
    intro a
    simp only [List.mem_filter, decide_eq_true_eq]
    exact ⟨fun h => ⟨hs h, h⟩, fun h => h.2⟩
  exact (h1.append_right _).trans (List.filter_append_perm _ _)

/-- Every assignment is the pairing of the players, in order, with the first
entries of some reordering of the opponents. -/
theorem assignment_as_permutation (players opponents : List Name) (ratings : Ratings)
    (ho : opponents.Nodup) (asg : List (Name × Name))
    (h : IsAssignment players opponents asg) :
    ∃ perm, perm.Perm opponents ∧ players.length ≤ perm.length
      ∧ ratingSum (pairUp ratings players perm) = assignmentTotal ratings asg := by
  obtain ⟨h1, h2, h3⟩ := h
  obtain ⟨asg', hperm, hmap⟩ := exists_perm_map_eq (·.1) players asg h1
  have hnd : (asg'.map (·.2)).Nodup := (hperm.map _).nodup_iff.2 h2
  have hsub : asg'.map (·.2) ⊆ opponents := by
    intro o hmem
    obtain ⟨x, hx, rfl⟩ := List.mem_map.1 hmem
    exact h3 x (hperm.mem_iff.1 hx)
  refine ⟨asg'.map (·.2) ++ opponents.filter (fun o => !decide (o ∈ asg'.map (·.2))),
    append_filter_perm_of_nodup_subset opponents _ ho hnd hsub, ?_, ?_⟩
  · rw [← hmap]
    simp
  · rw [pairUp_eq_map_zip _ _ _ (by rw [← hmap]; simp), ← hmap, zip_map_fst_snd_append,
      ratingSum_map_pairOfNames, assignmentTotal_perm ratings hperm]
/-! ### Optimality of the exhaustive search -/

theorem rows_of_inRange (players opponents : List Name) (ratings : Ratings)
    (hm : players.length ≤ opponents.length) (hr : RatingsInRange players opponents ratings) :
    ∀ p ∈ players, (ratings.lookup p).isSome := by
  intro p hp
  cases opponents with
  | nil =>
    have : players = [] := List.length_eq_zero.1 (Nat.le_zero.1 hm)
    rw [this] at hp
    simp at hp
  | cons o os =>
    have h := hr p hp o (List.mem_cons_self _ _)
    unfold ratingAt at h
    cases hrow : ratings.lookup p with
    | none => simp [hrow, IsRating] at h
    | some row => rfl

theorem isRating_some {lo hi : Int} {x : Option Int} (h : IsRating lo hi x) :
    ∃ v, x = some v ∧ lo ≤ v ∧ v ≤ hi := by
  cases x with
  | none => exact absurd h (by simp [IsRating])
  | some v => exact ⟨v, rfl, h⟩

theorem fullyPopulated_of_inRange (players opponents : List Name) (ratings : Ratings)
    (hm : players.length ≤ opponents.length) (hr : RatingsInRange players opponents ratings) :
    FullyPopulated players opponents ratings := by
  intro p hp
  refine ⟨rows_of_inRange players opponents ratings hm hr p hp, ?_⟩
  intro o ho
  obtain ⟨v, hv, _⟩ := isRating_some (hr p hp o ho)
  simp [hv]

theorem pairUp_ratings (players opponents perm : List Name) (ratings : Ratings)
    (hr : RatingsInRange players opponents ratings) (hperm : perm.Perm opponents)
    (hm : players.length ≤ perm.length) :
    ∀ q ∈ pairUp ratings players perm, ∃ v, q.rating = some v ∧ 1 ≤ v ∧ v ≤ 5 := by
  intro q hq
  rw [pairUp_eq_map_zip _ _ _ hm] at hq
  obtain ⟨x, hx, rfl⟩ := List.mem_map.1 hq
  obtain ⟨h1, h2⟩ := List.of_mem_zip hx
  exact isRating_some (hr x.1 h1 x.2 (hperm.mem_iff.1 h2))

theorem ratingSum_nonneg (l : List Pair) (h : ∀ q ∈ l, ∃ v, q.rating = some v ∧ 0 ≤ v) :
    0 ≤ ratingSum l := by
  unfold ratingSum
  apply List.sum_nonneg
  intro x hx
  obtain ⟨q, hq, rfl⟩ := List.mem_map.1 hx
  obtain ⟨v, hv, hv0⟩ := h q hq
  simp [hv, hv0]

theorem map_snd_zip_take {α β : Type} :
    ∀ (l₁ : List α) (l₂ : List β), l₁.length ≤ l₂.length →
      (l₁.zip l₂).map (·.2) = l₂.take l₁.length
  | [], _, _ => by simp
  | a :: as, [], h => by simp at h
  | a :: as, b :: bs, h => by
    simp [map_snd_zip_take as bs (by simpa using h)]

theorem map_fst_zip_le {α β : Type} :
    ∀ (l₁ : List α) (l₂ : List β), l₁.length ≤ l₂.length → (l₁.zip l₂).map (·.1) = l₁
  | [], _, _ => by simp
  | a :: as, [], h => by simp at h
  | a :: as, b :: bs, h => by
    simp [map_fst_zip_le as bs (by simpa using h)]

theorem pairUp_opponents_map (ratings : Ratings) (players perm : List Name)
    (hm : players.length ≤ perm.length) :
    (pairUp ratings players perm).map (·.opponent) = (perm.take players.length).map some := by
  rw [pairUp_eq_map_zip _ _ _ hm, List.map_map, ← map_snd_zip_take _ _ hm, List.map_map]
  rfl

/-- For at most 5 players, no fewer opponents and ratings in `[1, 5]`, what
the exhaustive search returns are the pairs of a best reordering of the
opponents. -/
theorem fullSearch_optimal (munkres : Munkres) (players opponents : List Name)
    (ratings : Ratings) (hn : players.length ≤ 5) (hp : players.Nodup)
    (ho : opponents.Nodup) (hm : players.length ≤ opponents.length)
    (hr : RatingsInRange players opponents ratings) (res : List TypedPair)
    (h : fullSearchOptimize munkres players opponents ratings = some res) :
    ∃ perm, perm.Perm opponents
      ∧ (untyped res).Perm (pairUp ratings players perm)
      ∧ totalRating res = some (ratingSum (pairUp ratings players perm))
      ∧ ∀ perm' : List Name, perm'.Perm opponents →
          ratingSum (pairUp ratings players perm') ≤ ratingSum (pairUp ratings players perm) := by
  have hrow := rows_of_inRange players opponents ratings hm hr
  obtain ⟨best, hb1, hb2, hb3, hb4⟩ :=
    fullSearch_fold players ratings hrow (generatePermutations opponents) (-1, [])
  have hlen : ∀ perm' : List Name, perm'.Perm opponents → players.length ≤ perm'.length :=
    fun perm' h => by rw [h.length_eq]; exact hm
  have hscore : ∀ perm' : List Name, perm'.Perm opponents →
      scoreOf (pairUp ratings players perm') = some (ratingSum (pairUp ratings players perm')) :=
    fun perm' h => scoreOf_some _ (fun q hq => by
      obtain ⟨v, hv, _⟩ := pairUp_ratings players opponents perm' ratings hr h (hlen perm' h) q hq
      exact ⟨v, hv⟩)
  have hnonneg : 0 ≤ ratingSum (pairUp ratings players opponents) :=
    ratingSum_nonneg _ (fun q hq => by
      obtain ⟨v, hv, hv1, _⟩ :=
        pairUp_ratings players opponents opponents ratings hr (List.Perm.refl _) hm q hq
      exact ⟨v, hv, by omega⟩)
  have hself := hb4 opponents ((mem_generatePermutations _ _).2 (List.Perm.refl _)) _
    (hscore opponents (List.Perm.refl _))
  have hne : best ≠ (-1, []) := by
    intro h
    rw [h] at hself
    simp only at hself
    omega
  rcases hb3 with hb3 | ⟨perm, hperm, hb5, hb6⟩
  · exact absurd hb3 hne
  · have hperm' := (mem_generatePermutations opponents perm).1 hperm
    have hsum : best.1 = ratingSum (pairUp ratings players perm) := by
      rw [hscore perm hperm'] at hb6
      exact (Option.some.inj hb6).symm
    have hadapt : adaptToTournamentRules best.2 = some res := by
      rw [fullSearchOptimize_small _ _ _ _ hn, hb1] at h
      exact h
    have hpl : (best.2.map (·.player)).Nodup := by
      rw [hb5, pairUp_players]
      exact hp.map (Option.some_injective _)
    have hol : (best.2.map (·.opponent)).Nodup := by
      rw [hb5, pairUp_opponents_map _ _ _ (hlen perm hperm')]
      exact (((hperm'.nodup_iff.2 ho).sublist (List.take_sublist _ _))).map
        (Option.some_injective _)
    refine ⟨perm, hperm', ?_, ?_, ?_⟩
    · rw [adapt_untyped best.2 _ hadapt, ← hb5]
      exact classified_perm best.2 hpl hol
    · rw [totalRating_adapt best.2 _ hadapt hpl hol, hb5]
      intro q hq
      rw [hb5] at hq
      obtain ⟨v, hv, _⟩ :=
        pairUp_ratings players opponents perm ratings hr hperm' (hlen perm hperm') q hq
      exact ⟨v, hv⟩
    · intro perm' h'
      rw [← hsum]
      exact hb4 perm' ((mem_generatePermutations _ _).2 h') _ (hscore perm' h')
/-! ### Results of the greedy solver and of the exhaustive search -/

/-- What the greedy solver returns are the pairs of the greedy matching. -/
theorem greedy_result (teamMembers opponents : List Name) (ratings : Ratings)
    (hrow : ∀ p ∈ teamMembers, ∀ o ∈ opponents, (ratings.lookup p).isSome)
    (res : List TypedPair) (h : greedyAlgorithm teamMembers opponents ratings = some res) :
    (untyped res).Perm (greedyMatching (candidatePairs teamMembers opponents ratings)) := by
  rw [greedyAlgorithm_eq _ _ _ hrow] at h
  rw [adapt_untyped _ _ h]
  exact classified_perm _ (greedyMatching_players_nodup _) (greedyMatching_opponents_nodup _)

theorem totalRating_perm (res : List TypedPair) (pairs : List Pair)
    (h : (untyped res).Perm pairs) (hr : ∀ q ∈ pairs, ∃ v, q.rating = some v) :
    totalRating res = some (ratingSum pairs) := by
  rw [totalRating_eq_scoreOf, scoreOf_some _ (fun q hq => hr q (h.mem_iff.1 hq)),
    ratingSum_perm h]

theorem namesOf_eq (res : List TypedPair) :
    namesOf res = (untyped res).map fun q => (q.player, q.opponent) := by
  simp [namesOf, untyped, Function.comp_def]

/-- The names of the greedy matching form an assignment of the chosen
players. -/
theorem greedyMatching_names (teamMembers opponents : List Name) (ratings : Ratings) :
    greedyMatching (candidatePairs teamMembers opponents ratings)
      = ((greedyMatching (candidatePairs teamMembers opponents ratings)).map
          fun q => (keyOf q.player, keyOf q.opponent)).map (pairOfNames ratings) := by
  rw [List.map_map]
  symm
  conv_rhs => rw [← List.map_id (greedyMatching (candidatePairs teamMembers opponents ratings))]
  apply List.map_congr_left
  intro q hq
  obtain ⟨p, _, o, _, rfl⟩ := (mem_candidatePairs _ _ _ q).1 (greedyMatching_subset _ q hq)
  rfl

theorem greedyMatching_isAssignment (teamMembers opponents : List Name) (ratings : Ratings)
    (hp : teamMembers.Nodup) (ho : opponents.Nodup)
    (hm : teamMembers.length ≤ opponents.length) :
    IsAssignment teamMembers opponents
      ((greedyMatching (candidatePairs teamMembers opponents ratings)).map
        fun q => (keyOf q.player, keyOf q.opponent)) := by
  have hlen := greedyMatching_length teamMembers opponents ratings hp ho
  rw [Nat.min_eq_left hm] at hlen
  have hmem : ∀ q ∈ greedyMatching (candidatePairs teamMembers opponents ratings),
      q.player = some (keyOf q.player) ∧ q.opponent = some (keyOf q.opponent)
        ∧ keyOf q.player ∈ teamMembers ∧ keyOf q.opponent ∈ opponents := by
    intro q hq
    obtain ⟨p, hp', o, ho', rfl⟩ :=
      (mem_candidatePairs _ _ _ q).1 (greedyMatching_subset _ q hq)
    exact ⟨rfl, rfl, hp', ho'⟩
  have e1 : (greedyMatching (candidatePairs teamMembers opponents ratings)).map (·.player)
      = ((greedyMatching (candidatePairs teamMembers opponents ratings)).map
          fun q => keyOf q.player).map some := by
    rw [List.map_map]
    apply List.map_congr_left
    intro q hq
    exact (hmem q hq).1
  have e2 : (greedyMatching (candidatePairs teamMembers opponents ratings)).map (·.opponent)
      = ((greedyMatching (candidatePairs teamMembers opponents ratings)).map
          fun q => keyOf q.opponent).map some := by
    rw [List.map_map]
    apply List.map_congr_left
    intro q hq
    exact (hmem q hq).2.1
  have n1 := greedyMatching_players_nodup (candidatePairs teamMembers opponents ratings)
  have n2 := greedyMatching_opponents_nodup (candidatePairs teamMembers opponents ratings)
  rw [e1] at n1
  rw [e2] at n2
  refine ⟨?_, ?_, ?_⟩
  · rw [List.map_map]
    apply (List.subperm_of_subset (List.Nodup.of_map _ n1) ?_).perm_of_length_le
    · simp [hlen]
    · intro x hx
      obtain ⟨q, hq, rfl⟩ := List.mem_map.1 hx
      exact (hmem q hq).2.2.1
  · rw [List.map_map]
    exact List.Nodup.of_map _ n2
  · intro x hx
    obtain ⟨q, hq, rfl⟩ := List.mem_map.1 hx
    exact (hmem q hq).2.2.2
/-! ### Names and indices -/

theorem keyOf_getElem? (l : List Name) (i : Nat) (h : i < l.length) :
    l[i]? = some (keyOf l[i]?) := by
  rw [List.getElem?_eq_getElem h]
  rfl

theorem keyOf_getElem?_mem (l : List Name) (i : Nat) (h : i < l.length) :
    keyOf l[i]? ∈ l := by
  rw [List.getElem?_eq_getElem h]
  exact List.getElem_mem _

theorem range_map_keyOf (l : List Name) :
    (List.range l.length).map (fun i => keyOf l[i]?) = l := by
  apply List.ext_getElem
  · simp
  · intro i h1 h2
    simp [List.getElem?_eq_getElem h2, keyOf]

theorem map_indexOf_eq_range (l : List Name) (h : l.Nodup) :
    l.map (fun x => l.indexOf x) = List.range l.length := by
  apply List.ext_getElem
  · simp
  · intro i h1 h2
    simp only [List.getElem_map, List.getElem_range]
    exact List.indexOf_getElem h i (by simpa using h1)

theorem keyOf_indexOf (l : List Name) (x : Name) (h : x ∈ l) :
    keyOf l[l.indexOf x]? = x := by
  rw [List.getElem?_indexOf h]
  rfl

theorem namesAt_indicesOf (teamMembers opponents : List Name) (x : Name × Name)
    (h1 : x.1 ∈ teamMembers) (h2 : x.2 ∈ opponents) :
    namesAt teamMembers opponents (indicesOf teamMembers opponents x) = x := by
  simp [namesAt, indicesOf, keyOf_indexOf _ _ h1, keyOf_indexOf _ _ h2]

theorem isAssignment_mem_left {players opponents : List Name} {asg : List (Name × Name)}
    (h : IsAssignment players opponents asg) : ∀ x ∈ asg, x.1 ∈ players := by
  intro x hx
  exact h.1.mem_iff.1 (List.mem_map_of_mem _ hx)

theorem isIndexAssignment_lt {rows cols : Nat} {idx : List (Nat × Nat)}
    (h : IsIndexAssignment rows cols idx) : ∀ ij ∈ idx, ij.1 < rows ∧ ij.2 < cols := by
  intro ij hij
  refine ⟨?_, h.2.2 ij hij⟩
  have := h.1.mem_iff.1 (List.mem_map_of_mem (·.1) hij)
  simpa using this

theorem isIndexAssignment_length {rows cols : Nat} {idx : List (Nat × Nat)}
    (h : IsIndexAssignment rows cols idx) : idx.length = rows := by
  have := h.1.length_eq
  simpa using this

/-- An index assignment names an assignment of the players. -/
theorem isAssignment_of_indices (players opponents : List Name) (ho : opponents.Nodup)
    (idx : List (Nat × Nat))
    (h : IsIndexAssignment players.length opponents.length idx) :
    IsAssignment players opponents (idx.map (namesAt players opponents)) := by
  obtain ⟨h1, h2, h3⟩ := h
  refine ⟨?_, ?_, ?_⟩
  · rw [List.map_map]
    have := h1.map (fun i => keyOf players[i]?)
    rw [range_map_keyOf, List.map_map] at this
    exact this
  · rw [List.map_map]
    have e2 : (fun x : Name × Name => x.2) ∘ namesAt players opponents
        = (fun j => keyOf opponents[j]?) ∘ (fun ij : Nat × Nat => ij.2) := rfl
    rw [e2, ← List.map_map]
    apply List.Nodup.map_on _ h2
    intro a ha b hb hab
    obtain ⟨x, hx, rfl⟩ := List.mem_map.1 ha
    obtain ⟨y, hy, rfl⟩ := List.mem_map.1 hb
    have hxl := h3 x hx
    have hyl := h3 y hy
    apply List.getElem?_inj hxl ho
    rw [keyOf_getElem? _ _ hxl, keyOf_getElem? _ _ hyl]
    exact congrArg some hab
  · intro x hx
    obtain ⟨ij, hij, rfl⟩ := List.mem_map.1 hx
    exact keyOf_getElem?_mem _ _ (h3 ij hij)

/-- An assignment of the players is named by an index assignment. -/
theorem isIndexAssignment_of_names (players opponents : List Name) (hp : players.Nodup)
    (asg : List (Name × Name)) (h : IsAssignment players opponents asg) :
    IsIndexAssignment players.length opponents.length
      (asg.map (indicesOf players opponents)) := by
  obtain ⟨h1, h2, h3⟩ := h
  refine ⟨?_, ?_, ?_⟩
  · rw [List.map_map]
    have := h1.map (fun x => players.indexOf x)
    rw [map_indexOf_eq_range _ hp, List.map_map] at this
    exact this
  · rw [List.map_map]
    have e2 : (fun ij : Nat × Nat => ij.2) ∘ indicesOf players opponents
        = (fun o => opponents.indexOf o) ∘ (fun x : Name × Name => x.2) := rfl
    rw [e2, ← List.map_map]
    apply List.Nodup.map_on _ h2
    intro a ha b hb hab
    obtain ⟨x, hx, rfl⟩ := List.mem_map.1 ha
    obtain ⟨y, hy, rfl⟩ := List.mem_map.1 hb
    exact (List.indexOf_inj (h3 x hx) (h3 y hy)).1 hab
  · intro ij hij
    obtain ⟨x, hx, rfl⟩ := List.mem_map.1 hij
    exact List.indexOf_lt_length.2 (h3 x hx)

theorem map_namesAt_indicesOf (players opponents : List Name) (asg : List (Name × Name))
    (h : IsAssignment players opponents asg) :
    (asg.map (indicesOf players opponents)).map (namesAt players opponents) = asg := by
  rw [List.map_map]
  conv_rhs => rw [← List.map_id asg]
  apply List.map_congr_left
  intro x hx
  exact namesAt_indicesOf _ _ x (isAssignment_mem_left h x hx) (h.2.2 x hx)
/-! ### The cost matrix -/

/-- The cost matrix of `hungarianAlgorithm` when no read throws. -/
theorem costMatrix_entry (players opponents : List Name) (ratings : Ratings)
    (hr : RatingsInRange players opponents ratings) (ij : Nat × Nat)
    (h1 : ij.1 < players.length) (h2 : ij.2 < opponents.length) :
    (((players.map fun p => opponents.map fun o =>
        jsSub (some 6) (ratingAt ratings p o))[ij.1]?.bind (·[ij.2]?)).join).getD 0
      = 6 - (ratingAt ratings (namesAt players opponents ij).1
          (namesAt players opponents ij).2).getD 0 := by
  have hp := List.getElem_mem h1
  have ho := List.getElem_mem h2
  obtain ⟨v, hv, _⟩ := isRating_some (hr _ hp _ ho)
  simp [namesAt, List.getElem?_eq_getElem h1, List.getElem?_eq_getElem h2, keyOf, hv, jsSub]

theorem costOf_add_total (players opponents : List Name) (ratings : Ratings)
    (hr : RatingsInRange players opponents ratings) :
    ∀ idx : List (Nat × Nat),
      (∀ ij ∈ idx, ij.1 < players.length ∧ ij.2 < opponents.length) →
      costOf (players.map fun p => opponents.map fun o =>
          jsSub (some 6) (ratingAt ratings p o)) idx
        + assignmentTotal ratings (idx.map (namesAt players opponents)) = 6 * idx.length
  | [], _ => by simp [costOf, assignmentTotal]
  | ij :: rest, h => by
    have ih := costOf_add_total players opponents ratings hr rest
      (fun x hx => h x (List.mem_cons_of_mem _ hx))
    obtain ⟨h1, h2⟩ := h ij (List.mem_cons_self _ _)
    have he := costMatrix_entry players opponents ratings hr ij h1 h2
    simp only [costOf, assignmentTotal, List.map_cons, List.sum_cons, List.length_cons,
      List.map_map] at ih ⊢
    rw [he]
    push_cast
    simp only [Function.comp_def] at ih ⊢
    linarith

/-! ### The optimal-matching solver under the assumption on `munkres` -/

/-- Under the assumption on `munkres` the optimal-matching solver hands the
pairs of the assignment `munkres` returns to the classifier. -/
theorem hungarian_eq_adapt (munkres : Munkres) (players opponents : List Name)
    (ratings : Ratings) (hm : players.length ≤ opponents.length)
    (hr : RatingsInRange players opponents ratings)
    (hmunk : ∀ matrix, costMatrix players opponents ratings = some matrix →
      IsMinCostAssignment matrix players.length opponents.length (munkres matrix)) :
    ∃ result, IsMinCostAssignment
        (players.map fun p => opponents.map fun o => jsSub (some 6) (ratingAt ratings p o))
        players.length opponents.length result
      ∧ hungarianAlgorithm munkres players opponents ratings
        = adaptToTournamentRules
            ((result.map (namesAt players opponents)).map (pairOfNames ratings)) := by
  have hrow := rows_of_inRange players opponents ratings hm hr
  have hcm := costMatrix_eq players opponents ratings (fun p hp' _ _ => hrow p hp')
  have hmin := hmunk _ hcm
  generalize hres : munkres (players.map fun p => opponents.map fun o =>
      jsSub (some 6) (ratingAt ratings p o)) = result at hmin
  have hlt := isIndexAssignment_lt hmin.1
  have hpairs : mapThrow (fun idx : Nat × Nat =>
      (getRating ratings players[idx.1]? opponents[idx.2]?).map fun r =>
        ({ player := players[idx.1]?, opponent := opponents[idx.2]?, rating := r } : Pair))
      result = some ((result.map (namesAt players opponents)).map (pairOfNames ratings)) := by
    rw [List.map_map]
    apply mapThrow_eq_some_map
    intro ij hij
    obtain ⟨h1, h2⟩ := hlt ij hij
    have hmem : players[ij.1] ∈ players := List.getElem_mem _
    rw [List.getElem?_eq_getElem h1, getRating_of_row_key ratings _ _ (hrow _ hmem),
      List.getElem?_eq_getElem h2]
    simp [pairOfNames, namesAt, List.getElem?_eq_getElem h1, List.getElem?_eq_getElem h2,
      keyOf]
  refine ⟨result, hmin, ?_⟩
  unfold hungarianAlgorithm
  rw [hcm]
  dsimp only
  rw [hres, hpairs]

/-- Under the assumption on `munkres`, what the optimal-matching solver
returns are the pairs of an assignment of greatest total. -/
theorem hungarian_optimal (munkres : Munkres) (players opponents : List Name)
    (ratings : Ratings) (hp : players.Nodup) (ho : opponents.Nodup)
    (hm : players.length ≤ opponents.length)
    (hr : RatingsInRange players opponents ratings)
    (hmunk : ∀ matrix, costMatrix players opponents ratings = some matrix →
      IsMinCostAssignment matrix players.length opponents.length (munkres matrix))
    (res : List TypedPair)
    (h : hungarianAlgorithm munkres players opponents ratings = some res) :
    ∃ asg, IsAssignment players opponents asg
      ∧ totalRating res = some (assignmentTotal ratings asg)
      ∧ ∀ other, IsAssignment players opponents other →
          assignmentTotal ratings other ≤ assignmentTotal ratings asg := by
  obtain ⟨result, ⟨hidx, hmin⟩, heq⟩ :=
    hungarian_eq_adapt munkres players opponents ratings hm hr hmunk
  have hlt := isIndexAssignment_lt hidx
  have hasg := isAssignment_of_indices players opponents ho result hidx
  have hadapt : adaptToTournamentRules
      ((result.map (namesAt players opponents)).map (pairOfNames ratings)) = some res := by
    rw [← heq]
    exact h
  refine ⟨result.map (namesAt players opponents), hasg, ?_, ?_⟩
  · rw [totalRating_adapt _ _ hadapt, ratingSum_map_pairOfNames]
    · rw [List.map_map]
      have : ((fun q : Pair => q.player) ∘ pairOfNames ratings) = some ∘ (·.1) := rfl
      rw [this, ← List.map_map]
      exact (hasg.1.nodup_iff.2 hp).map (Option.some_injective _)
    · rw [List.map_map]
      have : ((fun q : Pair => q.opponent) ∘ pairOfNames ratings) = some ∘ (·.2) := rfl
      rw [this, ← List.map_map]
      exact hasg.2.1.map (Option.some_injective _)
    · intro q hq
      obtain ⟨x, hx, rfl⟩ := List.mem_map.1 hq
      obtain ⟨v, hv, _⟩ :=
        isRating_some (hr x.1 (isAssignment_mem_left hasg x hx) x.2 (hasg.2.2 x hx))
      exact ⟨v, hv⟩
  · intro other hother
    have hoi := isIndexAssignment_of_names players opponents hp other hother
    have hc := hmin _ hoi
    have e1 := costOf_add_total players opponents ratings hr result hlt
    have e2 := costOf_add_total players opponents ratings hr _ (isIndexAssignment_lt hoi)
    rw [map_namesAt_indicesOf players opponents other hother] at e2
    rw [isIndexAssignment_length hidx] at e1
    rw [isIndexAssignment_length hoi] at e2
    linarith

/-- Under the assumption on `munkres` the optimal-matching solver returns
when no player is named by a property of `Object.prototype`. -/
theorem hungarian_returns_minCost (munkres : Munkres) (players opponents : List Name)
    (ratings : Ratings) (ho : opponents.Nodup) (hm : players.length ≤ opponents.length)
    (hr : RatingsInRange players opponents ratings)
    (hmunk : ∀ matrix, costMatrix players opponents ratings = some matrix →
      IsMinCostAssignment matrix players.length opponents.length (munkres matrix))
    (hown : OwnNames players) :
    ∃ res, hungarianAlgorithm munkres players opponents ratings = some res := by
  obtain ⟨result, ⟨hidx, _⟩, heq⟩ :=
    hungarian_eq_adapt munkres players opponents ratings hm hr hmunk
  have hasg := isAssignment_of_indices players opponents ho result hidx
  rw [heq]
  refine ⟨_, adaptToTournamentRules_eq _ ?_⟩
  apply noInheritedNames_of_players players _ hown
  intro q hq
  obtain ⟨x, hx, rfl⟩ := List.mem_map.1 hq
  exact Or.inr ⟨x.1, isAssignment_mem_left hasg x hx, rfl⟩

/-- What the exhaustive search returns are the pairs of an assignment of
greatest total. -/
theorem fullSearch_maximum (munkres : Munkres) (players opponents : List Name)
    (ratings : Ratings) (hn : players.length ≤ 5) (hp : players.Nodup)
    (ho : opponents.Nodup) (hm : players.length ≤ opponents.length)
    (hr : RatingsInRange players opponents ratings) (res : List TypedPair)
    (h : fullSearchOptimize munkres players opponents ratings = some res) :
    ∃ asg, IsAssignment players opponents asg
      ∧ totalRating res = some (assignmentTotal ratings asg)
      ∧ ∀ other, IsAssignment players opponents other →
          assignmentTotal ratings other ≤ assignmentTotal ratings asg := by
  obtain ⟨perm, h2, _, h4, h5⟩ :=
    fullSearch_optimal munkres players opponents ratings hn hp ho hm hr res h
  have hlen : players.length ≤ perm.length := by rw [h2.length_eq]; exact hm
  have htot : ratingSum (pairUp ratings players perm)
      = assignmentTotal ratings (players.zip perm) := by
    rw [pairUp_eq_map_zip _ _ _ hlen, ratingSum_map_pairOfNames]
  refine ⟨players.zip perm, ⟨?_, ?_, ?_⟩, ?_, ?_⟩
  · rw [map_fst_zip_le _ _ hlen]
  · rw [map_snd_zip_take _ _ hlen]
    exact (h2.nodup_iff.2 ho).sublist (List.take_sublist _ _)
  · intro x hx
    exact h2.mem_iff.1 (List.of_mem_zip hx).2
  · rw [h4, htot]
  · intro other hother
    obtain ⟨perm', hp1, _, hp3⟩ :=
      assignment_as_permutation players opponents ratings ho other hother
    rw [← htot, ← hp3]
    exact h5 perm' hp1

/-! ### The exhaustive search with too few opponents -/

theorem adaptToTournamentRules_nil : adaptToTournamentRules [] = some [] := by
  decide

theorem pairUp_short (ratings : Ratings) :
    ∀ (teamMembers perm : List Name), perm.length < teamMembers.length →
      ∃ q ∈ pairUp ratings teamMembers perm, ∃ p ∈ teamMembers,
        q.rating = ratingAt ratings p "undefined"
  | [], _, h => by simp at h
  | p :: ps, [], _ =>
    ⟨_, List.mem_cons_self _ _, p, List.mem_cons_self _ _, rfl⟩
  | p :: ps, o :: os, h => by
    obtain ⟨q, hq, p', hp', hr⟩ := pairUp_short ratings ps os (by simpa using h)
    exact ⟨q, List.mem_cons_of_mem _ hq, p', List.mem_cons_of_mem _ hp', hr⟩

/-- With fewer opponents than players every score is `NaN`, no permutation
is ever kept, and the exhaustive search returns the empty list. -/
theorem fullSearch_fewer_opponents (munkres : Munkres) (teamMembers opponents : List Name)
    (ratings : Ratings) (hn : teamMembers.length ≤ 5)
    (hm : opponents.length < teamMembers.length)
    (hrow : ∀ p ∈ teamMembers,
      (ratings.lookup p).isSome ∧ ratingAt ratings p "undefined" = none) :
    fullSearchOptimize munkres teamMembers opponents ratings = some [] := by
  obtain ⟨best, hb1, _, hb3, _⟩ := fullSearch_fold teamMembers ratings
    (fun p hp => (hrow p hp).1) (generatePermutations opponents) (-1, [])
  rw [fullSearchOptimize_small _ _ _ _ hn, hb1]
  rcases hb3 with hb3 | ⟨perm, hperm, _, hb6⟩
  · rw [hb3]
    exact adaptToTournamentRules_nil
  · exfalso
    have hperm' := (mem_generatePermutations opponents perm).1 hperm
    obtain ⟨q, hq, p, hp, hr⟩ :=
      pairUp_short ratings teamMembers perm (by rw [hperm'.length_eq]; exact hm)
    rw [(hrow p hp).2] at hr
    rw [scoreOf_none _ ⟨q, hq, hr⟩] at hb6
    cases hb6

theorem fullSearch_no_players (munkres : Munkres) (opponents : List Name) (ratings : Ratings) :
    fullSearchOptimize munkres [] opponents ratings = some [] := by
  obtain ⟨best, hb1, _, hb3, _⟩ := fullSearch_fold [] ratings
    (fun p hp => by simp at hp) (generatePermutations opponents) (-1, [])
  rw [fullSearchOptimize_small _ _ _ _ (by simp), hb1]
  rcases hb3 with hb3 | ⟨perm, _, hb5, _⟩
  · rw [hb3]
    exact adaptToTournamentRules_nil
  · show adaptToTournamentRules best.2 = some []
    rw [hb5]
    exact adaptToTournamentRules_nil

theorem greedy_of_empty_side (teamMembers opponents : List Name) (ratings : Ratings)
    (h : teamMembers = [] ∨ opponents = []) :
    greedyAlgorithm teamMembers opponents ratings = some [] := by
  have hrow : ∀ p ∈ teamMembers, ∀ o ∈ opponents, (ratings.lookup p).isSome := by
    rcases h with h | h
    · subst h
      intro p hp
      simp at hp
    · subst h
      intro p _ o ho
      simp at ho
  have hc : candidatePairs teamMembers opponents ratings = [] := by
    rcases h with h | h
    · subst h
      rfl
    · subst h
      simp [candidatePairs]
  rw [greedyAlgorithm_eq _ _ _ hrow, hc]
  decide
/-! ### Roles in the classifier output -/

theorem filter_type_map_withType (t t' : Role) (l : List Pair) :
    (l.map (withType t)).filter (fun q => decide (q.type = t'))
      = if t = t' then l.map (withType t) else [] := by
  by_cases h : t = t'
  · rw [if_pos h]
    apply List.filter_eq_self.2
    intro q hq
    obtain ⟨p, _, rfl⟩ := List.mem_map.1 hq
    simp [withType, h]
  · rw [if_neg h]
    apply List.filter_eq_nil_iff.2
    intro q hq
    obtain ⟨p, _, rfl⟩ := List.mem_map.1 hq
    simp [withType, h]

theorem roleCount_classified (pairs : List Pair) (res : List TypedPair)
    (h : adaptToTournamentRules pairs = some res) :
    roleCount Role.defender res = (defendersOf pairs 2).length
      ∧ roleCount Role.attacker res = (attackersOf pairs).length
      ∧ roleCount Role.remaining res = (restOf pairs).length := by
  obtain ⟨_, rfl⟩ := adapt_some pairs res h
  unfold classified
  simp [roleCount, List.filter_append, filter_type_map_withType]

theorem mem_classified (pairs : List Pair) (res : List TypedPair)
    (h : adaptToTournamentRules pairs = some res) (q : TypedPair) (hq : q ∈ res) :
    (q.type = Role.defender ∧ q.toPair ∈ defendersOf pairs 2)
      ∨ (q.type = Role.attacker ∧ q.toPair ∈ attackersOf pairs)
      ∨ (q.type = Role.remaining ∧ q.toPair ∈ restOf pairs) := by
  obtain ⟨_, rfl⟩ := adapt_some pairs res h
  unfold classified at hq
  simp only [List.mem_append, List.mem_map] at hq
  rcases hq with (⟨p, hp, rfl⟩ | ⟨p, hp, rfl⟩) | ⟨p, hp, rfl⟩
  · exact Or.inl ⟨rfl, hp⟩
  · exact Or.inr (Or.inl ⟨rfl, hp⟩)
  · exact Or.inr (Or.inr ⟨rfl, hp⟩)

theorem ne_of_unusedBy (used : List Pair) (a b : Pair) (ha : a ∈ used)
    (hb : unusedBy used b = true) : a.player ≠ b.player ∧ a.opponent ≠ b.opponent := by
  simp only [unusedBy, Bool.and_eq_true, Bool.not_eq_true', decide_eq_false_iff_not,
    List.mem_map, not_exists, not_and] at hb
  exact ⟨fun h => hb.1 a ha h, fun h => hb.2 a ha h⟩

theorem attackersOf_unused (pairs : List Pair) (b : Pair) (hb : b ∈ attackersOf pairs) :
    unusedBy (defendersOf pairs 2) b = true :=
  (List.mem_filter.1 ((attackersOf_subperm pairs).subset hb)).2

theorem restOf_unused (pairs : List Pair) (b : Pair) (hb : b ∈ restOf pairs) :
    unusedBy (defendersOf pairs 2 ++ attackersOf pairs) b = true :=
  (List.mem_filter.1 hb).2

/-- Two emitted pairs of different roles share neither player nor
opponent. -/
theorem classified_roles_disjoint (pairs : List Pair) (res : List TypedPair)
    (h : adaptToTournamentRules pairs = some res) :
    ∀ a ∈ res, ∀ b ∈ res, a.type ≠ b.type →
      a.player ≠ b.player ∧ a.opponent ≠ b.opponent := by
  intro a ha b hb hab
  have hsymm : ∀ {x y : Pair}, (x.player ≠ y.player ∧ x.opponent ≠ y.opponent) →
      (y.player ≠ x.player ∧ y.opponent ≠ x.opponent) :=
    fun hxy => ⟨fun e => hxy.1 e.symm, fun e => hxy.2 e.symm⟩
  rcases mem_classified pairs res h a ha with ⟨ta, ma⟩ | ⟨ta, ma⟩ | ⟨ta, ma⟩ <;>
    rcases mem_classified pairs res h b hb with ⟨tb, mb⟩ | ⟨tb, mb⟩ | ⟨tb, mb⟩
  · exact absurd (ta.trans tb.symm) hab
  · exact ne_of_unusedBy _ _ _ ma (attackersOf_unused pairs _ mb)
  · exact ne_of_unusedBy _ _ _ (List.mem_append_left _ ma) (restOf_unused pairs _ mb)
  · exact hsymm (ne_of_unusedBy _ _ _ mb (attackersOf_unused pairs _ ma))
  · exact absurd (ta.trans tb.symm) hab
  · exact ne_of_unusedBy _ _ _ (List.mem_append_right _ ma) (restOf_unused pairs _ mb)
  · exact hsymm (ne_of_unusedBy _ _ _ (List.mem_append_left _ mb) (restOf_unused pairs _ ma))
  · exact hsymm (ne_of_unusedBy _ _ _ (List.mem_append_right _ mb) (restOf_unused pairs _ ma))
  · exact absurd (ta.trans tb.symm) hab

theorem defendersOf_players_nodup (pairs : List Pair) (count : Nat) :
    ((defendersOf pairs count).map (·.player)).Nodup := by
  have h := defendersOf_keys_nodup pairs count
  have h2 : (((defendersOf pairs count).map (·.player)).map keyOf).Nodup := by
    rw [List.map_map]
    exact h
  exact List.Nodup.of_map _ h2

theorem attackersOf_length_le (pairs : List Pair) : (attackersOf pairs).length ≤ 4 := by
  unfold attackersOf findBestAttackers
  simp [List.length_take]

theorem defenders_typed (pairs : List Pair) (res : List TypedPair)
    (h : adaptToTournamentRules pairs = some res) :
    (res.filter fun q => decide (q.type = Role.defender)).map (·.player)
      = (defendersOf pairs 2).map (·.player) := by
  obtain ⟨_, rfl⟩ := adapt_some pairs res h
  unfold classified
  simp [List.filter_append, filter_type_map_withType, withType, Function.comp_def]

/-- With at least two different players among the candidates, two defenders
are chosen. -/
theorem defendersOf_length_two (players : List Name) (pairs : List Pair)
    (hp : players.Nodup) (hlen : 2 ≤ players.length)
    (hocc : ∀ p ∈ players, ∃ q ∈ pairs, q.player = some p) :
    (defendersOf pairs 2).length = 2 := by
  rw [defendersOf_length]
  have hsub : players ⊆ scoreKeys (playerScoresOf pairs) := by
    intro p hp'
    obtain ⟨q, hq, hqp⟩ := hocc p hp'
    rw [playerScoresOf_mem_keys]
    exact List.mem_map.2 ⟨q, hq, by rw [hqp]; rfl⟩
  have := length_le_of_nodup_subset hp hsub
  omega
/-! ### Objects as association lists -/

theorem lookup_cons_eq {β : Type} (key : Name) (e : Name × β) (es : List (Name × β)) :
    List.lookup key (e :: es) = if key = e.1 then some e.2 else List.lookup key es := by
  obtain ⟨a, b⟩ := e
  by_cases h : key = a
  · simp [List.lookup, h]
  · have : (key == a) = false := by simpa using h
    simp [List.lookup, h, this]

theorem lookup_map_of_mem_keys {β : Type} (key : Name) (value : β) :
    ∀ obj : List (Name × β), (obj.lookup key).isSome →
      (obj.map fun e => if e.1 = key then (key, value) else e).lookup key = some value
  | [], h => by simp at h
  | e :: es, h => by
    rw [List.map_cons, lookup_cons_eq]
    by_cases hk : e.1 = key
    · simp [hk]
    · have hk' : ¬ key = e.1 := fun h' => hk h'.symm
      rw [lookup_cons_eq, if_neg hk'] at h
      rw [if_neg hk, if_neg hk']
      exact lookup_map_of_mem_keys key value es h

theorem lookup_map_ne {β : Type} (key key' : Name) (value : β) (hne : key' ≠ key) :
    ∀ obj : List (Name × β),
      (obj.map fun e => if e.1 = key then (key, value) else e).lookup key' = obj.lookup key'
  | [] => rfl
  | e :: es => by
    rw [List.map_cons, lookup_cons_eq, lookup_cons_eq, lookup_map_ne key key' value hne es]
    by_cases hk : e.1 = key
    · have : ¬ key' = e.1 := by rw [hk]; exact hne
      simp [hk, hne, this]
    · simp [hk]

theorem lookup_append_singleton {β : Type} (key key' : Name) (value : β) :
    ∀ obj : List (Name × β),
      (obj ++ [(key, value)]).lookup key'
        = match obj.lookup key' with
          | some v => some v
          | none => if key' = key then some value else none
  | [] => by
    rw [List.nil_append, lookup_cons_eq]
    rfl
  | e :: es => by
    rw [List.cons_append, lookup_cons_eq, lookup_cons_eq, lookup_append_singleton key key' value es]
    by_cases hk : key' = e.1
    · simp [hk]
    · simp [hk]

theorem lookup_objSet_self {β : Type} (obj : List (Name × β)) (key : Name) (value : β) :
    (objSet obj key value).lookup key = some value := by
  unfold objSet
  by_cases h : (obj.lookup key).isSome
  · rw [if_pos h]
    exact lookup_map_of_mem_keys key value obj h
  · rw [if_neg h, lookup_append_singleton]
    have : obj.lookup key = none := by
      cases hl : obj.lookup key with
      | none => rfl
      | some v => simp [hl] at h
    simp [this]

theorem lookup_objSet_ne {β : Type} (obj : List (Name × β)) (key key' : Name) (value : β)
    (hne : key' ≠ key) : (objSet obj key value).lookup key' = obj.lookup key' := by
  unfold objSet
  by_cases h : (obj.lookup key).isSome
  · rw [if_pos h]
    exact lookup_map_ne key key' value hne obj
  · rw [if_neg h, lookup_append_singleton]
    cases obj.lookup key' with
    | none => simp [hne]
    | some v => rfl

theorem objDelete_cons {β : Type} (key : Name) (e : Name × β) (es : List (Name × β)) :
    objDelete (e :: es) key = if e.1 = key then objDelete es key else e :: objDelete es key := by
  unfold objDelete
  by_cases hk : e.1 = key
  · rw [if_pos hk, List.filter_cons_of_neg (by simp [hk])]
  · rw [if_neg hk, List.filter_cons_of_pos (by simpa using hk)]

theorem lookup_objDelete_self {β : Type} (key : Name) :
    ∀ obj : List (Name × β), (objDelete obj key).lookup key = none
  | [] => rfl
  | e :: es => by
    rw [objDelete_cons]
    by_cases hk : e.1 = key
    · rw [if_pos hk]
      exact lookup_objDelete_self key es
    · rw [if_neg hk, lookup_cons_eq, if_neg (fun h' => hk h'.symm)]
      exact lookup_objDelete_self key es

theorem lookup_objDelete_ne {β : Type} (key key' : Name) (hne : key' ≠ key) :
    ∀ obj : List (Name × β), (objDelete obj key).lookup key' = obj.lookup key'
  | [] => rfl
  | e :: es => by
    rw [objDelete_cons, lookup_cons_eq]
    by_cases hk : e.1 = key
    · rw [if_pos hk, lookup_objDelete_ne key key' hne es, if_neg (by rw [hk]; exact hne)]
    · rw [if_neg hk, lookup_cons_eq, lookup_objDelete_ne key key' hne es]

theorem objAssign_of_ne {β : Type} (obj : List (Name × β)) (key : Name) (value : β)
    (h : key ≠ "__proto__") : objAssign obj key value = objSet obj key value := by
  unfold objAssign
  rw [if_neg (fun hc => h hc.1)]

theorem lookup_objAssign_ne {β : Type} (obj : List (Name × β)) (key key' : Name) (value : β)
    (hne : key' ≠ key) : (objAssign obj key value).lookup key' = obj.lookup key' := by
  unfold objAssign
  split
  · rfl
  · exact lookup_objSet_ne obj key key' value hne

/-- Assignment to the key `__proto__` of an object that does not own it
changes no own property. -/
theorem objAssign_proto {β : Type} (obj : List (Name × β)) (value : β)
    (h : obj.lookup "__proto__" = none) : objAssign obj "__proto__" value = obj := by
  unfold objAssign
  rw [if_pos ⟨rfl, by simp [h]⟩]

theorem lookup_map_snd {β γ : Type} (f : Name → β → γ) (key : Name) :
    ∀ obj : List (Name × β),
      (obj.map fun e => (e.1, f e.1 e.2)).lookup key = (obj.lookup key).map (f key)
  | [] => rfl
  | e :: es => by
    rw [List.map_cons, lookup_cons_eq, lookup_cons_eq, lookup_map_snd f key es]
    by_cases hk : key = e.1
    · simp [hk]
    · simp [hk]
/-! ### Renaming -/

theorem saveEditedName_accept (s : AppState) (oldName : Name) (isOpponent : Bool)
    (he : s.editingPlayer = some (oldName, isOpponent))
    (hne : jsTrim s.editedName ≠ "")
    (hok : jsTrim s.editedName ∉ (if isOpponent then s.opponents else s.teamMembers)
      ∨ jsTrim s.editedName = oldName) :
    saveEditedName s = some (applyRename s oldName isOpponent (jsTrim s.editedName)) := by
  unfold saveEditedName
  rw [if_neg hne, he]
  dsimp only
  rw [if_neg]
  rcases hok with h | h
  · simp [h]
  · simp [h]

theorem saveEditedName_cases (s s' : AppState) (h : saveEditedName s = some s') :
    s' = s ∨ ∃ oldName isOpponent, s.editingPlayer = some (oldName, isOpponent)
      ∧ jsTrim s.editedName ≠ ""
      ∧ (jsTrim s.editedName ∉ (if isOpponent then s.opponents else s.teamMembers)
          ∨ jsTrim s.editedName = oldName)
      ∧ s' = applyRename s oldName isOpponent (jsTrim s.editedName) := by
  unfold saveEditedName at h
  by_cases hb : jsTrim s.editedName = ""
  · rw [if_pos hb] at h
    exact Or.inl (Option.some.inj h).symm
  · rw [if_neg hb] at h
    cases he : s.editingPlayer with
    | none => simp [he] at h
    | some e =>
      obtain ⟨oldName, isOpponent⟩ := e
      rw [he] at h
      dsimp only at h
      by_cases hd : (decide (jsTrim s.editedName ∈
          (if isOpponent then s.opponents else s.teamMembers))
          && decide (jsTrim s.editedName ≠ oldName)) = true
      · rw [if_pos hd] at h
        exact Or.inl (Option.some.inj h).symm
      · rw [if_neg hd] at h
        refine Or.inr ⟨oldName, isOpponent, rfl, hb, ?_, (Option.some.inj h).symm⟩
        simp only [Bool.and_eq_true, decide_eq_true_eq, not_and, not_not] at hd
        by_cases hm : jsTrim s.editedName ∈ (if isOpponent then s.opponents else s.teamMembers)
        · exact Or.inr (hd hm)
        · exact Or.inl hm

theorem ratingAt_renamePlayer_new (ratings : Ratings) (oldName newName : Name)
    (hrow : (ratings.lookup oldName).isSome) (hne : newName ≠ oldName)
    (hproto : newName ≠ "__proto__") (o : Name) :
    ratingAt (renamePlayerRatings oldName newName ratings) newName o
      = ratingAt ratings oldName o := by
  unfold renamePlayerRatings ratingAt
  cases hl : ratings.lookup oldName with
  | none => simp [hl] at hrow
  | some row =>
    dsimp only
    rw [lookup_objDelete_ne _ _ hne, objAssign_of_ne _ _ _ hproto, lookup_objSet_self]

theorem lookup_renamePlayer_old (ratings : Ratings) (oldName newName : Name) :
    (renamePlayerRatings oldName newName ratings).lookup oldName = none := by
  unfold renamePlayerRatings
  cases hl : ratings.lookup oldName with
  | none => exact hl
  | some row => exact lookup_objDelete_self _ _

theorem lookup_renamePlayer_other (ratings : Ratings) (oldName newName p : Name)
    (h1 : p ≠ oldName) (h2 : p ≠ newName) :
    (renamePlayerRatings oldName newName ratings).lookup p = ratings.lookup p := by
  unfold renamePlayerRatings
  cases hl : ratings.lookup oldName with
  | none => rfl
  | some row =>
    dsimp only
    rw [lookup_objDelete_ne _ _ h1, lookup_objAssign_ne _ _ _ _ h2]

theorem lookup_renameOpponent (ratings : Ratings) (oldName newName p : Name)
    (hp : p ≠ "__proto__") :
    (renameOpponentRatings oldName newName ratings).lookup p
      = (ratings.lookup p).map fun row =>
          match row.lookup oldName with
          | some v => objDelete (objAssign row newName v) oldName
          | none => row := by
  have h := lookup_map_snd (fun _ row => match row.lookup oldName with
    | some v => objDelete (objAssign row newName v) oldName
    | none => row) p (objDelete ratings "__proto__")
  rw [lookup_objDelete_ne _ _ hp] at h
  exact h

/-- The store a renamed opponent leaves has no own row under `__proto__`. -/
theorem lookup_renameOpponent_proto (ratings : Ratings) (oldName newName : Name) :
    (renameOpponentRatings oldName newName ratings).lookup "__proto__" = none := by
  have h := lookup_map_snd (fun _ row => match row.lookup oldName with
    | some v => objDelete (objAssign row newName v) oldName
    | none => row) "__proto__" (objDelete ratings "__proto__")
  rw [lookup_objDelete_self] at h
  exact h

theorem ratingAt_renameOpponent_new (ratings : Ratings) (oldName newName p : Name)
    (hentry : (ratingAt ratings p oldName).isSome) (hne : newName ≠ oldName)
    (hproto : newName ≠ "__proto__") (hp : p ≠ "__proto__") :
    ratingAt (renameOpponentRatings oldName newName ratings) p newName
      = ratingAt ratings p oldName := by
  unfold ratingAt at hentry ⊢
  rw [lookup_renameOpponent _ _ _ _ hp]
  cases hl : ratings.lookup p with
  | none => simp [hl] at hentry
  | some row =>
    rw [hl] at hentry
    change (row.lookup oldName).isSome = true at hentry
    change List.lookup newName (match row.lookup oldName with
      | some v => objDelete (objAssign row newName v) oldName
      | none => row) = row.lookup oldName
    cases hv : row.lookup oldName with
    | none => simp [hv] at hentry
    | some v =>
      dsimp only
      rw [lookup_objDelete_ne _ _ hne, objAssign_of_ne _ _ _ hproto, lookup_objSet_self]

theorem ratingAt_renameOpponent_old (ratings : Ratings) (oldName newName p : Name) :
    ratingAt (renameOpponentRatings oldName newName ratings) p oldName = none := by
  unfold ratingAt
  by_cases hp : p = "__proto__"
  · rw [hp, lookup_renameOpponent_proto]
    rfl
  rw [lookup_renameOpponent _ _ _ _ hp]
  cases hl : ratings.lookup p with
  | none => rfl
  | some row =>
    change List.lookup oldName (match row.lookup oldName with
      | some v => objDelete (objAssign row newName v) oldName
      | none => row) = none
    cases hv : row.lookup oldName with
    | none => exact hv
    | some v => exact lookup_objDelete_self _ _
theorem nodup_map_rename (l : List Name) (oldName newName : Name) (hl : l.Nodup)
    (h : newName ∉ l ∨ newName = oldName) :
    (l.map fun x => if x = oldName then newName else x).Nodup := by
  rcases h with h | h
  · apply List.Nodup.map_on _ hl
    intro x hx y hy hxy
    by_cases h1 : x = oldName <;> by_cases h2 : y = oldName
    · rw [h1, h2]
    · rw [if_pos h1, if_neg h2] at hxy
      exact absurd (hxy ▸ hy) h
    · rw [if_neg h1, if_pos h2] at hxy
      exact absurd (hxy.symm ▸ hx) h
    · rw [if_neg h1, if_neg h2] at hxy
      exact hxy
  · have : (l.map fun x => if x = oldName then newName else x) = l := by
      conv_rhs => rw [← List.map_id l]
      apply List.map_congr_left
      intro x _
      by_cases h1 : x = oldName
      · rw [if_pos h1, h, h1]
        rfl
      · rw [if_neg h1]
        rfl
    rw [this]
    exact hl

theorem mem_map_rename (l : List Name) (oldName newName x : Name)
    (h : x ∈ l.map fun y => if y = oldName then newName else y) : x ∈ l ∨ x = newName := by
  obtain ⟨y, hy, rfl⟩ := List.mem_map.1 h
  by_cases h1 : y = oldName
  · rw [if_pos h1]
    exact Or.inr rfl
  · rw [if_neg h1]
    exact Or.inl hy

theorem getElem?_map_rename (l : List Name) (oldName newName : Name) (i : Nat) :
    (l.map fun y => if y = oldName then newName else y)[i]? = l[i]?
      ∨ (l.map fun y => if y = oldName then newName else y)[i]? = some newName := by
  rw [List.getElem?_map]
  cases l[i]? with
  | none => exact Or.inl rfl
  | some y =>
    by_cases h1 : y = oldName
    · right
      simp [h1]
    · left
      simp [h1]

/-! ### Manual reconciliation -/

theorem foldl_setOf_nodup (l : List Name) :
    ∀ acc : List Name, (acc ++ l).Nodup →
      l.foldl (fun acc x => if x ∈ acc then acc else acc ++ [x]) acc = acc ++ l := by
  induction l with
  | nil => intro acc _; simp
  | cons x xs ih =>
    intro acc h
    have hx : x ∉ acc := by
      intro hmem
      have := List.nodup_append.1 h
      exact this.2.2 hmem (List.mem_cons_self _ _)
    rw [List.foldl_cons, if_neg hx, ih (acc ++ [x]) (by simpa using h)]
    simp

theorem setOf_nodup (l : List Name) (h : l.Nodup) : setOf l = l := by
  have := foldl_setOf_nodup l [] (by simpa using h)
  simpa [setOf] using this

theorem foldl_setOf_subset (l : List Name) :
    ∀ acc : List Name, ∀ x ∈ l.foldl (fun acc x => if x ∈ acc then acc else acc ++ [x]) acc,
      x ∈ acc ∨ x ∈ l := by
  induction l with
  | nil => intro acc x hx; exact Or.inl hx
  | cons y ys ih =>
    intro acc x hx
    rw [List.foldl_cons] at hx
    rcases ih _ x hx with h | h
    · by_cases hy : y ∈ acc
      · rw [if_pos hy] at h
        exact Or.inl h
      · rw [if_neg hy] at h
        rcases List.mem_append.1 h with h | h
        · exact Or.inl h
        · exact Or.inr (by simpa using Or.inl (List.mem_singleton.1 h))
    · exact Or.inr (List.mem_cons_of_mem _ h)

theorem mem_setOf (l : List Name) (x : Name) (h : x ∈ setOf l) : x ∈ l := by
  rcases foldl_setOf_subset l [] x h with h | h
  · simp at h
  · exact h

theorem mem_of_mem_foldl_filter {α : Type} (f : α → Name) (pairs : List α) :
    ∀ (set : List Name) (x : Name),
      x ∈ pairs.foldl (fun set pair => set.filter (· != f pair)) set → x ∈ set := by
  induction pairs with
  | nil => intro set x hx; exact hx
  | cons p ps ih =>
    intro set x hx
    rw [List.foldl_cons] at hx
    exact (List.mem_filter.1 (ih _ x hx)).1

theorem pushManualPair_some (s : AppState) (a w : Name) (t : Role) (acc : List ManualPair)
    (ha : a ≠ "") (hw : w ≠ "") (hrow : (s.ratings.lookup a).isSome) :
    pushManualPair s (some a) (some w) t acc
      = some (acc ++ [{ ourPlayer := a, opponent := w, rating := ratingAt s.ratings a w,
                        type := t }]) := by
  unfold pushManualPair
  have h1 : truthy (some a) = true := by simpa [truthy] using ha
  have h2 : truthy (some w) = true := by simpa [truthy] using hw
  rw [h1, h2, getRating_of_row _ _ _ hrow]
  rfl

theorem pushManualPair_spec (s : AppState) (player opponent : Option Name) (t : Role)
    (acc : List ManualPair)
    (hrow : ∀ n, player = some n → (s.ratings.lookup n).isSome) :
    ∃ acc', pushManualPair s player opponent t acc = some acc'
      ∧ acc'.length ≤ acc.length + 1
      ∧ ((player = none ∨ opponent = none) → acc' = acc) := by
  unfold pushManualPair
  cases player with
  | none => exact ⟨acc, by simp [truthy], by omega, fun _ => rfl⟩
  | some a =>
    cases opponent with
    | none => exact ⟨acc, by simp [truthy], by omega, fun _ => rfl⟩
    | some w =>
      by_cases htr : (truthy (some a) && truthy (some w)) = true
      · rw [if_pos htr, getRating_of_row _ _ _ (hrow a rfl)]
        exact ⟨_, rfl, by simp, fun h => by rcases h with h | h <;> cases h⟩
      · rw [if_neg htr]
        exact ⟨acc, rfl, by omega, fun _ => rfl⟩

theorem filter_four_singleton (l : List Name) (a b c d : Name) (hl : l.Nodup)
    (hlen : l.length = 5) (hS : [a, b, c, d].Nodup) (hmem : ∀ p ∈ [a, b, c, d], p ∈ l) :
    ∃ e, (((l.filter (· != a)).filter (· != b)).filter (· != c)).filter (· != d) = [e]
      ∧ e ∈ l ∧ e ∉ [a, b, c, d] ∧ ∀ p ∈ l, p ∉ [a, b, c, d] → p = e := by
  have hR : (((l.filter (· != a)).filter (· != b)).filter (· != c)).filter (· != d)
      = l.filter (fun p => !decide (p ∈ [a, b, c, d])) := by
    simp only [List.filter_filter]
    apply List.filter_congr
    intro p _
    simp only [List.mem_cons, List.mem_singleton, List.not_mem_nil, or_false, bne_iff_ne, ne_eq,
      Bool.and_eq_true, Bool.not_eq_true', decide_eq_false_iff_not, not_or, Bool.decide_and,
      Bool.decide_eq_true, decide_not]
    by_cases h1 : p = a <;> by_cases h2 : p = b <;> by_cases h3 : p = c <;>
      by_cases h4 : p = d <;> simp [h1, h2, h3, h4]
  have hin : (l.filter (fun p => decide (p ∈ [a, b, c, d]))).Perm [a, b, c, d] := by
    apply (List.perm_ext_iff_of_nodup (hl.filter _) hS).2
    intro p
    simp only [List.mem_filter, decide_eq_true_eq]
    exact ⟨fun h => h.2, fun h => ⟨hmem p h, h⟩⟩
  have hsplit := (List.filter_append_perm (fun p => decide (p ∈ [a, b, c, d])) l).length_eq
  rw [List.length_append, hin.length_eq, hlen] at hsplit
  have hone : (l.filter (fun p => !decide (p ∈ [a, b, c, d]))).length = 1 := by
    simp only [List.length_cons, List.length_nil] at hsplit
    omega
  obtain ⟨e, he⟩ := List.length_eq_one.1 hone
  have hmemR : ∀ p, p ∈ l.filter (fun p => !decide (p ∈ [a, b, c, d]))
      ↔ p ∈ l ∧ p ∉ [a, b, c, d] := by
    intro p
    simp [List.mem_filter]
  have hee := (hmemR e).1 (by rw [he]; exact List.mem_singleton.2 rfl)
  refine ⟨e, by rw [hR, he], hee.1, hee.2, ?_⟩
  intro p hp hpn
  have := (hmemR p).2 ⟨hp, hpn⟩
  rw [he] at this
  exact List.mem_singleton.1 this

theorem ne_empty_of_mem {names : List Name} (h : ValidRoster names) {n : Name}
    (hn : n ∈ names) : n ≠ "" :=
  fun e => h.2 (e ▸ hn)

/-- The result of `collectManualPairs` on a full protocol state. -/
theorem collectManualPairs_full (s : AppState) (a b c d w x y z : Name)
    (hp : ValidRoster s.teamMembers) (hpl : s.teamMembers.length = 5)
    (ho : ValidRoster s.opponents) (hol : s.opponents.length = 5)
    (hpop : FullyPopulated s.teamMembers s.opponents s.ratings)
    (h : FullProtocol s a b c d w x y z) :
    ∃ e f, e ∈ s.teamMembers ∧ e ∉ [a, b, c, d]
      ∧ (∀ p ∈ s.teamMembers, p ∉ [a, b, c, d] → p = e)
      ∧ f ∈ s.opponents ∧ f ∉ [w, x, y, z]
      ∧ (∀ o ∈ s.opponents, o ∉ [w, x, y, z] → o = f)
      ∧ collectManualPairs s = some
        [{ ourPlayer := a, opponent := w, rating := ratingAt s.ratings a w,
           type := Role.defender },
         { ourPlayer := b, opponent := x, rating := ratingAt s.ratings b x,
           type := Role.defender },
         { ourPlayer := c, opponent := y, rating := ratingAt s.ratings c y,
           type := Role.attacker },
         { ourPlayer := d, opponent := z, rating := ratingAt s.ratings d z,
           type := Role.attacker },
         { ourPlayer := e, opponent := f, rating := ratingAt s.ratings e f,
           type := Role.remaining }] := by
  obtain ⟨h1, h2, h3, h4, h5, h6, h7, h8, hS, hSm, hT, hTm⟩ := h
  obtain ⟨e, he, hel, hen, heu⟩ :=
    filter_four_singleton s.teamMembers a b c d hp.1 hpl hS hSm
  obtain ⟨f, hf, hfl, hfn, hfu⟩ :=
    filter_four_singleton s.opponents w x y z ho.1 hol hT hTm
  have ma := hSm a (by simp)
  have mb := hSm b (by simp)
  have mc := hSm c (by simp)
  have md := hSm d (by simp)
  have mw := hTm w (by simp)
  have mx := hTm x (by simp)
  have my := hTm y (by simp)
  have mz := hTm z (by simp)
  refine ⟨e, f, hel, hen, heu, hfl, hfn, hfu, ?_⟩
  unfold collectManualPairs
  rw [h1, h2, h3, h4, h5, h6, h7, h8]
  rw [pushManualPair_some s a w _ _ (ne_empty_of_mem hp ma) (ne_empty_of_mem ho mw)
    (hpop a ma).1]
  dsimp only
  rw [pushManualPair_some s b x _ _ (ne_empty_of_mem hp mb) (ne_empty_of_mem ho mx)
    (hpop b mb).1]
  dsimp only
  rw [pushManualPair_some s c y _ _ (ne_empty_of_mem hp mc) (ne_empty_of_mem ho my)
    (hpop c mc).1]
  dsimp only
  rw [pushManualPair_some s d z _ _ (ne_empty_of_mem hp md) (ne_empty_of_mem ho mz)
    (hpop d md).1]
  dsimp only
  rw [setOf_nodup _ hp.1, setOf_nodup _ ho.1]
  simp only [List.nil_append, List.cons_append, List.foldl_cons, List.foldl_nil]
  rw [he, hf]
  simp only [List.getElem?_cons_zero]
  rw [pushManualPair_some s e f _ _ (ne_empty_of_mem hp hel) (ne_empty_of_mem ho hfl)
    (hpop e hel).1]
  rfl

/-- On a state with rows for all roster players `collectManualPairs`
returns, with at most one pair per block of the source. -/
theorem collectManualPairs_partial (s : AppState)
    (hpop : FullyPopulated s.teamMembers s.opponents s.ratings)
    (hslots : SlotsInRoster s) :
    ∃ res, collectManualPairs s = some res ∧ res.length ≤ 5
      ∧ ((∃ slot ∈ reconciliationSlots s, slot = none) → res.length < 5) := by
  have hrow : ∀ slot ∈ [s.firstDefender, s.secondDefender, s.opponentFirstAttackerChoice,
      s.opponentSecondAttackerChoice], ∀ n, slot = some n → (s.ratings.lookup n).isSome :=
    fun slot hs n hn => (hpop n (hslots.1 slot hs n hn)).1
  obtain ⟨p1, e1, l1, n1⟩ := pushManualPair_spec s s.firstDefender s.firstAttackerChoice
    Role.defender [] (hrow _ (by simp))
  obtain ⟨p2, e2, l2, n2⟩ := pushManualPair_spec s s.secondDefender s.secondAttackerChoice
    Role.defender p1 (hrow _ (by simp))
  obtain ⟨p3, e3, l3, n3⟩ := pushManualPair_spec s s.opponentFirstAttackerChoice
    s.opponentFirstDefender Role.attacker p2 (hrow _ (by simp))
  obtain ⟨p4, e4, l4, n4⟩ := pushManualPair_spec s s.opponentSecondAttackerChoice
    s.opponentSecondDefender Role.attacker p3 (hrow _ (by simp))
  obtain ⟨p5, e5, l5, _⟩ := pushManualPair_spec s
    (p4.foldl (fun set pair => set.filter (· != pair.ourPlayer)) (setOf s.teamMembers))[0]?
    (p4.foldl (fun set pair => set.filter (· != pair.opponent)) (setOf s.opponents))[0]?
    Role.remaining p4 (by
      intro n hn
      have hmem : n ∈ p4.foldl (fun set pair => set.filter (· != pair.ourPlayer))
          (setOf s.teamMembers) := List.getElem?_mem hn
      exact (hpop n (mem_setOf _ _ (mem_of_mem_foldl_filter _ _ _ _ hmem))).1)
  refine ⟨p5, ?_, ?_, ?_⟩
  · unfold collectManualPairs
    rw [e1]
    dsimp only
    rw [e2]
    dsimp only
    rw [e3]
    dsimp only
    rw [e4]
    dsimp only
    exact e5
  · simp only [List.length_nil] at l1
    omega
  · rintro ⟨slot, hslot, rfl⟩
    simp only [List.length_nil] at l1
    simp only [reconciliationSlots, List.mem_cons, List.mem_singleton, List.not_mem_nil,
      or_false] at hslot
    rcases hslot with h | h | h | h | h | h | h | h
    · rw [n1 (Or.inl h.symm)] at l2
      simp only [List.length_nil] at l2
      omega
    · rw [n1 (Or.inr h.symm)] at l2
      simp only [List.length_nil] at l2
      omega
    · rw [n2 (Or.inl h.symm)] at l3
      omega
    · rw [n2 (Or.inr h.symm)] at l3
      omega
    · rw [n3 (Or.inl h.symm)] at l4
      omega
    · rw [n3 (Or.inr h.symm)] at l4
      omega
    · rw [n4 (Or.inl h.symm)] at l5
      omega
    · rw [n4 (Or.inr h.symm)] at l5
      omega

/-! ### Availability -/

theorem spliceOut_sublist (arr : List Name) (x : Option Name) :
    (spliceOut arr x).Sublist arr := by
  unfold spliceOut
  cases x with
  | none => exact List.dropLast_sublist _
  | some n =>
    dsimp only
    split
    · exact List.erase_sublist _ _
    · exact List.dropLast_sublist _

theorem spliceOut_not_mem (arr : List Name) (n : Name) (h : arr.Nodup) :
    n ∉ spliceOut arr (some n) := by
  unfold spliceOut
  dsimp only
  split
  · exact fun hm => (List.Nodup.mem_erase_iff h).1 hm |>.1 rfl
  · rename_i hn
    exact fun hm => hn ((List.dropLast_sublist _).subset hm)

theorem foldl_spliceOut_sublist (l : List (Option Name)) :
    ∀ arr : List Name, (l.foldl spliceOut arr).Sublist arr := by
  induction l with
  | nil => intro arr; exact List.Sublist.refl _
  | cons x xs ih =>
    intro arr
    exact (ih _).trans (spliceOut_sublist arr x)

theorem foldl_spliceOut_not_mem (l : List (Option Name)) :
    ∀ arr : List Name, arr.Nodup → ∀ n, some n ∈ l → n ∉ l.foldl spliceOut arr := by
  induction l with
  | nil => intro arr _ n hn; simp at hn
  | cons x xs ih =>
    intro arr harr n hn
    rw [List.foldl_cons]
    rcases List.mem_cons.1 hn with h | h
    · rw [← h]
      exact fun hm => spliceOut_not_mem arr n harr ((foldl_spliceOut_sublist xs _).subset hm)
    · exact ih _ (harr.sublist (spliceOut_sublist arr x)) n h

theorem guarded_splice_sublist (arr : List Name) (slot : Option Name) (cond : Bool) :
    (if (truthy slot && cond) = true then spliceOut arr slot else arr).Sublist arr := by
  split
  · exact spliceOut_sublist _ _
  · exact List.Sublist.refl _

theorem guarded_splice_not_mem (arr : List Name) (n : Name) (cond : Bool) (h : arr.Nodup)
    (hempty : "" ∉ arr) (hc : cond = true) :
    n ∉ (if (truthy (some n) && cond) = true then spliceOut arr (some n) else arr) := by
  by_cases hn : n = ""
  · rw [hn]
    intro hm
    exact hempty ((guarded_splice_sublist arr (some "") cond).subset hm)
  · have : (truthy (some n) && cond) = true := by simp [truthy, hn, hc]
    rw [if_pos this]
    exact spliceOut_not_mem arr n h

theorem availablePlayersOf_eq (s : AppState) (currentStep : Nat) :
    availablePlayersOf s currentStep =
      (if (truthy s.opponentFirstAttackerChoice && true) = true then
        spliceOut (s.secondAttackers.foldl spliceOut (s.firstAttackers.foldl spliceOut
          (if (truthy s.secondDefender && true) = true then
            spliceOut (if (truthy s.firstDefender && (currentStep != 1)) = true then
              spliceOut s.teamMembers s.firstDefender else s.teamMembers) s.secondDefender
          else (if (truthy s.firstDefender && (currentStep != 1)) = true then
              spliceOut s.teamMembers s.firstDefender else s.teamMembers))))
          s.opponentFirstAttackerChoice
      else s.secondAttackers.foldl spliceOut (s.firstAttackers.foldl spliceOut
          (if (truthy s.secondDefender && true) = true then
            spliceOut (if (truthy s.firstDefender && (currentStep != 1)) = true then
              spliceOut s.teamMembers s.firstDefender else s.teamMembers) s.secondDefender
          else (if (truthy s.firstDefender && (currentStep != 1)) = true then
              spliceOut s.teamMembers s.firstDefender else s.teamMembers)))) := by
  simp only [availablePlayersOf, Bool.and_true]

theorem availablePlayersOf_sublist (s : AppState) (currentStep : Nat) :
    (availablePlayersOf s currentStep).Sublist s.teamMembers := by
  rw [availablePlayersOf_eq]
  exact (guarded_splice_sublist _ _ _).trans
    ((foldl_spliceOut_sublist _ _).trans ((foldl_spliceOut_sublist _ _).trans
      ((guarded_splice_sublist _ _ _).trans (guarded_splice_sublist _ _ _))))

/-- No player placed in a slot of our side is left among the available
players. -/
theorem availablePlayersOf_excludes (s : AppState) (currentStep : Nat)
    (hp : ValidRoster s.teamMembers) (n : Name)
    (h : (s.firstDefender = some n ∧ currentStep ≠ 1) ∨ s.secondDefender = some n
      ∨ some n ∈ s.firstAttackers ∨ some n ∈ s.secondAttackers
      ∨ s.opponentFirstAttackerChoice = some n) :
    n ∉ availablePlayersOf s currentStep := by
  rw [availablePlayersOf_eq]
  have s1 := guarded_splice_sublist s.teamMembers s.firstDefender (currentStep != 1)
  generalize ha1 : (if (truthy s.firstDefender && (currentStep != 1)) = true then
      spliceOut s.teamMembers s.firstDefender else s.teamMembers) = a1 at s1 ⊢
  have s2 := guarded_splice_sublist a1 s.secondDefender true
  generalize ha2 : (if (truthy s.secondDefender && true) = true then
      spliceOut a1 s.secondDefender else a1) = a2 at s2 ⊢
  have s3 := foldl_spliceOut_sublist s.firstAttackers a2
  generalize ha3 : s.firstAttackers.foldl spliceOut a2 = a3 at s3 ⊢
  have s4 := foldl_spliceOut_sublist s.secondAttackers a3
  generalize ha4 : s.secondAttackers.foldl spliceOut a3 = a4 at s4 ⊢
  have s5 := guarded_splice_sublist a4 s.opponentFirstAttackerChoice true
  have n1 : a1.Nodup := hp.1.sublist s1
  have n2 : a2.Nodup := n1.sublist s2
  have n3 : a3.Nodup := n2.sublist s3
  have n4 : a4.Nodup := n3.sublist s4
  have e1 : "" ∉ a1 := fun hm => hp.2 (s1.subset hm)
  have e4 : "" ∉ a4 := fun hm => e1 (s2.subset (s3.subset (s4.subset hm)))
  rcases h with ⟨h, hstep⟩ | h | h | h | h
  · intro hm
    have hm1 : n ∈ a1 := s2.subset (s3.subset (s4.subset (s5.subset hm)))
    rw [← ha1, h] at hm1
    exact guarded_splice_not_mem s.teamMembers n (currentStep != 1) hp.1 hp.2
      (by simpa using hstep) hm1
  · intro hm
    have hm2 : n ∈ a2 := s3.subset (s4.subset (s5.subset hm))
    rw [← ha2, h] at hm2
    exact guarded_splice_not_mem a1 n true n1 e1 rfl hm2
  · intro hm
    have hm3 : n ∈ a3 := s4.subset (s5.subset hm)
    rw [← ha3] at hm3
    exact foldl_spliceOut_not_mem _ a2 n2 n h hm3
  · intro hm
    have hm4 : n ∈ a4 := s5.subset hm
    rw [← ha4] at hm4
    exact foldl_spliceOut_not_mem _ a3 n3 n h hm4
  · rw [h]
    exact guarded_splice_not_mem a4 n true n4 e4 rfl

theorem availableOpponentsOf_eq (s : AppState) :
    availableOpponentsOf s =
      (fun b5 : List Name =>
        if (truthy s.secondAttackerChoice && true) = true then
          spliceOut b5 s.secondAttackerChoice else b5)
      ((fun b4 : List Name =>
        if (truthy s.firstAttackerChoice && true) = true then
          spliceOut b4 s.firstAttackerChoice else b4)
      (s.opponentSecondAttackers.foldl spliceOut
        (s.opponentFirstAttackers.foldl spliceOut
          ((fun b1 : List Name =>
            if (truthy s.opponentSecondDefender && true) = true then
              spliceOut b1 s.opponentSecondDefender else b1)
          (if (truthy s.opponentFirstDefender && true) = true then
            spliceOut s.opponents s.opponentFirstDefender else s.opponents))))) := by
  simp only [availableOpponentsOf, Bool.and_true]

theorem availableOpponentsOf_sublist (s : AppState) :
    (availableOpponentsOf s).Sublist s.opponents := by
  rw [availableOpponentsOf_eq]
  exact (guarded_splice_sublist _ _ _).trans ((guarded_splice_sublist _ _ _).trans
    ((foldl_spliceOut_sublist _ _).trans ((foldl_spliceOut_sublist _ _).trans
      ((guarded_splice_sublist _ _ _).trans (guarded_splice_sublist _ _ _)))))

/-- No opponent placed in a slot of the opposing side is left among the
available opponents. -/
theorem availableOpponentsOf_excludes (s : AppState) (ho : ValidRoster s.opponents) (n : Name)
    (h : s.opponentFirstDefender = some n ∨ s.opponentSecondDefender = some n
      ∨ some n ∈ s.opponentFirstAttackers ∨ some n ∈ s.opponentSecondAttackers
      ∨ s.firstAttackerChoice = some n ∨ s.secondAttackerChoice = some n) :
    n ∉ availableOpponentsOf s := by
  rw [availableOpponentsOf_eq]
  dsimp only
  have s1 := guarded_splice_sublist s.opponents s.opponentFirstDefender true
  generalize hb1 : (if (truthy s.opponentFirstDefender && true) = true then
      spliceOut s.opponents s.opponentFirstDefender else s.opponents) = b1 at s1 ⊢
  have s2 := guarded_splice_sublist b1 s.opponentSecondDefender true
  generalize hb2 : (if (truthy s.opponentSecondDefender && true) = true then
      spliceOut b1 s.opponentSecondDefender else b1) = b2 at s2 ⊢
  have s3 := foldl_spliceOut_sublist s.opponentFirstAttackers b2
  generalize hb3 : s.opponentFirstAttackers.foldl spliceOut b2 = b3 at s3 ⊢
  have s4 := foldl_spliceOut_sublist s.opponentSecondAttackers b3
  generalize hb4 : s.opponentSecondAttackers.foldl spliceOut b3 = b4 at s4 ⊢
  have s5 := guarded_splice_sublist b4 s.firstAttackerChoice true
  generalize hb5 : (if (truthy s.firstAttackerChoice && true) = true then
      spliceOut b4 s.firstAttackerChoice else b4) = b5 at s5 ⊢
  have s6 := guarded_splice_sublist b5 s.secondAttackerChoice true
  have n1 : b1.Nodup := ho.1.sublist s1
  have n2 : b2.Nodup := n1.sublist s2
  have n3 : b3.Nodup := n2.sublist s3
  have n4 : b4.Nodup := n3.sublist s4
  have n5 : b5.Nodup := n4.sublist s5
  have e1 : "" ∉ b1 := fun hm => ho.2 (s1.subset hm)
  have e4 : "" ∉ b4 := fun hm => e1 (s2.subset (s3.subset (s4.subset hm)))
  have e5 : "" ∉ b5 := fun hm => e4 (s5.subset hm)
  rcases h with h | h | h | h | h | h
  · intro hm
    have hm1 : n ∈ b1 := s2.subset (s3.subset (s4.subset (s5.subset (s6.subset hm))))
    rw [← hb1, h] at hm1
    exact guarded_splice_not_mem s.opponents n true ho.1 ho.2 rfl hm1
  · intro hm
    have hm2 : n ∈ b2 := s3.subset (s4.subset (s5.subset (s6.subset hm)))
    rw [← hb2, h] at hm2
    exact guarded_splice_not_mem b1 n true n1 e1 rfl hm2
  · intro hm
    have hm3 : n ∈ b3 := s4.subset (s5.subset (s6.subset hm))
    rw [← hb3] at hm3
    exact foldl_spliceOut_not_mem _ b2 n2 n h hm3
  · intro hm
    have hm4 : n ∈ b4 := s5.subset (s6.subset hm)
    rw [← hb4] at hm4
    exact foldl_spliceOut_not_mem _ b3 n3 n h hm4
  · intro hm
    have hm5 : n ∈ b5 := s6.subset hm
    rw [← hb5, h] at hm5
    exact guarded_splice_not_mem b4 n true n4 e4 rfl hm5
  · rw [h]
    exact guarded_splice_not_mem b5 n true n5 e5 rfl

/-! ### The players of a solver result -/

theorem mapThrow_mem {α β : Type} (f : α → Option β) (l : List α) (bs : List β)
    (h : mapThrow f l = some bs) : ∀ b ∈ bs, ∃ a ∈ l, f a = some b := by
  have h2 := mapThrow_some_forall₂ f l bs h
  clear h
  induction h2 with
  | nil => intro b hb; simp at hb
  | cons hab _ ih =>
    intro b hb
    rcases List.mem_cons.1 hb with rfl | hb
    · exact ⟨_, List.mem_cons_self _ _, hab⟩
    · obtain ⟨a, ha, hfa⟩ := ih b hb
      exact ⟨a, List.mem_cons_of_mem _ ha, hfa⟩

theorem adapt_mem (pairs : List Pair) (res : List TypedPair)
    (h : adaptToTournamentRules pairs = some res) : ∀ q ∈ res, q.toPair ∈ pairs := by
  intro q hq
  have hsub : (untyped res).Subperm pairs := by
    rw [adapt_untyped pairs res h]
    exact classified_subperm pairs
  exact hsub.subset (List.mem_map_of_mem _ hq)

theorem foldThrow_invariant {α σ : Type} (f : σ → α → Option σ) (P : σ → Prop)
    (hstep : ∀ s a s', P s → f s a = some s' → P s') :
    ∀ (l : List α) (init s : σ), P init → foldThrow f init l = some s → P s
  | [], init, s, hi, h => by
    simp only [foldThrow] at h
    exact Option.some.inj h ▸ hi
  | a :: as, init, s, hi, h => by
    unfold foldThrow at h
    cases hfa : f init a with
    | none => simp [hfa] at h
    | some s1 =>
      rw [hfa] at h
      exact foldThrow_invariant f P hstep as s1 s (hstep init a s1 hi hfa) h

theorem greedyAllPairs_players (teamMembers opponents : List Name) (ratings : Ratings)
    (allPairs : List Pair) (h : greedyAllPairs teamMembers opponents ratings = some allPairs) :
    ∀ q ∈ allPairs, q.player ∈ teamMembers.map some := by
  unfold greedyAllPairs at h
  simp only [Option.map_eq_some'] at h
  obtain ⟨rows, hrows, rfl⟩ := h
  intro q hq
  obtain ⟨row, hrow, hqrow⟩ := List.mem_flatten.1 hq
  obtain ⟨p, hp, hprow⟩ := mapThrow_mem _ _ _ hrows row hrow
  obtain ⟨o, _, hqo⟩ := mapThrow_mem _ _ _ hprow q hqrow
  simp only [Option.map_eq_some'] at hqo
  obtain ⟨r, _, rfl⟩ := hqo
  exact List.mem_map_of_mem _ hp

theorem greedyStep_pairs_subset (seen : List Pair) (s : GreedyState) (q : Pair)
    (h : ∀ x ∈ s.pairs, x ∈ seen) : ∀ x ∈ (greedyStep s q).pairs, x ∈ seen ++ [q] := by
  intro x hx
  unfold greedyStep at hx
  split at hx
  · rcases List.mem_append.1 hx with hx | hx
    · exact List.mem_append_left _ (h x hx)
    · exact List.mem_append_right _ hx
  · exact List.mem_append_left _ (h x hx)

theorem greedyAlgorithm_players (teamMembers opponents : List Name) (ratings : Ratings)
    (res : List TypedPair) (h : greedyAlgorithm teamMembers opponents ratings = some res) :
    ∀ q ∈ res, q.player ∈ teamMembers.map some := by
  unfold greedyAlgorithm at h
  cases hall : greedyAllPairs teamMembers opponents ratings with
  | none => simp [hall] at h
  | some allPairs =>
    rw [hall] at h
    dsimp only at h
    intro q hq
    have h1 := adapt_mem _ res h q hq
    have h2 := (greedyMatching_inv allPairs).2.2.2.2.1 _ h1
    exact greedyAllPairs_players _ _ _ _ hall _ ((List.perm_insertionSort _ _).mem_iff.1 h2)

theorem currentPairsOf_players (teamMembers : List Name) (ratings : Ratings)
    (perm : List Name) (cp : List Pair)
    (h : currentPairsOf teamMembers ratings perm = some cp) :
    ∀ q ∈ cp, q.player ∈ teamMembers.map some := by
  intro q hq
  unfold currentPairsOf at h
  obtain ⟨ip, hip, hq2⟩ := mapThrow_mem _ _ _ h q hq
  simp only [Option.map_eq_some'] at hq2
  obtain ⟨r, _, rfl⟩ := hq2
  exact List.mem_map_of_mem _ (List.snd_mem_of_mem_enum hip)

theorem fullSearchStep_players (teamMembers : List Name) (ratings : Ratings)
    (best best' : Int × List Pair) (perm : List Name)
    (hb : ∀ q ∈ best.2, q.player ∈ teamMembers.map some)
    (h : fullSearchStep teamMembers ratings best perm = some best') :
    ∀ q ∈ best'.2, q.player ∈ teamMembers.map some := by
  unfold fullSearchStep at h
  cases hcp : currentPairsOf teamMembers ratings perm with
  | none => simp [hcp] at h
  | some cp =>
    rw [hcp] at h
    dsimp only at h
    cases hs : scoreOf cp with
    | none =>
      rw [hs] at h
      exact Option.some.inj h ▸ hb
    | some sc =>
      rw [hs] at h
      dsimp only at h
      split at h
      · have := Option.some.inj h
        rw [← this]
        exact currentPairsOf_players _ _ _ _ hcp
      · exact Option.some.inj h ▸ hb

theorem hungarianAlgorithm_players (munkres : Munkres) (teamMembers opponents : List Name)
    (ratings : Ratings) (res : List TypedPair)
    (h : hungarianAlgorithm munkres teamMembers opponents ratings = some res) :
    ∀ q ∈ res, ∀ n, q.player = some n → n ∈ teamMembers := by
  unfold hungarianAlgorithm at h
  cases hc : costMatrix teamMembers opponents ratings with
  | none => simp [hc] at h
  | some matrix =>
    rw [hc] at h
    dsimp only at h
    cases hpairs : mapThrow (fun idx : Nat × Nat =>
        (getRating ratings teamMembers[idx.1]? opponents[idx.2]?).map fun r =>
          ({ player := teamMembers[idx.1]?, opponent := opponents[idx.2]?, rating := r } : Pair))
        (munkres matrix) with
    | none => simp [hpairs] at h
    | some pairs =>
      rw [hpairs] at h
      dsimp only at h
      intro q hq n hn
      obtain ⟨ij, _, hij⟩ := mapThrow_mem _ _ _ hpairs _ (adapt_mem pairs res h q hq)
      simp only [Option.map_eq_some'] at hij
      obtain ⟨r, _, hr⟩ := hij
      have : q.player = teamMembers[ij.1]? := by rw [← hr]
      rw [this] at hn
      exact List.getElem?_mem hn

theorem fullSearchOptimize_players (munkres : Munkres) (teamMembers opponents : List Name)
    (ratings : Ratings) (res : List TypedPair)
    (h : fullSearchOptimize munkres teamMembers opponents ratings = some res) :
    ∀ q ∈ res, ∀ n, q.player = some n → n ∈ teamMembers := by
  unfold fullSearchOptimize at h
  split at h
  · exact hungarianAlgorithm_players munkres teamMembers opponents ratings res h
  · cases hf : foldThrow (fullSearchStep teamMembers ratings) (-1, [])
        (generatePermutations opponents) with
    | none => simp [hf] at h
    | some best =>
      rw [hf] at h
      dsimp only at h
      have hinv := foldThrow_invariant (fullSearchStep teamMembers ratings)
        (fun b => ∀ q ∈ b.2, q.player ∈ teamMembers.map some)
        (fun b perm b' hb hstep => fullSearchStep_players _ _ b b' perm hb hstep)
        _ _ best (by intro q hq; simp at hq) hf
      intro q hq n hn
      have := hinv _ (adapt_mem _ res h q hq)
      rw [hn] at this
      simpa using this

/-- Every player of a pair returned by `optimizePairs` is one of the players
it was given. -/
theorem optimizePairs_players (munkres : Munkres) (teamMembers opponents : List Name)
    (ratings : Ratings) (method : Option String) (res : List TypedPair)
    (h : optimizePairs munkres teamMembers opponents ratings method = some res) :
    ∀ q ∈ res, ∀ n, q.player = some n → n ∈ teamMembers := by
  unfold optimizePairs at h
  split at h
  · intro q hq n hn
    have := greedyAlgorithm_players _ _ _ res h q hq
    rw [hn] at this
    simpa using this
  · exact fullSearchOptimize_players munkres _ _ _ res h
  · exact hungarianAlgorithm_players munkres _ _ _ res h

/-! ### The fallback heuristics -/

theorem getElem?_zero_mem_insertionSort {α : Type} (r : α → α → Prop) [DecidableRel r]
    (l : List α) (x : α) (h : (l.insertionSort r)[0]? = some x) : x ∈ l :=
  (List.perm_insertionSort r l).mem_iff.1 (List.getElem?_mem h)

theorem calculateBestDefender_mem (s : AppState) (availablePlayers opponentAvailable : List Name)
    (n : Name)
    (h : calculateBestDefender s availablePlayers opponentAvailable = some (some n)) :
    n ∈ availablePlayers := by
  unfold calculateBestDefender at h
  split at h
  · cases h
  · split at h
    · exact List.getElem?_mem (Option.some.inj h)
    · split at h
      · cases h
      · rename_i playerScores hps
        split at h
        · rename_i item hitem
          split at h
          · have hmem := getElem?_zero_mem_insertionSort _ _ _ hitem
            obtain ⟨p, hp, hpi⟩ := mapThrow_mem _ _ _ hps item hmem
            simp only [Option.map_eq_some'] at hpi
            obtain ⟨scores, _, rfl⟩ := hpi
            have : some p = some n := Option.some.inj h
            exact Option.some.inj this ▸ hp
          · exact List.getElem?_mem (Option.some.inj h)
        · exact List.getElem?_mem (Option.some.inj h)

/-- For items with one common positive denominator the comparator compares
the numerators. -/
theorem scoreOrder_iff (a b : NameScore) (k : Nat) (hk : 0 < k) (ha : a.scoreDen = k)
    (hb : b.scoreDen = k) : scoreOrder a b ↔ b.scoreNum ≤ a.scoreNum := by
  unfold scoreOrder
  rw [ha, hb]
  have hk' : (0 : Int) < (k : Int) := by exact_mod_cast hk
  constructor
  · intro h
    by_contra hlt
    exact h (mul_lt_mul_of_pos_right (by omega) hk')
  · intro h hlt
    have := lt_of_mul_lt_mul_right hlt (le_of_lt hk')
    omega

/-- The first element of the stably sorted list is the first element of the
list with the greatest score. -/
theorem insertionSort_head_first_max (k : Nat) (hk : 0 < k) :
    ∀ l : List NameScore, l ≠ [] → (∀ a ∈ l, a.scoreDen = k) →
      ∃ pre x post, l = pre ++ x :: post
        ∧ (l.insertionSort scoreOrder)[0]? = some x
        ∧ (∀ y ∈ pre, y.scoreNum < x.scoreNum) ∧ (∀ y ∈ post, y.scoreNum ≤ x.scoreNum)
  | [], h, _ => absurd rfl h
  | [a], _, _ => ⟨[], a, [], rfl, rfl, by simp, by simp⟩
  | a :: b :: t, _, hden => by
    obtain ⟨pre, x, post, hl, hhead, hpre, hpost⟩ :=
      insertionSort_head_first_max k hk (b :: t) (by simp)
        (fun y hy => hden y (List.mem_cons_of_mem _ hy))
    have hxmem : x ∈ b :: t := by rw [hl]; simp
    have hsorted : ∃ rest, (b :: t).insertionSort scoreOrder = x :: rest := by
      cases hs : (b :: t).insertionSort scoreOrder with
      | nil => rw [hs] at hhead; simp at hhead
      | cons y rest =>
        rw [hs] at hhead
        simp only [List.getElem?_cons_zero, Option.some.injEq] at hhead
        exact ⟨rest, by rw [hhead]⟩
    obtain ⟨rest, hrest⟩ := hsorted
    have hins : (a :: b :: t).insertionSort scoreOrder
        = List.orderedInsert scoreOrder a (x :: rest) := by
      rw [List.insertionSort, hrest]
    have hiff := scoreOrder_iff a x k hk (hden a (List.mem_cons_self _ _))
      (hden x (List.mem_cons_of_mem _ hxmem))
    by_cases hax : scoreOrder a x
    · refine ⟨[], a, b :: t, rfl, ?_, by simp, ?_⟩
      · rw [hins, List.orderedInsert, if_pos hax]
        exact List.getElem?_cons_zero
      · intro y hy
        have hxa := hiff.1 hax
        rw [hl] at hy
        rcases List.mem_append.1 hy with hy | hy
        · have := hpre y hy
          omega
        · rcases List.mem_cons.1 hy with rfl | hy
          · exact hxa
          · have := hpost y hy
            omega
    · refine ⟨a :: pre, x, post, by rw [hl]; rfl, ?_, ?_, hpost⟩
      · rw [hins, List.orderedInsert, if_neg hax]
        exact List.getElem?_cons_zero
      · intro y hy
        rcases List.mem_cons.1 hy with rfl | hy
        · have : ¬ x.scoreNum ≤ y.scoreNum := fun h => hax (hiff.2 h)
          omega
        · exact hpre y hy

/-! ### Recommendations -/

theorem optimizePairs_returns (munkres : Munkres) (teamMembers opponents : List Name)
    (ratings : Ratings) (method : String) (hm : method = "greedy" ∨ method = "full")
    (hn : teamMembers.length ≤ 5) (hrow : ∀ p ∈ teamMembers, (ratings.lookup p).isSome)
    (hown : OwnNames teamMembers) :
    ∃ res, optimizePairs munkres teamMembers opponents ratings (some method) = some res := by
  rcases hm with rfl | rfl
  · exact greedy_returns teamMembers opponents ratings (fun p hp _ _ => hrow p hp) hown
  · exact fullSearch_returns munkres teamMembers opponents ratings hn hrow hown

theorem ratingOrZero_of_row (ratings : Ratings) (p o : Name) (h : (ratings.lookup p).isSome) :
    ratingOrZero ratings p o = some ((ratingAt ratings p o).getD 0) := by
  unfold ratingOrZero ratingAt
  cases hl : ratings.lookup p with
  | none => simp [hl] at h
  | some row => rfl

theorem foldl_add_eq_sum (l : List Int) : ∀ a : Int, l.foldl (· + ·) a = a + l.sum := by
  induction l with
  | nil => intro a; simp
  | cons x xs ih => intro a; simp [List.foldl_cons, ih, add_assoc]

/-- The items `calculateBestDefender` sorts, when no read throws. -/
theorem defenderScores_eq (s : AppState) (availablePlayers opponentAvailable : List Name)
    (hrow : ∀ p ∈ availablePlayers, (s.ratings.lookup p).isSome) :
    mapThrow (fun player =>
        (mapThrow (fun opp => ratingOrZero s.ratings player opp) opponentAvailable).map
          fun scores => ({ name := some player, scoreNum := scores.foldl (· + ·) 0,
                           scoreDen := scores.length } : NameScore))
        availablePlayers
      = some (availablePlayers.map fun player =>
          ({ name := some player,
             scoreNum := (opponentAvailable.map fun o =>
               (ratingAt s.ratings player o).getD 0).sum,
             scoreDen := opponentAvailable.length } : NameScore)) := by
  apply mapThrow_eq_some_map
  intro p hp
  rw [mapThrow_eq_some_map _ (fun o => (ratingAt s.ratings p o).getD 0) opponentAvailable
    (fun o _ => ratingOrZero_of_row _ _ _ (hrow p hp))]
  simp [foldl_add_eq_sum]

theorem calculateBestDefender_returns (s : AppState)
    (availablePlayers opponentAvailable : List Name)
    (hrow : ∀ p ∈ availablePlayers, (s.ratings.lookup p).isSome) :
    ∃ d, calculateBestDefender s availablePlayers opponentAvailable = some d := by
  unfold calculateBestDefender
  split
  · exact ⟨_, rfl⟩
  · split
    · exact ⟨_, rfl⟩
    · rw [defenderScores_eq s _ _ hrow]
      dsimp only
      split
      · split
        · exact ⟨_, rfl⟩
        · exact ⟨_, rfl⟩
      · exact ⟨_, rfl⟩

theorem orElse_some (found : Option Name) (fallback : Option (Option Name))
    (d : Option Name) (h : orElse found fallback = some d) :
    (truthy found = true ∧ d = found) ∨ (truthy found = false ∧ fallback = some d) := by
  unfold orElse at h
  by_cases ht : truthy found = true
  · rw [if_pos ht] at h
    exact Or.inl ⟨ht, (Option.some.inj h).symm⟩
  · rw [if_neg ht] at h
    exact Or.inr ⟨by simpa using ht, h⟩

theorem getOptimalRecommendations_step4 (munkres : Munkres) (s : AppState)
    (rec : Recommendation) (h : getOptimalRecommendations munkres s 4 = some rec) :
    ∃ d, rec = Recommendation.defender d
      ∧ ∀ n, d = some n → n ∈ availablePlayersOf s 4 := by
  unfold getOptimalRecommendations at h
  dsimp only at h
  cases hopt : optimizePairs munkres (availablePlayersOf s 4) (availableOpponentsOf s)
      s.ratings (some s.optimizationMethod) with
  | none => simp [hopt] at h
  | some optimalPairs =>
    rw [hopt] at h
    dsimp only at h
    simp only [Option.map_eq_some'] at h
    obtain ⟨d, hd, rfl⟩ := h
    refine ⟨d, rfl, ?_⟩
    intro n hn
    rcases orElse_some _ _ _ hd with ⟨_, hfound⟩ | ⟨_, hfb⟩
    · rw [hn] at hfound
      have hb := hfound.symm
      simp only [Option.bind_eq_some] at hb
      obtain ⟨q, hq, hqp⟩ := hb
      exact optimizePairs_players _ _ _ _ _ _ hopt q (List.mem_of_find?_eq_some hq) n hqp
    · rw [hn] at hfb
      exact (List.mem_filter.1 (calculateBestDefender_mem _ _ _ _ hfb)).1

theorem getOptimalRecommendations_step4_returns (munkres : Munkres) (s : AppState)
    (hpop : FullyPopulated s.teamMembers s.opponents s.ratings)
    (hn : s.teamMembers.length ≤ 5)
    (hm : s.optimizationMethod = "greedy" ∨ s.optimizationMethod = "full")
    (hown : OwnNames s.teamMembers) :
    ∃ rec, getOptimalRecommendations munkres s 4 = some rec := by
  have hsub := availablePlayersOf_sublist s 4
  have hrow : ∀ p ∈ availablePlayersOf s 4, (s.ratings.lookup p).isSome :=
    fun p hp => (hpop p (hsub.subset hp)).1
  obtain ⟨res, hres⟩ := optimizePairs_returns munkres (availablePlayersOf s 4)
    (availableOpponentsOf s) s.ratings s.optimizationMethod hm
    (le_trans hsub.length_le hn) hrow (fun p hp => hown p (hsub.subset hp))
  unfold getOptimalRecommendations
  dsimp only
  rw [hres]
  dsimp only
  unfold orElse
  split
  · exact ⟨_, rfl⟩
  · obtain ⟨d, hd⟩ := calculateBestDefender_returns s
      ((availablePlayersOf s 4).filter fun p =>
        !sameName (some p) s.firstDefender && !decide (some p ∈ s.firstAttackers))
      (availableOpponentsOf s) (fun p hp => hrow p (List.mem_filter.1 hp).1)
    rw [hd]
    exact ⟨_, rfl⟩

theorem isFirstMax_of_map {α : Type} (f : α → NameScore) (k : Nat) (hk : 0 < k)
    (l : List α) (hne : l ≠ []) (hden : ∀ a ∈ l, (f a).scoreDen = k) :
    ∃ x, IsFirstMax (fun a => (f a).scoreNum) l x
      ∧ ((l.map f).insertionSort scoreOrder)[0]? = some (f x) := by
  obtain ⟨pre, y, post, hl, hhead, hpre, hpost⟩ :=
    insertionSort_head_first_max k hk (l.map f) (by simpa using hne)
      (by
        intro a ha
        obtain ⟨b, hb, rfl⟩ := List.mem_map.1 ha
        exact hden b hb)
  obtain ⟨l₁, l₂, rfl, h1, h2⟩ := List.map_eq_append_iff.1 hl
  obtain ⟨x, l₃, rfl, rfl, rfl⟩ := List.map_eq_cons_iff.1 h2
  subst h1
  refine ⟨x, ⟨l₁, l₃, rfl, ?_, ?_⟩, hhead⟩
  · intro a ha
    exact hpre _ (List.mem_map_of_mem _ ha)
  · intro a ha
    exact hpost _ (List.mem_map_of_mem _ ha)

/-- `calculateBestAttackerChoice` returns the first attacker with the
greatest rating against the defender. -/
theorem calculateBestAttackerChoice_eq (s : AppState) (attackers : List (Option Name))
    (d : Name) (hd : d ≠ "") (hrow : (s.ratings.lookup d).isSome) (hne : attackers ≠ [])
    (hatt : ∀ x ∈ attackers, truthy x = true) :
    ∃ c, IsFirstMax (choiceScore s d) attackers (some c)
      ∧ calculateBestAttackerChoice s attackers (some d) = some (some c) := by
  obtain ⟨x, hx, hhead⟩ := isFirstMax_of_map
    (fun a : Option Name => ({ name := a, scoreNum := choiceScore s d a, scoreDen := 1 }
      : NameScore)) 1 (by decide) attackers hne (fun _ _ => rfl)
  have hxmem : x ∈ attackers := by
    obtain ⟨pre, post, hl, _⟩ := hx
    rw [hl]
    simp
  have hxt := hatt x hxmem
  cases x with
  | none => simp [truthy] at hxt
  | some c =>
    refine ⟨c, hx, ?_⟩
    unfold calculateBestAttackerChoice
    have hcond : (attackers.length = 0 || !truthy (some d)) = false := by
      have h1 : attackers.length ≠ 0 := fun h => hne (List.length_eq_zero.1 h)
      have h2 : truthy (some d) = true := by simpa [truthy] using hd
      simp [h1, h2]
    have hcond' : ¬ ((decide (attackers.length = 0) || !truthy (some d)) = true) := by
      have h1 : attackers.length ≠ 0 := fun h => hne (List.length_eq_zero.1 h)
      have h2 : truthy (some d) = true := by simpa [truthy] using hd
      simp [h1, h2]
    rw [if_neg hcond']
    rw [mapThrow_eq_some_map _ (fun a : Option Name =>
      ({ name := a, scoreNum := choiceScore s d a, scoreDen := 1 } : NameScore)) attackers
      (by
        intro a _
        have hk : keyOf (some d) = d := rfl
        rw [hk, ratingOrZero_of_row _ _ _ hrow]
        rfl)]
    dsimp only
    rw [hhead]
    dsimp only
    rw [if_pos hxt]

theorem find?_sameName_none (res : List TypedPair) (available : List Name) (d : Name)
    (hplayers : ∀ q ∈ res, ∀ n, q.player = some n → n ∈ available) (hd : d ∉ available) :
    res.find? (fun p => sameName p.player (some d)) = none := by
  rw [List.find?_eq_none]
  intro q hq hsame
  cases hqp : q.player with
  | none => simp [hqp, sameName] at hsame
  | some n =>
    rw [hqp] at hsame
    simp only [sameName, beq_iff_eq] at hsame
    exact hd (hsame ▸ hplayers q hq n hqp)

theorem orElse_none (fallback : Option (Option Name)) : orElse none fallback = fallback := by
  simp [orElse, truthy]

/-- A recommendation is returned only when the solver returns. -/
theorem getOptimalRecommendations_solver (munkres : Munkres) (s : AppState) (step : Nat)
    (rec : Recommendation) (h : getOptimalRecommendations munkres s step = some rec) :
    ∃ res, optimizePairs munkres (availablePlayersOf s step) (availableOpponentsOf s)
      s.ratings (some s.optimizationMethod) = some res := by
  unfold getOptimalRecommendations at h
  dsimp only at h
  cases hopt : optimizePairs munkres (availablePlayersOf s step) (availableOpponentsOf s)
      s.ratings (some s.optimizationMethod) with
  | none => simp [hopt] at h
  | some res => exact ⟨res, rfl⟩

/-- At step 3, once the solver has returned, the recommendation is the value
of `calculateBestAttackerChoice`: no solved pair has the first defender as
its player. -/
theorem getOptimalRecommendations_step3 (munkres : Munkres) (s : AppState) (d : Name)
    (hp : ValidRoster s.teamMembers) (hd : s.firstDefender = some d)
    (res : List TypedPair)
    (hres : optimizePairs munkres (availablePlayersOf s 3) (availableOpponentsOf s)
      s.ratings (some s.optimizationMethod) = some res) :
    getOptimalRecommendations munkres s 3
      = (calculateBestAttackerChoice s s.opponentFirstAttackers (some d)).map
          Recommendation.attackerChoice := by
  have hex : d ∉ availablePlayersOf s 3 :=
    availablePlayersOf_excludes s 3 hp d (Or.inl ⟨hd, by decide⟩)
  unfold getOptimalRecommendations
  dsimp only
  rw [hres]
  dsimp only
  rw [hd, find?_sameName_none res _ d (optimizePairs_players _ _ _ _ _ _ hres) hex]
  rw [Option.none_bind, orElse_none]

/-- At step 6, once the solver has returned, the recommendation is the value
of `calculateBestAttackerChoice`: no solved pair has the second defender as
its player. -/
theorem getOptimalRecommendations_step6 (munkres : Munkres) (s : AppState) (d : Name)
    (hp : ValidRoster s.teamMembers) (hd : s.secondDefender = some d)
    (res : List TypedPair)
    (hres : optimizePairs munkres (availablePlayersOf s 6) (availableOpponentsOf s)
      s.ratings (some s.optimizationMethod) = some res) :
    getOptimalRecommendations munkres s 6
      = (calculateBestAttackerChoice s s.opponentSecondAttackers (some d)).map
          Recommendation.attackerChoice := by
  have hex : d ∉ availablePlayersOf s 6 :=
    availablePlayersOf_excludes s 6 hp d (Or.inr (Or.inl hd))
  unfold getOptimalRecommendations
  dsimp only
  rw [hres]
  dsimp only
  rw [hd, find?_sameName_none res _ d (optimizePairs_players _ _ _ _ _ _ hres) hex]
  rw [Option.none_bind, orElse_none]

theorem row_of_inRange (players opponents : List Name) (ratings : Ratings)
    (hr : RatingsInRange players opponents ratings) (hno : opponents ≠ []) :
    ∀ p ∈ players, (ratings.lookup p).isSome := by
  intro p hp
  obtain ⟨o, ho⟩ := List.exists_mem_of_ne_nil _ hno
  obtain ⟨v, hv, _⟩ := isRating_some (hr p hp o ho)
  unfold ratingAt at hv
  cases hl : ratings.lookup p with
  | none => simp [hl] at hv
  | some row => rfl

theorem isFirstMax_mean (s : AppState) (players opponents : List Name) (p : Name)
    (hno : opponents ≠ []) (h : IsFirstMax (ratingSumAgainst s opponents) players p) :
    IsFirstMax (meanRatingAgainst s opponents) players p := by
  obtain ⟨pre, post, hl, hpre, hpost⟩ := h
  have hk : (0 : ℚ) < (opponents.length : ℚ) := by
    have : 0 < opponents.length := List.length_pos.2 hno
    exact_mod_cast this
  refine ⟨pre, post, hl, ?_, ?_⟩
  · intro y hy
    unfold meanRatingAgainst
    exact div_lt_div_of_pos_right (by exact_mod_cast hpre y hy) hk
  · intro y hy
    unfold meanRatingAgainst
    exact div_le_div_of_nonneg_right (by exact_mod_cast hpost y hy) (le_of_lt hk)

/-- `calculateBestDefender` returns the first player with the greatest rating
sum against the opponents. -/
theorem calculateBestDefender_eq (s : AppState) (players opponents : List Name)
    (hne : players ≠ []) (hno : opponents ≠ []) (hnames : "" ∉ players)
    (hrow : ∀ p ∈ players, (s.ratings.lookup p).isSome) :
    ∃ p, calculateBestDefender s players opponents = some (some p)
      ∧ IsFirstMax (ratingSumAgainst s opponents) players p := by
  obtain ⟨x, hx, hhead⟩ := isFirstMax_of_map
    (fun player : Name =>
      ({ name := some player, scoreNum := ratingSumAgainst s opponents player,
         scoreDen := opponents.length } : NameScore))
    opponents.length (List.length_pos.2 hno) players hne (fun _ _ => rfl)
  have hxmem : x ∈ players := by
    obtain ⟨pre, post, hl, _⟩ := hx
    rw [hl]
    simp
  have hxt : truthy (some x) = true := by
    have : x ≠ "" := fun h => hnames (h ▸ hxmem)
    simpa [truthy] using this
  refine ⟨x, ?_, hx⟩
  unfold calculateBestDefender
  rw [if_neg (fun h => hne (List.length_eq_zero.1 h)),
    if_neg (fun h => hno (List.length_eq_zero.1 h)), defenderScores_eq s _ _ hrow]
  dsimp only
  have hhead' : ((players.map fun player =>
      ({ name := some player,
         scoreNum := (opponents.map fun o => (ratingAt s.ratings player o).getD 0).sum,
         scoreDen := opponents.length } : NameScore)).insertionSort scoreOrder)[0]?
      = some { name := some x, scoreNum := ratingSumAgainst s opponents x,
               scoreDen := opponents.length } := hhead
  rw [hhead']
  dsimp only
  rw [if_pos hxt]

/-- Without the assumption on names: when the first player of greatest
rating sum is named by the empty string, which is falsy, the first available
player is returned instead. -/
theorem calculateBestDefender_eq_general (s : AppState) (players opponents : List Name)
    (hne : players ≠ []) (hno : opponents ≠ [])
    (hrow : ∀ p ∈ players, (s.ratings.lookup p).isSome) :
    ∃ p, IsFirstMax (ratingSumAgainst s opponents) players p
      ∧ calculateBestDefender s players opponents
          = some (if p = "" then players[0]? else some p) := by
  obtain ⟨x, hx, hhead⟩ := isFirstMax_of_map
    (fun player : Name =>
      ({ name := some player, scoreNum := ratingSumAgainst s opponents player,
         scoreDen := opponents.length } : NameScore))
    opponents.length (List.length_pos.2 hno) players hne (fun _ _ => rfl)
  refine ⟨x, hx, ?_⟩
  unfold calculateBestDefender
  rw [if_neg (fun h => hne (List.length_eq_zero.1 h)),
    if_neg (fun h => hno (List.length_eq_zero.1 h)), defenderScores_eq s _ _ hrow]
  dsimp only
  have hhead' : ((players.map fun player =>
      ({ name := some player,
         scoreNum := (opponents.map fun o => (ratingAt s.ratings player o).getD 0).sum,
         scoreDen := opponents.length } : NameScore)).insertionSort scoreOrder)[0]?
      = some { name := some x, scoreNum := ratingSumAgainst s opponents x,
               scoreDen := opponents.length } := hhead
  rw [hhead']
  dsimp only
  by_cases hxe : x = ""
  · rw [if_pos hxe, if_neg (by simp [truthy, hxe])]
  · rw [if_neg hxe, if_pos (by simpa [truthy] using hxe)]

/-! ### The greedy matching is a 1/2-approximation -/

theorem insertionSort_ratingOrder_eq (l : List Pair) (h : ∀ q ∈ l, ∃ v, q.rating = some v) :
    l.insertionSort ratingOrder = l.insertionSort valueOrder := by
  have := List.map_insertionSort ratingOrder valueOrder id l (by
    intro a ha b hb
    obtain ⟨x, hx⟩ := h a ha
    obtain ⟨y, hy⟩ := h b hb
    simp [ratingOrder, valueOrder, ratingValue, jsGt, hx, hy])
  simpa using this

theorem insertionSort_ratingOrder_sorted (l : List Pair)
    (h : ∀ q ∈ l, ∃ v, q.rating = some v) :
    (l.insertionSort ratingOrder).Pairwise valueOrder := by
  rw [insertionSort_ratingOrder_eq l h]
  exact List.sorted_insertionSort valueOrder l

theorem blocked_mono {G G' : List Pair} (h : ∀ g ∈ G, g ∈ G') (q : Pair) (hq : Blocked G q) :
    Blocked G' q := by
  obtain ⟨g, hg, h1, h2⟩ := hq
  exact ⟨g, h g hg, h1, h2⟩

theorem greedyStep_blocked (seen : List Pair) (s : GreedyState) (q : Pair)
    (hinv : GreedyInv seen s) (hb : ∀ x ∈ seen, Blocked s.pairs x)
    (hq : ∀ x ∈ seen, valueOrder x q) :
    ∀ x ∈ seen ++ [q], Blocked (greedyStep s q).pairs x := by
  obtain ⟨h1, h2, _, _, h5, _⟩ := hinv
  unfold greedyStep
  by_cases hc : (!(decide (q.player ∈ s.usedPlayers))
      && !(decide (q.opponent ∈ s.usedOpponents))) = true
  · rw [if_pos hc]
    intro x hx
    rcases List.mem_append.1 hx with hx | hx
    · exact blocked_mono (fun g hg => List.mem_append_left _ hg) x (hb x hx)
    · rw [List.mem_singleton.1 hx]
      exact ⟨q, by simp, Or.inl rfl, le_refl _⟩
  · rw [if_neg hc]
    intro x hx
    rcases List.mem_append.1 hx with hx | hx
    · exact hb x hx
    · rw [List.mem_singleton.1 hx]
      simp only [Bool.and_eq_true, Bool.not_eq_true', decide_eq_false_iff_not, not_and,
        not_not] at hc
      by_cases hp : q.player ∈ s.usedPlayers
      · rw [h1] at hp
        obtain ⟨g, hg, hgp⟩ := List.mem_map.1 hp
        exact ⟨g, hg, Or.inl hgp, hq g (h5 g hg)⟩
      · have ho := hc hp
        rw [h2] at ho
        obtain ⟨g, hg, hgo⟩ := List.mem_map.1 ho
        exact ⟨g, hg, Or.inr hgo, hq g (h5 g hg)⟩

theorem greedyScan_blocked (l : List Pair) :
    ∀ (seen : List Pair) (s : GreedyState), GreedyInv seen s →
      (∀ x ∈ seen, Blocked s.pairs x) → (seen ++ l).Pairwise valueOrder →
      ∀ x ∈ seen ++ l, Blocked (l.foldl greedyStep s).pairs x := by
  induction l with
  | nil => intro seen s _ hb _; simpa using hb
  | cons q qs ih =>
    intro seen s hinv hb hs
    have hq : ∀ x ∈ seen, valueOrder x q := by
      intro x hx
      exact (List.pairwise_append.1 hs).2.2 x hx q (List.mem_cons_self _ _)
    have h := ih (seen ++ [q]) (greedyStep s q) (greedyInv_step seen s q hinv)
      (greedyStep_blocked seen s q hinv hb hq) (by simpa using hs)
    simpa using h

/-- Every candidate meets a pair of the greedy matching that is rated at
least as high. -/
theorem greedyMatching_blocked (candidates : List Pair)
    (h : ∀ q ∈ candidates, ∃ v, q.rating = some v) :
    ∀ q ∈ candidates, Blocked (greedyMatching candidates) q := by
  intro q hq
  have := greedyScan_blocked (candidates.insertionSort ratingOrder) [] greedyInit
    greedyInv_init (by simp) (by simpa using insertionSort_ratingOrder_sorted candidates h)
    q (by simpa using (List.perm_insertionSort ratingOrder candidates).mem_iff.2 hq)
  exact this

/-- Charging along an injective key: when the keys of `M` are distinct and
every element of `M` has an element of `G` of the same key and of at least
its value, the values of `M` sum to at most those of `G`. -/
theorem sum_le_of_charge {α β κ : Type} [DecidableEq β] (kG : β → κ) (kM : α → κ)
    (vG : β → Int) (vM : α → Int) :
    ∀ (M : List α) (G : List β), (∀ g ∈ G, 0 ≤ vG g) → (M.map kM).Nodup →
      (∀ m ∈ M, ∃ g ∈ G, kG g = kM m ∧ vM m ≤ vG g) →
      (M.map vM).sum ≤ (G.map vG).sum
  | [], G, hG, _, _ => by
    simp only [List.map_nil, List.sum_nil]
    exact List.sum_nonneg (by
      intro x hx
      obtain ⟨g, hg, rfl⟩ := List.mem_map.1 hx
      exact hG g hg)
  | m :: M, G, hG, hM, h => by
    obtain ⟨g, hg, hk, hv⟩ := h m (List.mem_cons_self _ _)
    have hM' : kM m ∉ M.map kM ∧ (M.map kM).Nodup := List.nodup_cons.1 hM
    have ih := sum_le_of_charge kG kM vG vM M (G.erase g)
      (fun x hx => hG x (List.mem_of_mem_erase hx)) hM'.2
      (by
        intro m' hm'
        obtain ⟨g', hg', hk', hv'⟩ := h m' (List.mem_cons_of_mem _ hm')
        refine ⟨g', ?_, hk', hv'⟩
        have hne : g' ≠ g := by
          intro heq
          apply hM'.1
          rw [← hk, ← heq, hk']
          exact List.mem_map_of_mem _ hm'
        exact (List.mem_erase_of_ne hne).2 hg')
    have hsum : (G.map vG).sum = vG g + ((G.erase g).map vG).sum := by
      have := ((List.perm_cons_erase hg).map vG).sum_eq
      simpa using this
    rw [hsum]
    simp only [List.map_cons, List.sum_cons]
    omega

theorem sum_filter_add_sum_filter_not {α : Type} (p : α → Bool) (v : α → Int)
    (l : List α) :
    (l.map v).sum = ((l.filter p).map v).sum + ((l.filter fun x => !p x).map v).sum := by
  induction l with
  | nil => simp
  | cons a l ih =>
    by_cases h : p a = true
    · simp [List.filter_cons, h, ih, add_assoc]
    · simp only [Bool.not_eq_true] at h
      simp [List.filter_cons, h, ih]
      omega

/-- The greedy matching has at least half the total rating of every
matching over the rosters, when all ratings are non-negative numbers. -/
theorem greedyMatching_half (teamMembers opponents : List Name) (ratings : Ratings)
    (hr : RatingsInRange teamMembers opponents ratings) (asg : List (Name × Name))
    (hasg : IsMatching teamMembers opponents asg) :
    assignmentTotal ratings asg
      ≤ 2 * ratingSum (greedyMatching (candidatePairs teamMembers opponents ratings)) := by
  classical
  obtain ⟨hp, ho, hmem⟩ := hasg
  have hsome : ∀ q ∈ candidatePairs teamMembers opponents ratings,
      ∃ v, q.rating = some v ∧ 0 ≤ v := by
    intro q hq
    obtain ⟨p, hp', o, ho', rfl⟩ := (mem_candidatePairs _ _ _ q).1 hq
    obtain ⟨v, hv, h1, _⟩ := isRating_some (hr p hp' o ho')
    exact ⟨v, hv, by omega⟩
  have hblocked := greedyMatching_blocked (candidatePairs teamMembers opponents ratings)
    (fun q hq => (hsome q hq).imp fun _ h => h.1)
  have hnonneg : ∀ g ∈ greedyMatching (candidatePairs teamMembers opponents ratings),
      0 ≤ ratingValue g := by
    intro g hg
    obtain ⟨v, hv, h0⟩ := hsome g (greedyMatching_subset _ g hg)
    simpa [ratingValue, hv] using h0
  have hcharge : ∀ m ∈ asg,
      ∃ g ∈ greedyMatching (candidatePairs teamMembers opponents ratings),
        (g.player = some m.1 ∨ g.opponent = some m.2)
          ∧ (ratingAt ratings m.1 m.2).getD 0 ≤ ratingValue g := by
    intro m hm
    obtain ⟨g, hg, h1, h2⟩ := hblocked (pairOfNames ratings m)
      ((mem_candidatePairs _ _ _ _).2 ⟨m.1, (hmem m hm).1, m.2, (hmem m hm).2, rfl⟩)
    exact ⟨g, hg, h1, h2⟩
  let viaPlayer : Name × Name → Bool := fun m =>
    decide (∃ g ∈ greedyMatching (candidatePairs teamMembers opponents ratings),
      g.player = some m.1 ∧ (ratingAt ratings m.1 m.2).getD 0 ≤ ratingValue g)
  have h1 := sum_le_of_charge (fun g : Pair => g.player) (fun m : Name × Name => some m.1)
    ratingValue (fun m => (ratingAt ratings m.1 m.2).getD 0) (asg.filter viaPlayer)
    (greedyMatching (candidatePairs teamMembers opponents ratings)) hnonneg
    (by
      have : ((asg.filter viaPlayer).map (·.1)).Nodup :=
        hp.sublist ((List.filter_sublist _).map _)
      have h2 := List.Nodup.map (Option.some_injective _) this
      simpa [List.map_map, Function.comp_def] using h2)
    (by
      intro m hm
      have := (List.mem_filter.1 hm).2
      simpa [viaPlayer] using this)
  have h2 := sum_le_of_charge (fun g : Pair => g.opponent) (fun m : Name × Name => some m.2)
    ratingValue (fun m => (ratingAt ratings m.1 m.2).getD 0)
    (asg.filter fun m => !viaPlayer m)
    (greedyMatching (candidatePairs teamMembers opponents ratings)) hnonneg
    (by
      have : ((asg.filter fun m => !viaPlayer m).map (·.2)).Nodup :=
        ho.sublist ((List.filter_sublist _).map _)
      have h2 := List.Nodup.map (Option.some_injective _) this
      simpa [List.map_map, Function.comp_def] using h2)
    (by
      intro m hm
      obtain ⟨hm1, hm2⟩ := List.mem_filter.1 hm
      obtain ⟨g, hg, hside, hv⟩ := hcharge m hm1
      rcases hside with hside | hside
      · exfalso
        have : viaPlayer m = true := by
          simp only [viaPlayer, decide_eq_true_eq]
          exact ⟨g, hg, hside, hv⟩
        simp [this] at hm2
      · exact ⟨g, hg, hside, hv⟩)
  unfold assignmentTotal ratingSum
  rw [sum_filter_add_sum_filter_not viaPlayer _ asg]
  have h3 : (List.map ratingValue
      (greedyMatching (candidatePairs teamMembers opponents ratings))).sum
      = (List.map (fun p : Pair => p.rating.getD 0)
      (greedyMatching (candidatePairs teamMembers opponents ratings))).sum := rfl
  rw [h3] at h1 h2
  omega

theorem isMatching_of_isAssignment (players opponents : List Name) (asg : List (Name × Name))
    (hp : players.Nodup) (h : IsAssignment players opponents asg) :
    IsMatching players opponents asg := by
  obtain ⟨h1, h2, h3⟩ := h
  refine ⟨h1.nodup_iff.2 hp, h2, ?_⟩
  intro x hx
  exact ⟨h1.mem_iff.1 (List.mem_map_of_mem (fun x : Name × Name => x.1) hx), h3 x hx⟩

/-- Twice the total of what the greedy solver returns bounds every matching
over the rosters. -/
theorem greedy_half (players opponents : List Name) (ratings : Ratings)
    (hr : RatingsInRange players opponents ratings) (res : List TypedPair)
    (h : greedyAlgorithm players opponents ratings = some res) :
    ∃ total, totalRating res = some total
      ∧ ∀ asg, IsMatching players opponents asg → assignmentTotal ratings asg ≤ 2 * total := by
  have hrow : ∀ p ∈ players, ∀ o ∈ opponents, (ratings.lookup p).isSome := by
    intro p hp o ho
    exact row_of_inRange players opponents ratings hr (List.ne_nil_of_mem ho) p hp
  have g2 := greedy_result players opponents ratings hrow res h
  have hsome : ∀ q ∈ greedyMatching (candidatePairs players opponents ratings),
      ∃ v, q.rating = some v := by
    intro q hq
    obtain ⟨p, hp', o, ho', rfl⟩ :=
      (mem_candidatePairs _ _ _ q).1 (greedyMatching_subset _ q hq)
    obtain ⟨v, hv, _⟩ := isRating_some (hr p hp' o ho')
    exact ⟨v, hv⟩
  exact ⟨_, totalRating_perm res _ g2 hsome,
    fun asg hasg => greedyMatching_half players opponents ratings hr asg hasg⟩

/-- With ratings in `[1, 5]` and no player named by a property of
`Object.prototype` the greedy solver returns. -/
theorem greedy_returns_inRange (players opponents : List Name) (ratings : Ratings)
    (hr : RatingsInRange players opponents ratings) (hown : OwnNames players) :
    ∃ res, greedyAlgorithm players opponents ratings = some res :=
  greedy_returns players opponents ratings
    (fun p hp _ ho =>
      row_of_inRange players opponents ratings hr (List.ne_nil_of_mem ho) p hp) hown

/-- Twice the greedy total is at least the total of the exhaustive search. -/
theorem greedy_half_of_exhaustive (munkres : Munkres) (players opponents : List Name)
    (ratings : Ratings) (hn : players.length ≤ 5) (hp : players.Nodup)
    (ho : opponents.Nodup) (hm : players.length ≤ opponents.length)
    (hr : RatingsInRange players opponents ratings) (resG resF : List TypedPair)
    (hG : greedyAlgorithm players opponents ratings = some resG)
    (hF : fullSearchOptimize munkres players opponents ratings = some resF) :
    ∃ totalG totalF, totalRating resG = some totalG ∧ totalRating resF = some totalF
      ∧ totalF ≤ 2 * totalG := by
  obtain ⟨asg, f2, f3, _⟩ :=
    fullSearch_maximum munkres players opponents ratings hn hp ho hm hr resF hF
  obtain ⟨totalG, g2, g3⟩ := greedy_half players opponents ratings hr resG hG
  exact ⟨totalG, _, g2, f3,
    g3 asg (isMatching_of_isAssignment players opponents asg hp f2)⟩

/-! ### Defender selection against the words of the specification -/

theorem objectEntries_of_noIndex (obj : List (Name × PlayerScore))
    (h : ∀ e ∈ obj, arrayIndex e.1 = none) : objectEntries obj = obj := by
  unfold objectEntries
  have h1 : obj.filter (fun e => (arrayIndex e.1).isSome) = [] := by
    rw [List.filter_eq_nil_iff]
    intro e he
    simp [h e he]
  have h2 : obj.filter (fun e => !(arrayIndex e.1).isSome) = obj := by
    rw [List.filter_eq_self]
    intro e he
    simp [h e he]
  rw [h1, h2]
  rfl

theorem mem_firstAppearances (y : Name) : ∀ ks : List Name, y ∈ firstAppearances ks ↔ y ∈ ks
  | [] => by simp [firstAppearances]
  | x :: xs => by
    have ih := mem_firstAppearances y xs
    by_cases hyx : y = x
    · simp [firstAppearances, hyx]
    · simp [firstAppearances, List.mem_filter, ih, hyx]

theorem firstAppearances_nodup : ∀ ks : List Name, (firstAppearances ks).Nodup
  | [] => by simp [firstAppearances]
  | x :: xs => by
    rw [firstAppearances, List.nodup_cons]
    exact ⟨by simp [List.mem_filter], (firstAppearances_nodup xs).filter _⟩

theorem firstAppearances_append_singleton (k : Name) :
    ∀ ks : List Name, firstAppearances (ks ++ [k])
      = if k ∈ ks then firstAppearances ks else firstAppearances ks ++ [k]
  | [] => by simp [firstAppearances]
  | x :: xs => by
    have ih := firstAppearances_append_singleton k xs
    rw [List.cons_append, firstAppearances, ih]
    by_cases hkx : k = x
    · subst hkx
      by_cases hk : k ∈ xs
      · simp [hk, firstAppearances]
      · simp [hk, firstAppearances, List.filter_append]
    · by_cases hk : k ∈ xs
      · simp [hk, firstAppearances]
      · have : k ∉ x :: xs := by simp [hkx, hk]
        rw [if_neg hk, if_neg this, firstAppearances, List.filter_append]
        simp [hkx]

theorem groupOf_append_ne (l : List Pair) (p : Pair) (k : Name) (h : k ≠ keyOf p.player) :
    groupOf (l ++ [p]) k = groupOf l k := by
  have : (List.filter (fun q => keyOf q.player == k) (l ++ [p]))
      = List.filter (fun q => keyOf q.player == k) l := by
    rw [List.filter_append]
    have hp : (keyOf p.player == k) = false := by
      simpa using fun heq => h heq.symm
    simp [List.filter_cons, hp]
  simp only [groupOf, this]

theorem groupOf_append_self (l : List Pair) (p : Pair) :
    groupOf (l ++ [p]) (keyOf p.player)
      = (keyOf p.player,
          { sum := jsAdd (groupOf l (keyOf p.player)).2.sum p.rating
            count := (groupOf l (keyOf p.player)).2.count + 1
            pairs := (groupOf l (keyOf p.player)).2.pairs ++ [p] }) := by
  have : (List.filter (fun q => keyOf q.player == keyOf p.player) (l ++ [p]))
      = List.filter (fun q => keyOf q.player == keyOf p.player) l ++ [p] := by
    rw [List.filter_append]
    simp [List.filter_cons]
  simp only [groupOf, this, List.foldl_append, List.foldl_cons, List.foldl_nil,
    List.length_append, List.length_singleton]

theorem groupOf_fresh (l : List Pair) (p : Pair)
    (h : ∀ q ∈ l, keyOf q.player ≠ keyOf p.player) :
    groupOf (l ++ [p]) (keyOf p.player)
      = (keyOf p.player, { sum := jsAdd (some 0) p.rating, count := 1, pairs := [p] }) := by
  rw [groupOf_append_self]
  have : List.filter (fun q => keyOf q.player == keyOf p.player) l = [] := by
    rw [List.filter_eq_nil_iff]
    intro q hq
    simpa using h q hq
  simp [groupOf, this]

theorem addEntry_groups (l : List Pair) (p : Pair) :
    ∀ ks : List Name, ks.Nodup →
      addEntry p (ks.map (groupOf l))
        = if keyOf p.player ∈ ks then ks.map (groupOf (l ++ [p]))
          else ks.map (groupOf l)
            ++ [(keyOf p.player,
                  { sum := jsAdd (some 0) p.rating, count := 1, pairs := [p] })]
  | [], _ => by simp [addEntry]
  | x :: xs, hnd => by
    obtain ⟨hx, hxs⟩ := List.nodup_cons.1 hnd
    have ih := addEntry_groups l p xs hxs
    rw [List.map_cons, addEntry]
    by_cases hk : x = keyOf p.player
    · have h1 : (groupOf l x).1 = keyOf p.player := hk
      rw [if_pos h1, if_pos (by simp [hk])]
      have hrest : xs.map (groupOf (l ++ [p])) = xs.map (groupOf l) := by
        apply List.map_congr_left
        intro y hy
        exact groupOf_append_ne l p y (fun h => hx (hk ▸ h ▸ hy))
      rw [List.map_cons, hrest, hk, groupOf_append_self]
      rfl
    · have h1 : ¬ (groupOf l x).1 = keyOf p.player := hk
      rw [if_neg h1, ih]
      by_cases hmem : keyOf p.player ∈ xs
      · rw [if_pos hmem, if_pos (List.mem_cons_of_mem _ hmem), List.map_cons,
          groupOf_append_ne l p x hk]
      · have : keyOf p.player ∉ x :: xs := by
          simp only [List.mem_cons, not_or]
          exact ⟨fun h => hk h.symm, hmem⟩
        rw [if_neg hmem, if_neg this]
        rfl

/-- The object `playerScores` holds, in order of first appearance, the group
of every player. -/
theorem playerScoresOf_eq_groups (pairs : List Pair) :
    playerScoresOf pairs
      = (firstAppearances (pairs.map fun p => keyOf p.player)).map (groupOf pairs) := by
  induction pairs using List.reverseRecOn with
  | nil => rfl
  | append_singleton l p ih =>
    have hfold : playerScoresOf (l ++ [p]) = addEntry p (playerScoresOf l) := by
      simp [playerScoresOf, List.foldl_append]
    rw [hfold, ih, addEntry_groups l p _ (firstAppearances_nodup _), List.map_append,
      List.map_cons, List.map_nil, firstAppearances_append_singleton]
    by_cases hk : keyOf p.player ∈ l.map fun q => keyOf q.player
    · rw [if_pos ((mem_firstAppearances _ _).2 hk), if_pos hk]
    · rw [if_neg (fun h => hk ((mem_firstAppearances _ _).1 h)), if_neg hk, List.map_append,
        List.map_cons, List.map_nil]
      have hfresh : ∀ q ∈ l, keyOf q.player ≠ keyOf p.player := by
        intro q hq heq
        exact hk (heq ▸ List.mem_map_of_mem (fun q : Pair => keyOf q.player) hq)
      rw [groupOf_fresh l p hfresh]
      congr 1
      apply List.map_congr_left
      intro y hy
      symm
      apply groupOf_append_ne
      intro heq
      exact hk (heq ▸ (mem_firstAppearances _ _).1 hy)

/-- When no player is named by an array index or by a property of
`Object.prototype`, `findBestDefenders` selects the defenders as the
specification words it, ties between players in order of first appearance. -/
theorem findBestDefenders_spec (pairs : List Pair) (count : Nat) (h : NoIndexNames pairs)
    (hown : NoInheritedNames pairs) :
    findBestDefenders pairs count = some (specDefenders pairs count) := by
  rw [findBestDefenders_eq pairs count hown, objectEntries_of_noIndex,
    playerScoresOf_eq_groups]
  · rfl
  · intro e he
    have hk : e.1 ∈ scoreKeys (playerScoresOf pairs) := List.mem_map_of_mem (·.1) he
    rw [playerScoresOf_mem_keys] at hk
    obtain ⟨q, hq, hqe⟩ := List.mem_map.1 hk
    rw [← hqe]
    exact h q hq

/-! ### The classifier on a matching: a stable sort by descending rating -/

theorem pair_sublist_asymm {α : Type} {a b : α} :
    ∀ {l : List α}, l.Nodup → [a, b].Sublist l → ¬ [b, a].Sublist l
  | [], _, h, _ => by simp at h
  | x :: t, hnd, h1, h2 => by
    obtain ⟨hx, ht⟩ := List.nodup_cons.1 hnd
    have hb : b ∈ [a, b] := by simp
    have ha : a ∈ [b, a] := by simp
    rcases List.sublist_cons_iff.1 h1 with h1 | ⟨r1, hr1, h1⟩
    · rcases List.sublist_cons_iff.1 h2 with h2 | ⟨r2, hr2, h2⟩
      · exact pair_sublist_asymm ht h1 h2
      · have hxb : b = x := (List.cons.inj hr2).1
        exact hx (hxb ▸ h1.subset hb)
    · have hxa : a = x := (List.cons.inj hr1).1
      rcases List.sublist_cons_iff.1 h2 with h2 | ⟨r2, hr2, h2⟩
      · exact hx (hxa ▸ h2.subset ha)
      · have hxb : b = x := (List.cons.inj hr2).1
        have hr : [b] = r1 := (List.cons.inj hr1).2
        have hbt : b ∈ t := (hr ▸ h1).subset (List.mem_singleton_self b)
        exact hx (hxb ▸ hbt)

theorem pair_sublist_total {α : Type} {a b : α} (hab : a ≠ b) :
    ∀ {l : List α}, a ∈ l → b ∈ l → [a, b].Sublist l ∨ [b, a].Sublist l
  | [], h, _ => by simp at h
  | x :: t, ha, hb => by
    rcases List.mem_cons.1 ha with hax | hat
    · rcases List.mem_cons.1 hb with hbx | hbt
      · exact absurd (hax.trans hbx.symm) hab
      · rw [← hax]
        exact Or.inl (List.cons_sublist_cons.2 (List.singleton_sublist.2 hbt))
    · rcases List.mem_cons.1 hb with hbx | hbt
      · rw [← hbx]
        exact Or.inr (List.cons_sublist_cons.2 (List.singleton_sublist.2 hat))
      · rcases pair_sublist_total hab hat hbt with h | h
        · exact Or.inl (h.trans (List.sublist_cons_self _ _))
        · exact Or.inr (h.trans (List.sublist_cons_self _ _))

theorem stableBefore_antisymm (l : List Pair) (hnd : l.Nodup) (a b : Pair)
    (h1 : StableBefore l a b) (h2 : StableBefore l b a) : a = b := by
  rcases h1 with h1 | ⟨h1, s1⟩
  · rcases h2 with h2 | ⟨h2, _⟩
    · omega
    · omega
  · rcases h2 with h2 | ⟨_, s2⟩
    · omega
    · exact absurd s2 (pair_sublist_asymm hnd s1)

/-- The insertion sort of a sublist of `l` lists its elements by descending
rating, those of equal rating in their order in `l`. -/
theorem insertionSort_stableBefore (l L : List Pair) (hnd : l.Nodup) (hL : L.Sublist l) :
    (L.insertionSort valueOrder).Pairwise (StableBefore l) := by
  have hsorted : (L.insertionSort valueOrder).Pairwise valueOrder :=
    List.sorted_insertionSort valueOrder L
  have hperm := List.perm_insertionSort valueOrder L
  have hnd' : (L.insertionSort valueOrder).Nodup := hperm.nodup_iff.2 (hnd.sublist hL)
  rw [List.pairwise_iff_forall_sublist]
  intro a b hab
  have hval : ratingValue b ≤ ratingValue a := List.pairwise_iff_forall_sublist.1 hsorted hab
  by_cases hlt : ratingValue b < ratingValue a
  · exact Or.inl hlt
  · have heq : ratingValue a = ratingValue b := by omega
    refine Or.inr ⟨heq, ?_⟩
    have ha : a ∈ L := hperm.mem_iff.1 (hab.subset (by simp))
    have hb : b ∈ L := hperm.mem_iff.1 (hab.subset (by simp))
    have hne : a ≠ b := by
      intro h
      subst h
      exact List.nodup_iff_sublist.1 hnd' a hab
    rcases pair_sublist_total hne ha hb with h | h
    · exact h.trans hL
    · have hba : valueOrder b a := by
        unfold valueOrder
        omega
      exact absurd (List.pair_sublist_insertionSort hba h) (pair_sublist_asymm hnd' hab)

theorem filter_not_mem_take {α : Type} [DecidableEq α] (S : List α) (hnd : S.Nodup) (k : Nat) :
    S.filter (fun p => decide (p ∉ S.take k)) = S.drop k := by
  have hS : S.take k ++ S.drop k = S := List.take_append_drop k S
  have hdis : ∀ x ∈ S.drop k, x ∉ S.take k := by
    intro x hx hx'
    have := (List.nodup_append.1 (hS.symm ▸ hnd)).2.2
    exact this hx' hx
  have h0 : (S.take k ++ S.drop k).filter (fun p => decide (p ∉ S.take k))
      = S.filter (fun p => decide (p ∉ S.take k)) := by rw [hS]
  rw [← h0, List.filter_append]
  have h1 : (S.take k).filter (fun p => decide (p ∉ S.take k)) = [] := by
    rw [List.filter_eq_nil_iff]
    intro x hx
    simp [hx]
  have h2 : (S.drop k).filter (fun p => decide (p ∉ S.take k)) = S.drop k := by
    rw [List.filter_eq_self]
    intro x hx
    simpa using hdis x hx
  rw [h1, h2, List.nil_append]

/-- Sorting what is left of `l` after removing the first `k` elements of its
stable sort gives the rest of that sort. -/
theorem insertionSort_filter_not_mem_take (l : List Pair) (hnd : l.Nodup) (k : Nat) :
    (l.filter fun p => decide (p ∉ (l.insertionSort valueOrder).take k)).insertionSort
        valueOrder
      = (l.insertionSort valueOrder).drop k := by
  haveI : IsAntisymm Pair (StableBefore l) := ⟨stableBefore_antisymm l hnd⟩
  have hperm := List.perm_insertionSort valueOrder l
  apply List.eq_of_perm_of_sorted (r := StableBefore l)
  · refine (List.perm_insertionSort valueOrder _).trans ?_
    rw [← filter_not_mem_take _ (hperm.nodup_iff.2 hnd) k]
    exact hperm.symm.filter _
  · exact insertionSort_stableBefore l _ hnd (List.filter_sublist _)
  · exact (insertionSort_stableBefore l l hnd (List.Sublist.refl l)).sublist
      (List.drop_sublist _ _)

theorem firstAppearances_of_nodup : ∀ ks : List Name, ks.Nodup → firstAppearances ks = ks
  | [], _ => rfl
  | x :: xs, h => by
    obtain ⟨hx, hxs⟩ := List.nodup_cons.1 h
    rw [firstAppearances, firstAppearances_of_nodup xs hxs]
    congr 1
    rw [List.filter_eq_self]
    intro y hy
    have : y ≠ x := fun heq => hx (heq ▸ hy)
    simpa using this

theorem filter_key_singleton :
    ∀ (pairs : List Pair), (pairs.map fun p => keyOf p.player).Nodup → ∀ p ∈ pairs,
      pairs.filter (fun q => keyOf q.player == keyOf p.player) = [p]
  | [], _, p, hp => by simp at hp
  | x :: t, hnd, p, hp => by
    obtain ⟨hx, ht⟩ := List.nodup_cons.1 hnd
    rcases List.mem_cons.1 hp with hpx | hpt
    · subst hpx
      have : t.filter (fun q => keyOf q.player == keyOf p.player) = [] := by
        rw [List.filter_eq_nil_iff]
        intro q hq
        have : keyOf q.player ≠ keyOf p.player := fun heq => hx (by
          have hm : keyOf q.player ∈ t.map fun q : Pair => keyOf q.player :=
            List.mem_map_of_mem (fun q : Pair => keyOf q.player) hq
          rw [heq] at hm
          exact hm)
        simpa using this
      simp [List.filter_cons, this]
    · have hne : keyOf x.player ≠ keyOf p.player := fun heq => hx (by
        have hm : keyOf p.player ∈ t.map fun q : Pair => keyOf q.player :=
          List.mem_map_of_mem (fun q : Pair => keyOf q.player) hpt
        rw [← heq] at hm
        exact hm)
      have hx' : (keyOf x.player == keyOf p.player) = false := by simpa using hne
      rw [List.filter_cons, hx']
      exact filter_key_singleton t ht p hpt

theorem playerScoresOf_matching (pairs : List Pair)
    (hnd : (pairs.map fun p => keyOf p.player).Nodup) :
    playerScoresOf pairs = pairs.map fun p =>
      (keyOf p.player,
        ({ sum := jsAdd (some 0) p.rating, count := 1, pairs := [p] } : PlayerScore)) := by
  rw [playerScoresOf_eq_groups, firstAppearances_of_nodup _ hnd, List.map_map]
  apply List.map_congr_left
  intro p hp
  simp only [Function.comp_apply, groupOf, filter_key_singleton pairs hnd p hp]
  rfl

theorem scoredSingle_bestPair (p : Pair) : (scoredSingle p).bestPair = p := rfl

theorem avgOrder_scoredSingle (a b : Pair) (ha : a.rating.isSome) (hb : b.rating.isSome) :
    ratingOrder a b ↔ avgOrder (scoredSingle a) (scoredSingle b) := by
  obtain ⟨x, hx⟩ := Option.isSome_iff_exists.1 ha
  obtain ⟨y, hy⟩ := Option.isSome_iff_exists.1 hb
  simp [ratingOrder, avgOrder, avgGt, scoredSingle, scoredOf, jsGt, jsAdd, hx, hy]

/-- On a matching without index names `findBestDefenders` returns the first
pairs of the input stably sorted by descending rating. -/
theorem defendersOf_matching (pairs : List Pair) (count : Nat) (h : IsPairMatching pairs)
    (hni : NoIndexNames pairs) :
    defendersOf pairs count = (stableByRating pairs).take count := by
  obtain ⟨hk, _, hr⟩ := h
  have hent : objectEntries (playerScoresOf pairs) = playerScoresOf pairs := by
    apply objectEntries_of_noIndex
    intro e he
    have hk : e.1 ∈ scoreKeys (playerScoresOf pairs) := List.mem_map_of_mem (·.1) he
    rw [playerScoresOf_mem_keys] at hk
    obtain ⟨q, hq, hqe⟩ := List.mem_map.1 hk
    rw [← hqe]
    exact hni q hq
  have hscored : (playerScoresOf pairs).map scoredOf = pairs.map scoredSingle := by
    rw [playerScoresOf_matching pairs hk, List.map_map]
    rfl
  have hsort := List.map_insertionSort ratingOrder avgOrder scoredSingle pairs
    (fun a ha b hb => avgOrder_scoredSingle a b (hr a ha) (hr b hb))
  unfold defendersOf stableByRating
  rw [hent, hscored, ← hsort, ← List.map_take, List.map_map]
  conv_rhs => rw [← List.map_id (List.take count (List.insertionSort ratingOrder pairs))]
  rfl

theorem unusedBy_of_matching (pairs used : List Pair) (h : IsPairMatching pairs)
    (hu : ∀ q ∈ used, q ∈ pairs) (p : Pair) (hp : p ∈ pairs) :
    unusedBy used p = decide (p ∉ used) := by
  obtain ⟨hk, ho, _⟩ := h
  by_cases hmem : p ∈ used
  · rw [unusedBy_false_of_mem used p hmem]
    simp [hmem]
  · have h1 : p.player ∉ used.map (·.player) := by
      intro hin
      obtain ⟨q, hq, hqp⟩ := List.mem_map.1 hin
      have : q = p := List.inj_on_of_nodup_map hk (hu q hq) hp (by
        show keyOf q.player = keyOf p.player
        rw [hqp])
      exact hmem (this ▸ hq)
    have h2 : p.opponent ∉ used.map (·.opponent) := by
      intro hin
      obtain ⟨q, hq, hqp⟩ := List.mem_map.1 hin
      have : q = p := List.inj_on_of_nodup_map ho (hu q hq) hp hqp
      exact hmem (this ▸ hq)
    simp [unusedBy, h1, h2, hmem]

theorem isSome_of_sublist_matching (pairs L : List Pair) (h : IsPairMatching pairs)
    (hL : ∀ q ∈ L, q ∈ pairs) : ∀ q ∈ L, ∃ v, q.rating = some v :=
  fun q hq => Option.isSome_iff_exists.1 (h.2.2 q (hL q hq))

/-- On a matching without index names the classifier emits the first 2 pairs
of the stably sorted input as defenders, the next 4 as attackers and what is
left, in input order, as remaining. -/
theorem classified_matching (pairs : List Pair) (h : IsPairMatching pairs)
    (hni : NoIndexNames pairs) :
    defendersOf pairs 2 = (stableByRating pairs).take 2
      ∧ attackersOf pairs = ((stableByRating pairs).drop 2).take 4
      ∧ restOf pairs = pairs.filter fun p => decide (p ∉ (stableByRating pairs).take 6) := by
  have hnd : pairs.Nodup := List.Nodup.of_map _ h.1
  have hsome := isSome_of_sublist_matching pairs pairs h (fun _ hq => hq)
  have hS : stableByRating pairs = pairs.insertionSort valueOrder :=
    insertionSort_ratingOrder_eq pairs hsome
  have hmemS : ∀ q ∈ stableByRating pairs, q ∈ pairs := fun q hq =>
    (List.perm_insertionSort ratingOrder pairs).mem_iff.1 hq
  have hD := defendersOf_matching pairs 2 h hni
  have hfilter : ∀ k, pairs.filter (unusedBy ((stableByRating pairs).take k))
      = pairs.filter fun p => decide (p ∉ (stableByRating pairs).take k) := by
    intro k
    apply List.filter_congr
    intro p hp
    exact unusedBy_of_matching pairs _ h
      (fun q hq => hmemS q (List.mem_of_mem_take hq)) p hp
  have hA : attackersOf pairs = ((stableByRating pairs).drop 2).take 4 := by
    unfold attackersOf findBestAttackers
    rw [hD, hfilter 2]
    have hsome' := isSome_of_sublist_matching pairs
      (pairs.filter fun p => decide (p ∉ (stableByRating pairs).take 2)) h
      (fun q hq => (List.mem_filter.1 hq).1)
    rw [insertionSort_ratingOrder_eq _ hsome', hS,
      insertionSort_filter_not_mem_take pairs hnd 2]
  refine ⟨hD, hA, ?_⟩
  have hsix : (stableByRating pairs).take 2 ++ ((stableByRating pairs).drop 2).take 4
      = (stableByRating pairs).take 6 := by
    have := List.take_append_drop 2 ((stableByRating pairs).take 6)
    rw [List.take_take, List.drop_take] at this
    exact this
  unfold restOf
  rw [hD, hA, ← hfilter 6, hsix]

/-- On a matching of at most 6 pairs whose players are named neither by an
array index nor by a property of `Object.prototype` the classifier returns
the input stably sorted by descending rating. -/
theorem classified_stable_sort (pairs : List Pair) (h : IsPairMatching pairs)
    (hni : NoIndexNames pairs) (hown : NoInheritedNames pairs) (hn : pairs.length ≤ 6) :
    (adaptToTournamentRules pairs).map untyped = some (stableByRating pairs) := by
  obtain ⟨hD, hA, hR⟩ := classified_matching pairs h hni
  obtain ⟨res, hres⟩ : ∃ res, adaptToTournamentRules pairs = some res :=
    ⟨_, adaptToTournamentRules_eq _ hown⟩
  have hlen : (stableByRating pairs).length ≤ 6 := by
    unfold stableByRating
    rw [List.length_insertionSort]
    exact hn
  have htake : (stableByRating pairs).take 6 = stableByRating pairs :=
    List.take_of_length_le hlen
  have hrest : restOf pairs = [] := by
    rw [hR, htake, List.filter_eq_nil_iff]
    intro p hp
    have : p ∈ stableByRating pairs :=
      (List.perm_insertionSort ratingOrder pairs).mem_iff.2 hp
    simp [this]
  have hsix : (stableByRating pairs).take 2 ++ ((stableByRating pairs).drop 2).take 4
      = stableByRating pairs := by
    have := List.take_append_drop 2 ((stableByRating pairs).take 6)
    rw [List.take_take, List.drop_take, htake] at this
    exact this
  rw [hres, Option.map_some', adapt_untyped pairs res hres, hD, hA, hrest, List.append_nil,
    hsix]

/-! ### Facts that hold away from the defects -/

/-- Whatever `greedyAlgorithm` returns for uniquely named players and
opponents of any two lengths has exactly `min(|players|, |opponents|)`
pairs. -/
theorem greedy_pair_count (players opponents : List Name) (ratings : Ratings)
    (hp : players.Nodup) (ho : opponents.Nodup)
    (hr : FullyPopulated players opponents ratings) (res : List TypedPair)
    (h : greedyAlgorithm players opponents ratings = some res) :
    res.length = min players.length opponents.length := by
  have g2 := greedy_result players opponents ratings (fun p hp' _ _ => (hr p hp').1) res h
  have := g2.length_eq
  rw [greedyMatching_length players opponents ratings hp ho] at this
  simpa [untyped] using this

/-- The greedy solver throws when the player of a pair of its matching is
named by a property of `Object.prototype`. -/
theorem greedy_throws (teamMembers opponents : List Name) (ratings : Ratings)
    (hrow : ∀ p ∈ teamMembers, ∀ o ∈ opponents, (ratings.lookup p).isSome)
    (h : ¬ NoInheritedNames (greedyMatching (candidatePairs teamMembers opponents ratings))) :
    greedyAlgorithm teamMembers opponents ratings = none := by
  rw [greedyAlgorithm_eq _ _ _ hrow]
  exact adaptToTournamentRules_throws _ h

/-- When the players list or the opponents list is empty, method `'greedy'`
returns the empty list for every rating store, and method `'full'` with at
most 5 players returns the empty list provided every player has a row in the
rating store and no such row has an entry under the key `"undefined"`. -/
theorem unsolvable_input (munkres : Munkres) (players opponents : List Name)
    (ratings : Ratings) (h : players = [] ∨ opponents = []) :
    optimizePairs munkres players opponents ratings (some "greedy") = some []
      ∧ (players.length ≤ 5 →
          (∀ p ∈ players,
            (ratings.lookup p).isSome ∧ ratingAt ratings p "undefined" = none) →
          optimizePairs munkres players opponents ratings (some "full") = some []) := by
  refine ⟨greedy_of_empty_side players opponents ratings h, ?_⟩
  intro hn hrow
  show fullSearchOptimize munkres players opponents ratings = some []
  cases players with
  | nil => exact fullSearch_no_players munkres opponents ratings
  | cons p ps =>
    rcases h with h | h
    · cases h
    · subst h
      exact fullSearch_fewer_opponents munkres (p :: ps) [] ratings hn (by simp) hrow

/-- When a player `A` of a fully populated store is renamed to a name `A2`
other than `__proto__` that differs from `A` and is no player name,
`saveEditedName` succeeds, the rating stored for `(A2, o)` is the rating
formerly stored for `(A, o)` for every opponent `o`, and no row remains under
`A`; when an opponent `X` is renamed to such a name `X2`, the rating of every
player not named `__proto__` against `X2` is its former rating against `X`,
and no entry remains under `X`. -/
theorem rename_preserves_ratings (s : AppState) (oldName : Name) (isOpponent : Bool)
    (he : s.editingPlayer = some (oldName, isOpponent))
    (hpop : FullyPopulated s.teamMembers s.opponents s.ratings)
    (hold : oldName ∈ (if isOpponent then s.opponents else s.teamMembers))
    (hblank : jsTrim s.editedName ≠ "")
    (hne : jsTrim s.editedName ≠ oldName)
    (hfresh : jsTrim s.editedName ∉ (if isOpponent then s.opponents else s.teamMembers))
    (hproto : jsTrim s.editedName ≠ "__proto__") :
    ∃ s', saveEditedName s = some s'
      ∧ (isOpponent = false →
          (∀ o, ratingAt s'.ratings (jsTrim s.editedName) o = ratingAt s.ratings oldName o)
            ∧ s'.ratings.lookup oldName = none)
      ∧ (isOpponent = true →
          ∀ p ∈ s.teamMembers, p ≠ "__proto__" →
            ratingAt s'.ratings p (jsTrim s.editedName) = ratingAt s.ratings p oldName
              ∧ ratingAt s'.ratings p oldName = none) := by
  refine ⟨_, saveEditedName_accept s oldName isOpponent he hblank (Or.inl hfresh), ?_, ?_⟩
  · intro hi
    subst hi
    simp only [applyRename, Bool.false_eq_true, if_false] at hold ⊢
    exact ⟨fun o => ratingAt_renamePlayer_new _ _ _ (hpop oldName hold).1 hne hproto o,
      lookup_renamePlayer_old _ _ _⟩
  · intro hi
    subst hi
    simp only [applyRename, if_true] at hold ⊢
    intro p hp hpp
    exact ⟨ratingAt_renameOpponent_new _ _ _ _ ((hpop p hp).2 oldName hold) hne hproto hpp,
      ratingAt_renameOpponent_old _ _ _ _⟩

/-! ### A minimum-cost assignment for a roster with a repeated name -/

theorem duplicateMunkres_minCost :
    IsMinCostAssignment [[some 1, some 5, some 3], [some 1, some 5, some 3],
        [some 1, some 5, some 5]] 3 3 [(0, 2), (1, 1), (2, 0)] := by
  refine ⟨⟨by decide, by decide, by decide⟩, ?_⟩
  intro other hother
  obtain ⟨h1, h2, h3⟩ := hother
  have hlen := h1.length_eq
  have hnd : (other.map (·.1)).Nodup := h1.nodup_iff.2 (by decide)
  match other, h1, h2, h3, hlen, hnd with
  | [(a, b), (c, d), (e, f)], h1, h2, h3, _, hnd =>
    have ha : a < 3 := by
      have := h1.mem_iff.1 (List.mem_cons_self _ _)
      simpa using this
    have hc : c < 3 := by
      have := h1.mem_iff.1 (List.mem_cons_of_mem _ (List.mem_cons_self _ _))
      simpa using this
    have he : e < 3 := by
      have := h1.mem_iff.1
        (List.mem_cons_of_mem _ (List.mem_cons_of_mem _ (List.mem_cons_self _ _)))
      simpa using this
    have hb : b < 3 := h3 (a, b) (List.mem_cons_self _ _)
    have hd : d < 3 := h3 (c, d) (List.mem_cons_of_mem _ (List.mem_cons_self _ _))
    have hf : f < 3 :=
      h3 (e, f) (List.mem_cons_of_mem _ (List.mem_cons_of_mem _ (List.mem_cons_self _ _)))
    have hcols : b ≠ d ∧ b ≠ f ∧ d ≠ f := by
      simp only [List.map_cons, List.map_nil, List.nodup_cons, List.mem_cons,
        List.mem_singleton, List.not_mem_nil, not_or, List.nodup_nil] at h2
      exact ⟨h2.1.1, h2.1.2.1, h2.2.1.1⟩
    obtain ⟨hbd, hbf, hdf⟩ := hcols
    interval_cases b <;> interval_cases d <;> interval_cases f
      <;> first
        | exact absurd rfl hbd
        | exact absurd rfl hbf
        | exact absurd rfl hdf
        | (interval_cases a <;> interval_cases c <;> interval_cases e <;> decide)

/-! ## Claims -/

/-- C5. With players `[A, B]`, opponents `[X, Y]` and ratings
`A:{X:5,Y:4}, B:{X:3,Y:1}`, `greedyAlgorithm` returns exactly the pairs
A-X (5) and B-Y (1), total 6, and `fullSearchOptimize` returns exactly the
pairs A-Y (4) and B-X (3), total 7. -/
theorem greedy_strictly_suboptimal_example :
    greedyAlgorithm ["A", "B"] ["X", "Y"] exampleRatings
        = some [withType Role.defender ⟨some "A", some "X", some 5⟩,
                withType Role.defender ⟨some "B", some "Y", some 1⟩]
      ∧ totalRating [withType Role.defender ⟨some "A", some "X", some 5⟩,
                withType Role.defender ⟨some "B", some "Y", some 1⟩] = some 6
      ∧ (∀ munkres : Munkres,
          fullSearchOptimize munkres ["A", "B"] ["X", "Y"] exampleRatings
            = some [withType Role.defender ⟨some "A", some "Y", some 4⟩,
                    withType Role.defender ⟨some "B", some "X", some 3⟩])
      ∧ totalRating [withType Role.defender ⟨some "A", some "Y", some 4⟩,
                    withType Role.defender ⟨some "B", some "X", some 3⟩] = some 7 := by
  refine ⟨by decide, by decide, ?_, by decide⟩
  intro munkres
  rfl

/-- C8, as stated, fails: with the method unset `optimizePairs` differs from
`hungarianAlgorithm` on two players against one opponent. -/
theorem default_method_not_hungarian :
    optimizePairs munkresTwoOne ["A", "B"] ["X"] twoOneRatings none
      ≠ hungarianAlgorithm munkresTwoOne ["A", "B"] ["X"] twoOneRatings := by
  decide

/-- C8, amended. With the method unset `optimizePairs` runs
`fullSearchOptimize` (the default parameter is `'full'`); it runs
`hungarianAlgorithm` for every method other than `'greedy'` and `'full'`. -/
theorem default_method_is_full (munkres : Munkres) (teamMembers opponents : List Name)
    (ratings : Ratings) :
    optimizePairs munkres teamMembers opponents ratings none
        = fullSearchOptimize munkres teamMembers opponents ratings
      ∧ ∀ method : String, method ≠ "greedy" → method ≠ "full" →
          optimizePairs munkres teamMembers opponents ratings (some method)
            = hungarianAlgorithm munkres teamMembers opponents ratings := by
  refine ⟨rfl, ?_⟩
  intro method h1 h2
  unfold optimizePairs
  split
  · rename_i heq
    exact absurd (by simpa using heq) h1
  · rename_i heq
    exact absurd (by simpa using heq) h2
  · rfl
/-- C1. For uniquely named players and opponents and a fully populated
rating store, every list `optimizePairs` returns with method `'greedy'`, and
with method `'full'` for at most 5 players, has no player name and no
opponent name in two pairs; so has every list `hungarianAlgorithm` returns
when `munkres` yields each row index and each column index at most once.
When no player is named by a property of `Object.prototype`, `'greedy'` and
`'full'` (at most 5 players) do return, and so does `hungarianAlgorithm` for
indices within the matrix. -/
theorem matching_validity (munkres : Munkres) (players opponents : List Name)
    (ratings : Ratings) (hp : players.Nodup) (ho : opponents.Nodup)
    (hr : FullyPopulated players opponents ratings) :
    (∀ res, optimizePairs munkres players opponents ratings (some "greedy") = some res →
        NoRepeat res)
      ∧ (players.length ≤ 5 →
          ∀ res, optimizePairs munkres players opponents ratings (some "full") = some res →
            NoRepeat res)
      ∧ ((∀ matrix, costMatrix players opponents ratings = some matrix →
            ((munkres matrix).map (·.1)).Nodup ∧ ((munkres matrix).map (·.2)).Nodup) →
          ∀ res, hungarianAlgorithm munkres players opponents ratings = some res →
            NoRepeat res)
      ∧ (OwnNames players →
          (∃ res, optimizePairs munkres players opponents ratings (some "greedy") = some res)
            ∧ (players.length ≤ 5 →
                ∃ res, optimizePairs munkres players opponents ratings (some "full")
                  = some res)
            ∧ ((∀ matrix, ∀ ij ∈ munkres matrix,
                  ij.1 < players.length ∧ ij.2 < opponents.length) →
                ∃ res, hungarianAlgorithm munkres players opponents ratings = some res)) := by
  refine ⟨?_, ?_, ?_, ?_⟩
  · exact greedy_noRepeat players opponents ratings (fun p hp' o _ => (hr p hp').1)
  · intro hn
    exact fullSearch_noRepeat munkres players opponents ratings hn hp ho
      (fun p hp' => (hr p hp').1)
  · intro hm res h
    exact hungarian_noRepeat munkres players opponents ratings hp ho hm res h
  · intro hown
    refine ⟨?_, ?_, ?_⟩
    · exact greedy_returns players opponents ratings (fun p hp' o _ => (hr p hp').1) hown
    · intro hn
      exact fullSearch_returns munkres players opponents ratings hn
        (fun p hp' => (hr p hp').1) hown
    · intro hidx
      exact hungarian_returns munkres players opponents ratings hr hown hidx

/-- C1 at the ratings `{A: {X: 5, Y: 4}, B: {X: 3, Y: 1}}`, `munkres`
returning the diagonal: whatever the three solvers return has no repeated
name, and all three return. -/
theorem matching_validity_witness :
    (∀ res, optimizePairs (fun _ => [(0, 0), (1, 1)]) ["A", "B"] ["X", "Y"] exampleRatings
          (some "greedy") = some res → NoRepeat res)
      ∧ (∀ res, optimizePairs (fun _ => [(0, 0), (1, 1)]) ["A", "B"] ["X", "Y"]
            exampleRatings (some "full") = some res → NoRepeat res)
      ∧ (∀ res, hungarianAlgorithm (fun _ => [(0, 0), (1, 1)]) ["A", "B"] ["X", "Y"]
            exampleRatings = some res → NoRepeat res)
      ∧ (∃ res, optimizePairs (fun _ => [(0, 0), (1, 1)]) ["A", "B"] ["X", "Y"]
            exampleRatings (some "greedy") = some res)
      ∧ (∃ res, optimizePairs (fun _ => [(0, 0), (1, 1)]) ["A", "B"] ["X", "Y"]
            exampleRatings (some "full") = some res)
      ∧ ∃ res, hungarianAlgorithm (fun _ => [(0, 0), (1, 1)]) ["A", "B"] ["X", "Y"]
            exampleRatings = some res :=
  have h := matching_validity (fun _ => [(0, 0), (1, 1)]) ["A", "B"] ["X", "Y"]
    exampleRatings (by decide) (by decide) (by decide)
  have hnodup : (([(0, 0), (1, 1)] : List (Nat × Nat)).map (·.1)).Nodup
      ∧ (([(0, 0), (1, 1)] : List (Nat × Nat)).map (·.2)).Nodup := by decide
  have hidx : ∀ ij ∈ ([(0, 0), (1, 1)] : List (Nat × Nat)),
      ij.1 < ["A", "B"].length ∧ ij.2 < ["X", "Y"].length := by decide
  ⟨h.1, h.2.1 (by decide), h.2.2.1 (fun _ _ => hnodup),
    (h.2.2.2 (by decide)).1, (h.2.2.2 (by decide)).2.1 (by decide),
    (h.2.2.2 (by decide)).2.2 (fun _ => hidx)⟩

/-- C8, amended, with the method unset and with the method `'hungarian'`. -/
theorem default_method_is_full_witness :
    optimizePairs munkresTwoOne ["A", "B"] ["X"] twoOneRatings none
        = fullSearchOptimize munkresTwoOne ["A", "B"] ["X"] twoOneRatings
      ∧ optimizePairs munkresTwoOne ["A", "B"] ["X"] twoOneRatings (some "hungarian")
        = hungarianAlgorithm munkresTwoOne ["A", "B"] ["X"] twoOneRatings :=
  ⟨(default_method_is_full munkresTwoOne ["A", "B"] ["X"] twoOneRatings).1,
   (default_method_is_full munkresTwoOne ["A", "B"] ["X"] twoOneRatings).2 "hungarian"
     (by decide) (by decide)⟩
/-- C2. For at most 5 uniquely named players, at least as many uniquely
named opponents and ratings in `[1, 5]`, the pairs `fullSearchOptimize`
returns have a total rating that is at least the total of every one-to-one
assignment of all players to distinct opponents, and they are such an
assignment: the total is the maximum.  The call returns when no player is
named by a property of `Object.prototype`. -/
theorem exhaustive_optimality (munkres : Munkres) (players opponents : List Name)
    (ratings : Ratings) (hn : players.length ≤ 5) (hp : players.Nodup)
    (ho : opponents.Nodup) (hm : players.length ≤ opponents.length)
    (hr : RatingsInRange players opponents ratings) :
    (∀ res, fullSearchOptimize munkres players opponents ratings = some res →
        ∃ total, totalRating res = some total
          ∧ (∀ asg, IsAssignment players opponents asg →
              assignmentTotal ratings asg ≤ total)
          ∧ ∃ asg, IsAssignment players opponents asg
              ∧ (namesOf res).Perm (asg.map fun x => (some x.1, some x.2))
              ∧ assignmentTotal ratings asg = total)
      ∧ (OwnNames players →
          ∃ res, fullSearchOptimize munkres players opponents ratings = some res) := by
  refine ⟨?_, ?_⟩
  · intro res h1
    obtain ⟨perm, h2, h3, h4, h5⟩ :=
      fullSearch_optimal munkres players opponents ratings hn hp ho hm hr res h1
    have hlen : players.length ≤ perm.length := by rw [h2.length_eq]; exact hm
    refine ⟨_, h4, ?_, players.zip perm, ⟨?_, ?_, ?_⟩, ?_, ?_⟩
    · intro asg hasg
      obtain ⟨perm', hp1, _, hp3⟩ :=
        assignment_as_permutation players opponents ratings ho asg hasg
      rw [← hp3]
      exact h5 perm' hp1
    · rw [map_fst_zip_le _ _ hlen]
    · rw [map_snd_zip_take _ _ hlen]
      exact (h2.nodup_iff.2 ho).sublist (List.take_sublist _ _)
    · intro x hx
      exact h2.mem_iff.1 (List.of_mem_zip hx).2
    · rw [namesOf_eq]
      have := h3.map (fun q : Pair => (q.player, q.opponent))
      rw [pairUp_eq_map_zip _ _ _ hlen, List.map_map] at this
      exact this
    · rw [pairUp_eq_map_zip _ _ _ hlen, ratingSum_map_pairOfNames]
  · intro hown
    exact fullSearch_returns munkres players opponents ratings hn
      (rows_of_inRange players opponents ratings hm hr) hown

/-- C2 at the ratings `{A: {X: 5, Y: 4}, B: {X: 3, Y: 1}}`. -/
theorem exhaustive_optimality_witness :
    (∀ res, fullSearchOptimize (fun _ => []) ["A", "B"] ["X", "Y"] exampleRatings = some res →
        ∃ total, totalRating res = some total
          ∧ (∀ asg, IsAssignment ["A", "B"] ["X", "Y"] asg →
              assignmentTotal exampleRatings asg ≤ total)
          ∧ ∃ asg, IsAssignment ["A", "B"] ["X", "Y"] asg
              ∧ (namesOf res).Perm (asg.map fun x => (some x.1, some x.2))
              ∧ assignmentTotal exampleRatings asg = total)
      ∧ ∃ res, fullSearchOptimize (fun _ => []) ["A", "B"] ["X", "Y"] exampleRatings
          = some res :=
  have h := exhaustive_optimality (fun _ => []) ["A", "B"] ["X", "Y"] exampleRatings
    (by decide) (by decide) (by decide) (by decide) (by decide)
  ⟨h.1, h.2 (by decide)⟩

/-- C4. For at most 5 uniquely named players, at least as many uniquely
named opponents and ratings in `[1, 5]`, the total rating of the pairs
`greedyAlgorithm` returns is at most the total rating of the pairs
`fullSearchOptimize` returns.  Both solvers return when no player is named by
a property of `Object.prototype`. -/
theorem greedy_le_exhaustive (munkres : Munkres) (players opponents : List Name)
    (ratings : Ratings) (hn : players.length ≤ 5) (hp : players.Nodup)
    (ho : opponents.Nodup) (hm : players.length ≤ opponents.length)
    (hr : RatingsInRange players opponents ratings) :
    (∀ resG resF, greedyAlgorithm players opponents ratings = some resG →
        fullSearchOptimize munkres players opponents ratings = some resF →
        ∃ totalG totalF, totalRating resG = some totalG ∧ totalRating resF = some totalF
          ∧ totalG ≤ totalF)
      ∧ (OwnNames players →
          (∃ resG, greedyAlgorithm players opponents ratings = some resG)
            ∧ ∃ resF, fullSearchOptimize munkres players opponents ratings = some resF) := by
  have hrow := rows_of_inRange players opponents ratings hm hr
  refine ⟨?_, ?_⟩
  · intro resG resF g1 h1
    obtain ⟨perm, _, _, h4, h5⟩ :=
      fullSearch_optimal munkres players opponents ratings hn hp ho hm hr resF h1
    have g2 := greedy_result players opponents ratings (fun p hp' _ _ => hrow p hp') resG g1
    have hasg := greedyMatching_isAssignment players opponents ratings hp ho hm
    have hnames := greedyMatching_names players opponents ratings
    have hsome : ∀ q ∈ greedyMatching (candidatePairs players opponents ratings),
        ∃ v, q.rating = some v := by
      intro q hq
      obtain ⟨p, hp', o, ho', rfl⟩ :=
        (mem_candidatePairs _ _ _ q).1 (greedyMatching_subset _ q hq)
      obtain ⟨v, hv, _⟩ := isRating_some (hr p hp' o ho')
      exact ⟨v, hv⟩
    refine ⟨_, _, totalRating_perm resG _ g2 hsome, h4, ?_⟩
    obtain ⟨perm', hp1, _, hp3⟩ :=
      assignment_as_permutation players opponents ratings ho _ hasg
    rw [hnames, ratingSum_map_pairOfNames, ← hp3]
    exact h5 perm' hp1
  · intro hown
    exact ⟨greedy_returns players opponents ratings (fun p hp' _ _ => hrow p hp') hown,
      fullSearch_returns munkres players opponents ratings hn hrow hown⟩

/-- C4 at the ratings `{A: {X: 5, Y: 4}, B: {X: 3, Y: 1}}`. -/
theorem greedy_le_exhaustive_witness :
    (∀ resG resF, greedyAlgorithm ["A", "B"] ["X", "Y"] exampleRatings = some resG →
        fullSearchOptimize (fun _ => []) ["A", "B"] ["X", "Y"] exampleRatings = some resF →
        ∃ totalG totalF, totalRating resG = some totalG ∧ totalRating resF = some totalF
          ∧ totalG ≤ totalF)
      ∧ (∃ resG, greedyAlgorithm ["A", "B"] ["X", "Y"] exampleRatings = some resG)
      ∧ ∃ resF, fullSearchOptimize (fun _ => []) ["A", "B"] ["X", "Y"] exampleRatings
          = some resF :=
  have h := greedy_le_exhaustive (fun _ => []) ["A", "B"] ["X", "Y"] exampleRatings
    (by decide) (by decide) (by decide) (by decide) (by decide)
  ⟨h.1, h.2 (by decide)⟩

/-- C7 fails for a player named `constructor`: the names are unique, the
rating store is fully populated and `min(|players|, |opponents|)` is 1, but
`greedyAlgorithm` throws.  Its scan pairs `constructor` with `X`; in
`findBestDefenders` the object `playerScores` inherits
`Object.prototype.constructor` under the key of that player, so no entry is
created and `pairs` of the inherited function is `undefined`. -/
theorem greedy_throws_on_inherited_name :
    ["constructor"].Nodup ∧ ["X"].Nodup
      ∧ FullyPopulated ["constructor"] ["X"] constructorRatings
      ∧ greedyMatching (candidatePairs ["constructor"] ["X"] constructorRatings)
        = [⟨some "constructor", some "X", some 3⟩]
      ∧ findBestDefenders [⟨some "constructor", some "X", some 3⟩] 2 = none
      ∧ greedyAlgorithm ["constructor"] ["X"] constructorRatings = none
      ∧ min ["constructor"].length ["X"].length = 1 := by
  decide

set_option maxRecDepth 100000 in
/-- C3 fails for a player name that occurs twice.  For the players `A`, `A`,
`B`, the opponents `X`, `Y`, `Z` and ratings in `[1, 5]`, `munkres` returns
the minimum-cost assignment `A`-`Z`, `A`-`Y`, `B`-`X` and the exhaustive
search keeps `A`-`X`, `A`-`Z`, `B`-`Y`, both of total 9; the classifier emits
one pair per defender, so the pairs `hungarianAlgorithm` returns (`B`-`X`,
`A`-`Z`) have total 8 and those `fullSearchOptimize` returns (`A`-`X`,
`B`-`Y`) have total 6. -/
theorem hungarian_total_differs_on_repeated_name :
    ["A", "A", "B"].length ≤ 5 ∧ ["A", "A", "B"].length ≤ ["X", "Y", "Z"].length
      ∧ RatingsInRange ["A", "A", "B"] ["X", "Y", "Z"] duplicateRatings
      ∧ (∀ matrix, costMatrix ["A", "A", "B"] ["X", "Y", "Z"] duplicateRatings = some matrix →
          IsMinCostAssignment matrix 3 3 (duplicateMunkres matrix))
      ∧ (hungarianAlgorithm duplicateMunkres ["A", "A", "B"] ["X", "Y", "Z"]
          duplicateRatings).map untyped
          = some [⟨some "B", some "X", some 5⟩, ⟨some "A", some "Z", some 3⟩]
      ∧ (fullSearchOptimize duplicateMunkres ["A", "A", "B"] ["X", "Y", "Z"]
          duplicateRatings).map untyped
          = some [⟨some "A", some "X", some 5⟩, ⟨some "B", some "Y", some 1⟩]
      ∧ (hungarianAlgorithm duplicateMunkres ["A", "A", "B"] ["X", "Y", "Z"]
          duplicateRatings).bind totalRating = some 8
      ∧ (fullSearchOptimize duplicateMunkres ["A", "A", "B"] ["X", "Y", "Z"]
          duplicateRatings).bind totalRating = some 6 := by
  refine ⟨by decide, by decide, by decide, ?_, by decide, by decide, by decide, by decide⟩
  intro matrix hmat
  have hm : matrix = [[some 1, some 5, some 3], [some 1, some 5, some 3],
      [some 1, some 5, some 5]] := by
    have : costMatrix ["A", "A", "B"] ["X", "Y", "Z"] duplicateRatings
        = some [[some 1, some 5, some 3], [some 1, some 5, some 3],
          [some 1, some 5, some 5]] := by decide
    rw [this] at hmat
    exact (Option.some.inj hmat).symm
  subst hm
  exact duplicateMunkres_minCost

/-- C3, amended.  For at most 5 uniquely named players, at least as many
uniquely named opponents and ratings in `[1, 5]`, if `munkres` returns a minimum-cost
assignment of all rows of the cost matrix `6 - rating`, then the total rating
of the pairs `hungarianAlgorithm` returns is at least, and in fact equal to,
the total rating of the pairs `fullSearchOptimize` returns.  Both solvers
return when no player is named by a property of `Object.prototype`. -/
theorem hungarian_total_eq_exhaustive (munkres : Munkres) (players opponents : List Name)
    (ratings : Ratings) (hn : players.length ≤ 5) (hp : players.Nodup)
    (ho : opponents.Nodup) (hm : players.length ≤ opponents.length)
    (hr : RatingsInRange players opponents ratings)
    (hmunk : ∀ matrix, costMatrix players opponents ratings = some matrix →
      IsMinCostAssignment matrix players.length opponents.length (munkres matrix)) :
    (∀ resH resF, hungarianAlgorithm munkres players opponents ratings = some resH →
        fullSearchOptimize munkres players opponents ratings = some resF →
        ∃ totalH totalF, totalRating resH = some totalH ∧ totalRating resF = some totalF
          ∧ totalF ≤ totalH ∧ totalH = totalF)
      ∧ (OwnNames players →
          (∃ resH, hungarianAlgorithm munkres players opponents ratings = some resH)
            ∧ ∃ resF, fullSearchOptimize munkres players opponents ratings = some resF) := by
  refine ⟨?_, ?_⟩
  · intro resH resF a1 b1
    obtain ⟨asgH, a2, a3, a4⟩ :=
      hungarian_optimal munkres players opponents ratings hp ho hm hr hmunk resH a1
    obtain ⟨asgF, b2, b3, b4⟩ :=
      fullSearch_maximum munkres players opponents ratings hn hp ho hm hr resF b1
    have h1 := a4 asgF b2
    have h2 := b4 asgH a2
    exact ⟨_, _, a3, b3, h1, le_antisymm h2 h1⟩
  · intro hown
    exact ⟨hungarian_returns_minCost munkres players opponents ratings ho hm hr hmunk hown,
      fullSearch_returns munkres players opponents ratings hn
        (rows_of_inRange players opponents ratings hm hr) hown⟩

theorem munkresExample_minCost :
    ∀ matrix, costMatrix ["A", "B"] ["X", "Y"] exampleRatings = some matrix →
      IsMinCostAssignment matrix ["A", "B"].length ["X", "Y"].length
        (munkresExample matrix) := by
  intro matrix hmat
  have hm : matrix = [[some 1, some 2], [some 3, some 5]] := by
    have : costMatrix ["A", "B"] ["X", "Y"] exampleRatings
        = some [[some 1, some 2], [some 3, some 5]] := by decide
    rw [this] at hmat
    exact (Option.some.inj hmat).symm
  subst hm
  refine ⟨⟨by decide, by decide, by decide⟩, ?_⟩
  intro other hother
  obtain ⟨h1, h2, h3⟩ := hother
  have hlen := h1.length_eq
  have hnd : (other.map (·.1)).Nodup := h1.nodup_iff.2 (by decide)
  match other, h1, h2, h3, hlen, hnd with
  | [(a, b), (c, d)], h1, h2, h3, _, hnd =>
    have ha : a < 2 := by
      have := h1.mem_iff.1 (List.mem_cons_self _ _)
      simpa using this
    have hc : c < 2 := by
      have := h1.mem_iff.1 (List.mem_cons_of_mem _ (List.mem_cons_self _ _))
      simpa using this
    have hb : b < 2 := h3 (a, b) (List.mem_cons_self _ _)
    have hd : d < 2 := h3 (c, d) (List.mem_cons_of_mem _ (List.mem_cons_self _ _))
    have hac : a ≠ c := by
      intro h
      simp [h] at hnd
    have hbd : b ≠ d := by
      intro h
      simp [h] at h2
    interval_cases a <;> interval_cases c <;> interval_cases b <;> interval_cases d
      <;> first | exact absurd rfl hac | exact absurd rfl hbd | decide

/-- C3, amended, at the ratings `{A: {X: 5, Y: 4}, B: {X: 3, Y: 1}}`. -/
theorem hungarian_total_eq_exhaustive_witness :
    (∀ resH resF,
        hungarianAlgorithm munkresExample ["A", "B"] ["X", "Y"] exampleRatings = some resH →
        fullSearchOptimize munkresExample ["A", "B"] ["X", "Y"] exampleRatings = some resF →
        ∃ totalH totalF, totalRating resH = some totalH ∧ totalRating resF = some totalF
          ∧ totalF ≤ totalH ∧ totalH = totalF)
      ∧ (∃ resH, hungarianAlgorithm munkresExample ["A", "B"] ["X", "Y"] exampleRatings
          = some resH)
      ∧ ∃ resF, fullSearchOptimize munkresExample ["A", "B"] ["X", "Y"] exampleRatings
          = some resF :=
  have h := hungarian_total_eq_exhaustive munkresExample ["A", "B"] ["X", "Y"]
    exampleRatings (by decide) (by decide) (by decide) (by decide) (by decide)
    munkresExample_minCost
  ⟨h.1, h.2 (by decide)⟩
/-- C6 fails with two players against one opponent: `fullSearchOptimize`
returns no pair where `min(|players|, |opponents|)` is 1. -/
theorem fullSearch_pair_count_fails :
    (∀ munkres : Munkres,
        fullSearchOptimize munkres ["A", "B"] ["X"] twoOneRatings = some [])
      ∧ min ["A", "B"].length ["X"].length = 1 := by
  refine ⟨?_, by decide⟩
  intro munkres
  rfl

/-- C9 fails with one player, no opponent and a rating store without a row
for that player: method `'full'` throws instead of returning the empty list,
while method `'greedy'` returns the empty list. -/
theorem unsolvable_input_throws :
    optimizePairs munkresTwoOne ["A"] [] [] (some "full") = none
      ∧ optimizePairs munkresTwoOne ["A"] [] [] (some "full") ≠ some []
      ∧ optimizePairs munkresTwoOne ["A"] [] [] (some "greedy") = some [] := by
  decide

/-- C10, as stated, fails: on five candidate pairs with distinct ratings in
which the two best players both meet opponent `O1`, both defender pairs
carry `O1`. -/
theorem classifier_repeats_opponent :
    CandidatesOk fivePlayers fiveOpponents sharedOpponentPairs
      ∧ adaptToTournamentRules sharedOpponentPairs
        = some [withType Role.defender ⟨some "P1", some "O1", some 5⟩,
                withType Role.defender ⟨some "P2", some "O1", some 4⟩,
                withType Role.attacker ⟨some "P3", some "O2", some 3⟩,
                withType Role.attacker ⟨some "P4", some "O3", some 2⟩,
                withType Role.attacker ⟨some "P5", some "O4", some 1⟩]
      ∧ ¬ NoRepeat [withType Role.defender ⟨some "P1", some "O1", some 5⟩,
                withType Role.defender ⟨some "P2", some "O1", some 4⟩,
                withType Role.attacker ⟨some "P3", some "O2", some 3⟩,
                withType Role.attacker ⟨some "P4", some "O3", some 2⟩,
                withType Role.attacker ⟨some "P5", some "O4", some 1⟩] := by
  decide

/-- C10, amended. For candidate pairs drawn from 5 players and 5 opponents in
which every player occurs and all ratings are pairwise distinct, the list
`adaptToTournamentRules` returns has exactly 2 defender pairs, of two
different players, and at most 4 attacker pairs, every pair being a defender,
an attacker or a remaining pair; two emitted pairs of different roles share
neither player nor opponent; and when no player and no opponent repeats among
the candidates, none repeats among the emitted pairs.  The call returns when
no player is named by a property of `Object.prototype`. -/
theorem classifier_validity (players opponents : List Name) (pairs : List Pair)
    (h : CandidatesOk players opponents pairs) :
    (∀ res, adaptToTournamentRules pairs = some res →
        roleCount Role.defender res = 2
          ∧ roleCount Role.attacker res ≤ 4
          ∧ roleCount Role.defender res + roleCount Role.attacker res
              + roleCount Role.remaining res = res.length
          ∧ ((res.filter fun q => decide (q.type = Role.defender)).map (·.player)).Nodup
          ∧ (∀ a ∈ res, ∀ b ∈ res, a.type ≠ b.type →
              a.player ≠ b.player ∧ a.opponent ≠ b.opponent)
          ∧ ((pairs.map (·.player)).Nodup → (pairs.map (·.opponent)).Nodup →
              NoRepeat res))
      ∧ (NoInheritedNames pairs → ∃ res, adaptToTournamentRules pairs = some res) := by
  obtain ⟨hp, hlen, _, _, _, hocc, _⟩ := h
  refine ⟨?_, fun hown => ⟨_, adaptToTournamentRules_eq pairs hown⟩⟩
  intro res hres
  obtain ⟨c1, c2, c3⟩ := roleCount_classified pairs res hres
  have hun := congrArg List.length (adapt_untyped pairs res hres)
  simp only [untyped, List.length_map, List.length_append] at hun
  refine ⟨?_, ?_, ?_, ?_, classified_roles_disjoint pairs res hres, ?_⟩
  · rw [c1]
    exact defendersOf_length_two players pairs hp (by omega) hocc
  · rw [c2]
    exact attackersOf_length_le pairs
  · rw [c1, c2, c3, hun]
  · rw [defenders_typed pairs res hres]
    exact defendersOf_players_nodup pairs 2
  · intro n1 n2
    exact noRepeat_adapt pairs res hres (nodup_filterMap_of_nodup_map _ _ n1)
      (nodup_filterMap_of_nodup_map _ _ n2)

/-- C10, amended, on the candidates in which two players meet `O1`. -/
theorem classifier_validity_witness :
    (∀ res, adaptToTournamentRules sharedOpponentPairs = some res →
        roleCount Role.defender res = 2
          ∧ roleCount Role.attacker res ≤ 4
          ∧ roleCount Role.defender res + roleCount Role.attacker res
              + roleCount Role.remaining res = res.length
          ∧ ((res.filter fun q => decide (q.type = Role.defender)).map (·.player)).Nodup
          ∧ (∀ a ∈ res, ∀ b ∈ res, a.type ≠ b.type →
              a.player ≠ b.player ∧ a.opponent ≠ b.opponent)
          ∧ ((sharedOpponentPairs.map (·.player)).Nodup →
              (sharedOpponentPairs.map (·.opponent)).Nodup → NoRepeat res))
      ∧ ∃ res, adaptToTournamentRules sharedOpponentPairs = some res :=
  have h := classifier_validity fivePlayers fiveOpponents sharedOpponentPairs (by decide)
  ⟨h.1, h.2 (by decide)⟩

set_option maxRecDepth 100000 in
/-- C14 fails when the first opponent of the initial state is renamed to
`__proto__`, a name that is no opponent name: the rename is accepted and the
roster carries the new name, but in every row the assignment
`newRatings[player]['__proto__'] = 3` reaches the inherited setter and stores
nothing, and the entry under `O1` is deleted; the rating 3 of every player
against that opponent is lost. -/
theorem rename_to_proto_loses_rating :
    "__proto__" ∉ (editingFirstOpponent "__proto__").opponents
      ∧ (∀ p ∈ (editingFirstOpponent "__proto__").teamMembers,
          ratingAt (editingFirstOpponent "__proto__").ratings p "O1" = some 3)
      ∧ ∃ s', saveEditedName (editingFirstOpponent "__proto__") = some s'
          ∧ s'.opponents = ["__proto__", "O2", "O3", "O4", "O5"]
          ∧ ∀ p ∈ s'.teamMembers,
              s'.ratings.lookup p = some [("O2", 3), ("O3", 3), ("O4", 3), ("O5", 3)] := by
  refine ⟨by decide, by decide, _, rfl, by decide, by decide⟩

/-- C15 fails when the edited name equals the old name: the row of the player
is copied onto itself and then deleted, so the store of the initial state is
no longer fully populated. -/
theorem rename_to_same_name_drops_row :
    FullyPopulated (editingFirstPlayer "P1").teamMembers (editingFirstPlayer "P1").opponents
        (editingFirstPlayer "P1").ratings
      ∧ ∃ s', saveEditedName (editingFirstPlayer "P1") = some s'
          ∧ s'.teamMembers = fivePlayers ∧ s'.ratings.lookup "P1" = none
          ∧ ¬ FullyPopulated s'.teamMembers s'.opponents s'.ratings := by
  refine ⟨by decide, _, rfl, by decide, by decide, by decide⟩

/-- C16. When the trimmed new name differs from the old name and is the name
of another member of the collection being edited, `saveEditedName` returns
the state unchanged: rosters, rating store and every slot. -/
theorem duplicate_rename_rejected (s : AppState) (oldName : Name) (isOpponent : Bool)
    (he : s.editingPlayer = some (oldName, isOpponent))
    (hne : jsTrim s.editedName ≠ oldName)
    (hdup : jsTrim s.editedName ∈ (if isOpponent then s.opponents else s.teamMembers)) :
    saveEditedName s = some s := by
  unfold saveEditedName
  by_cases hb : jsTrim s.editedName = ""
  · rw [if_pos hb]
  · rw [if_neg hb, he]
    dsimp only
    rw [if_pos]
    simp [hdup, hne]

/-- C16 on the initial state, the first player renamed to `P2`. -/
theorem duplicate_rename_rejected_witness :
    saveEditedName (editingFirstPlayer "P2 ") = some (editingFirstPlayer "P2 ") :=
  duplicate_rename_rejected (editingFirstPlayer "P2 ") "P1" false rfl (by decide) (by decide)
/-- C17, as stated, fails: renaming the first player of the initial state to
the name of the first opponent is accepted, and the two collections are no
longer disjoint. -/
theorem rename_breaks_disjointness :
    (editingFirstPlayer "O1").teamMembers.Nodup ∧ (editingFirstPlayer "O1").opponents.Nodup
      ∧ DisjointNames (editingFirstPlayer "O1").teamMembers (editingFirstPlayer "O1").opponents
      ∧ ∃ s', saveEditedName (editingFirstPlayer "O1") = some s'
          ∧ ¬ DisjointNames s'.teamMembers s'.opponents := by
  refine ⟨by decide, by decide, by decide, _, rfl, by decide⟩

/-- C17, amended. Starting from rosters whose names are unique within each
collection, after any call of `saveEditedName` that returns, the two
collections have the same lengths, every position holds its former name or
the new name, and names are still unique within each collection; the two
collections stay disjoint when the new name is not a name of the other
collection. -/
theorem rename_preserves_identity (s s' : AppState) (h : saveEditedName s = some s')
    (hp : s.teamMembers.Nodup) (ho : s.opponents.Nodup) :
    s'.teamMembers.length = s.teamMembers.length
      ∧ s'.opponents.length = s.opponents.length
      ∧ (∀ i : Nat, s'.teamMembers[i]? = s.teamMembers[i]?
          ∨ s'.teamMembers[i]? = some (jsTrim s.editedName))
      ∧ (∀ i : Nat, s'.opponents[i]? = s.opponents[i]?
          ∨ s'.opponents[i]? = some (jsTrim s.editedName))
      ∧ s'.teamMembers.Nodup ∧ s'.opponents.Nodup
      ∧ (DisjointNames s.teamMembers s.opponents →
          (∀ oldName isOpponent, s.editingPlayer = some (oldName, isOpponent) →
            jsTrim s.editedName ∉ (if isOpponent then s.teamMembers else s.opponents)) →
          DisjointNames s'.teamMembers s'.opponents) := by
  rcases saveEditedName_cases s s' h with rfl | ⟨oldName, isOpponent, he, _, hok, rfl⟩
  · exact ⟨rfl, rfl, fun _ => Or.inl rfl, fun _ => Or.inl rfl, hp, ho, fun hd _ => hd⟩
  · cases isOpponent with
    | false =>
      simp only [applyRename, Bool.false_eq_true, if_false] at hok ⊢
      refine ⟨by simp, trivial, fun i => getElem?_map_rename _ _ _ i, fun _ => Or.inl trivial,
        nodup_map_rename _ _ _ hp hok, ho, ?_⟩
      intro hd hother x hx hxo
      have hn := hother oldName false he
      simp only [Bool.false_eq_true, if_false] at hn
      rcases mem_map_rename _ _ _ _ hx with h1 | h1
      · exact hd x h1 hxo
      · exact hn (h1 ▸ hxo)
    | true =>
      simp only [applyRename, if_true] at hok ⊢
      refine ⟨trivial, by simp, fun _ => Or.inl trivial, fun i => getElem?_map_rename _ _ _ i,
        hp, nodup_map_rename _ _ _ ho hok, ?_⟩
      intro hd hother x hx hxo
      have hn := hother oldName true he
      simp only [if_true] at hn
      rcases mem_map_rename _ _ _ _ hxo with h1 | h1
      · exact hd x hx h1
      · exact hn (h1 ▸ hx)

/-- C17, amended, on the initial state, the first player renamed to `Q`. -/
theorem rename_preserves_identity_witness :
    (applyRename (editingFirstPlayer "Q") "P1" false "Q").teamMembers.length
        = (editingFirstPlayer "Q").teamMembers.length
      ∧ (applyRename (editingFirstPlayer "Q") "P1" false "Q").opponents.length
        = (editingFirstPlayer "Q").opponents.length
      ∧ (∀ i : Nat, (applyRename (editingFirstPlayer "Q") "P1" false "Q").teamMembers[i]?
            = (editingFirstPlayer "Q").teamMembers[i]?
          ∨ (applyRename (editingFirstPlayer "Q") "P1" false "Q").teamMembers[i]?
            = some (jsTrim (editingFirstPlayer "Q").editedName))
      ∧ (∀ i : Nat, (applyRename (editingFirstPlayer "Q") "P1" false "Q").opponents[i]?
            = (editingFirstPlayer "Q").opponents[i]?
          ∨ (applyRename (editingFirstPlayer "Q") "P1" false "Q").opponents[i]?
            = some (jsTrim (editingFirstPlayer "Q").editedName))
      ∧ (applyRename (editingFirstPlayer "Q") "P1" false "Q").teamMembers.Nodup
      ∧ (applyRename (editingFirstPlayer "Q") "P1" false "Q").opponents.Nodup
      ∧ (DisjointNames (editingFirstPlayer "Q").teamMembers (editingFirstPlayer "Q").opponents →
          (∀ oldName isOpponent,
            (editingFirstPlayer "Q").editingPlayer = some (oldName, isOpponent) →
            jsTrim (editingFirstPlayer "Q").editedName
              ∉ (if isOpponent then (editingFirstPlayer "Q").teamMembers
                  else (editingFirstPlayer "Q").opponents)) →
          DisjointNames (applyRename (editingFirstPlayer "Q") "P1" false "Q").teamMembers
            (applyRename (editingFirstPlayer "Q") "P1" false "Q").opponents) :=
  rename_preserves_identity (editingFirstPlayer "Q")
    (applyRename (editingFirstPlayer "Q") "P1" false "Q") (by decide) (by decide) (by decide)

/-- C18, as stated, fails: `updateRating` stores the value 7 in the initial
store, whose entries are all 3. -/
theorem updateRating_stores_out_of_range :
    RatingsInRange fivePlayers fiveOpponents (initialState "full").ratings
      ∧ ratingAt (updateRating (initialState "full") "P1" "O1" 7).ratings "P1" "O1" = some 7
      ∧ ¬ RatingsInRange fivePlayers fiveOpponents
          (updateRating (initialState "full") "P1" "O1" 7).ratings := by
  decide

/-- C18, amended. `updateRating` stores the parsed value unchecked: the entry
of `(player, opponent)` becomes `value`, every other entry is unchanged, and
for a value in `[1, 5]` (the values the rating select offers) a store whose
entries are in `[1, 5]` keeps its entries in `[1, 5]`. -/
theorem updateRating_effect (s : AppState) (player opponent : Name) (value : Int) :
    ratingAt (updateRating s player opponent value).ratings player opponent = some value
      ∧ (∀ p o, (p ≠ player ∨ o ≠ opponent) →
          ratingAt (updateRating s player opponent value).ratings p o = ratingAt s.ratings p o)
      ∧ (1 ≤ value → value ≤ 5 → ∀ players opponents,
          RatingsInRange players opponents s.ratings →
          RatingsInRange players opponents (updateRating s player opponent value).ratings) := by
  have hself : ratingAt (updateRating s player opponent value).ratings player opponent
      = some value := by
    simp only [updateRating, ratingAt, lookup_objSet_self]
    exact lookup_objSet_self _ _ _
  have hother : ∀ p o, (p ≠ player ∨ o ≠ opponent) →
      ratingAt (updateRating s player opponent value).ratings p o = ratingAt s.ratings p o := by
    intro p o hpo
    by_cases hp : p = player
    · subst hp
      have ho : o ≠ opponent := by
        rcases hpo with h | h
        · exact absurd rfl h
        · exact h
      simp only [updateRating, ratingAt, lookup_objSet_self]
      change List.lookup o (objSet ((List.lookup p s.ratings).getD []) opponent value)
        = (List.lookup p s.ratings).bind fun a => List.lookup o a
      rw [lookup_objSet_ne _ _ _ _ ho]
      cases s.ratings.lookup p with
      | none => rfl
      | some row => rfl
    · simp only [updateRating, ratingAt]
      rw [lookup_objSet_ne _ _ _ _ hp]
  refine ⟨hself, hother, ?_⟩
  intro h1 h5 players opponents hr p hp o ho
  by_cases hpo : p = player ∧ o = opponent
  · obtain ⟨rfl, rfl⟩ := hpo
    rw [hself]
    exact ⟨h1, h5⟩
  · rw [hother p o (by
      by_cases hp' : p = player
      · exact Or.inr (fun h => hpo ⟨hp', h⟩)
      · exact Or.inl hp')]
    exact hr p hp o ho

/-- C18, amended, for the value 5 written into the initial store. -/
theorem updateRating_effect_witness :
    RatingsInRange fivePlayers fiveOpponents
      (updateRating (initialState "full") "P1" "O1" 5).ratings :=
  (updateRating_effect (initialState "full") "P1" "O1" 5).2.2 (by decide) (by decide)
    fivePlayers fiveOpponents (by decide)

set_option maxRecDepth 100000 in
/-- C19, as stated, fails: from the initial state, in which no slot is
filled, `nextStep` writes the recommended defender `P1` into the slot
`firstDefender`. -/
theorem nextStep_commits_recommendation :
    (initialState "greedy").firstDefender = none
      ∧ getOptimalRecommendations munkresTwoOne (initialState "greedy") 1
          = some (Recommendation.defender (some "P1"))
      ∧ ∃ s', nextStep munkresTwoOne (initialState "greedy") = some s'
          ∧ s'.firstDefender = some "P1" := by
  refine ⟨rfl, by decide, _, rfl, by decide⟩

/-- C19, amended. For every step `k` in `0..5`, `nextStep` sets the step
counter to `k + 1` and overwrites the slot of our side that belongs to step
`k + 1` with the recommendation computed for that step from the state
before the call; the rosters, the rating store, the slots of the opposing
side and the other slots of our side are unchanged. -/
theorem nextStep_effect (munkres : Munkres) (s s' : AppState) (hk : s.step ≤ 5)
    (h : nextStep munkres s = some s') :
    s'.step = s.step + 1
      ∧ opponentSlots s' = opponentSlots s
      ∧ s'.teamMembers = s.teamMembers ∧ s'.opponents = s.opponents
      ∧ s'.ratings = s.ratings
      ∧ ∃ optimal, getOptimalRecommendations munkres s (s.step + 1) = some optimal
          ∧ ourSlots s' = ourSlotsAfter s s.step optimal := by
  have hcases : s.step = 0 ∨ s.step = 1 ∨ s.step = 2 ∨ s.step = 3 ∨ s.step = 4 ∨ s.step = 5 := by
    omega
  unfold nextStep at h
  rcases hcases with h0 | h0 | h0 | h0 | h0 | h0 <;>
    · simp only [h0, OfNat.ofNat_ne_zero, if_true, if_false, Nat.reduceEqDiff,
        OfNat.zero_ne_ofNat, one_ne_zero, Nat.succ_ne_self, Option.map_eq_some'] at h
      obtain ⟨optimal, hrec, rfl⟩ := h
      rw [h0]
      exact ⟨rfl, rfl, rfl, rfl, rfl, optimal, hrec, rfl⟩

set_option maxRecDepth 100000 in
/-- C19, amended, on the initial state. -/
theorem nextStep_effect_witness :
    ({ initialState "greedy" with step := 1, firstDefender := some "P1" } : AppState).step
        = (initialState "greedy").step + 1
      ∧ opponentSlots { initialState "greedy" with step := 1, firstDefender := some "P1" }
        = opponentSlots (initialState "greedy")
      ∧ ({ initialState "greedy" with step := 1, firstDefender := some "P1" }
          : AppState).teamMembers = (initialState "greedy").teamMembers
      ∧ ({ initialState "greedy" with step := 1, firstDefender := some "P1" }
          : AppState).opponents = (initialState "greedy").opponents
      ∧ ({ initialState "greedy" with step := 1, firstDefender := some "P1" }
          : AppState).ratings = (initialState "greedy").ratings
      ∧ ∃ optimal, getOptimalRecommendations munkresTwoOne (initialState "greedy")
            ((initialState "greedy").step + 1) = some optimal
          ∧ ourSlots { initialState "greedy" with step := 1, firstDefender := some "P1" }
            = ourSlotsAfter (initialState "greedy") (initialState "greedy").step optimal :=
  nextStep_effect munkresTwoOne (initialState "greedy")
    { initialState "greedy" with step := 1, firstDefender := some "P1" } (by decide) (by decide)

/-- C11. For a 5-vs-5 roster with unique names, a fully populated rating
store and a full protocol state, `collectManualPairs` returns exactly 5 pairs
in which every player occurs exactly once and every opponent occurs exactly
once. -/
theorem full_reconciliation (s : AppState) (a b c d w x y z : Name)
    (hp : ValidRoster s.teamMembers) (hpl : s.teamMembers.length = 5)
    (ho : ValidRoster s.opponents) (hol : s.opponents.length = 5)
    (hpop : FullyPopulated s.teamMembers s.opponents s.ratings)
    (h : FullProtocol s a b c d w x y z) :
    ∃ res, collectManualPairs s = some res ∧ res.length = 5
      ∧ (res.map (·.ourPlayer)).Perm s.teamMembers
      ∧ (res.map (·.opponent)).Perm s.opponents := by
  obtain ⟨e, f, he, hen, _, hf, hfn, _, hres⟩ :=
    collectManualPairs_full s a b c d w x y z hp hpl ho hol hpop h
  obtain ⟨_, _, _, _, _, _, _, _, hS, hSm, hT, hTm⟩ := h
  refine ⟨_, hres, rfl, ?_, ?_⟩
  · apply (List.subperm_of_subset ?_ ?_).perm_of_length_le
    · simp [hpl]
    · simp only [List.map_cons, List.map_nil]
      have : [a, b, c, d, e] = [a, b, c, d] ++ [e] := rfl
      rw [this]
      exact List.Nodup.append hS (List.nodup_singleton _)
        (by intro p hp1 hp2; exact hen (List.mem_singleton.1 hp2 ▸ hp1))
    · intro p hp1
      simp only [List.map_cons, List.map_nil, List.mem_cons, List.mem_singleton,
        List.not_mem_nil, or_false] at hp1
      rcases hp1 with rfl | rfl | rfl | rfl | rfl
      · exact hSm _ (by simp)
      · exact hSm _ (by simp)
      · exact hSm _ (by simp)
      · exact hSm _ (by simp)
      · exact he
  · apply (List.subperm_of_subset ?_ ?_).perm_of_length_le
    · simp [hol]
    · simp only [List.map_cons, List.map_nil]
      have : [w, x, y, z, f] = [w, x, y, z] ++ [f] := rfl
      rw [this]
      exact List.Nodup.append hT (List.nodup_singleton _)
        (by intro p hp1 hp2; exact hfn (List.mem_singleton.1 hp2 ▸ hp1))
    · intro p hp1
      simp only [List.map_cons, List.map_nil, List.mem_cons, List.mem_singleton,
        List.not_mem_nil, or_false] at hp1
      rcases hp1 with rfl | rfl | rfl | rfl | rfl
      · exact hTm _ (by simp)
      · exact hTm _ (by simp)
      · exact hTm _ (by simp)
      · exact hTm _ (by simp)
      · exact hf

/-- C11 on the completed protocol over the initial rosters. -/
theorem full_reconciliation_witness :
    ∃ res, collectManualPairs completedState = some res ∧ res.length = 5
      ∧ (res.map (·.ourPlayer)).Perm completedState.teamMembers
      ∧ (res.map (·.opponent)).Perm completedState.opponents :=
  full_reconciliation completedState "P1" "P4" "P2" "P3" "O2" "O3" "O1" "O4"
    (by decide) (by decide) (by decide) (by decide) (by decide) (by decide)

/-- C12. For a protocol state over a fully populated roster (5-vs-5 or of
any other size) in which
every filled slot names a member of the roster it is read from and at least
one of the eight slots read by `collectManualPairs` is empty,
`collectManualPairs` returns, and returns fewer than 5 pairs. -/
theorem partial_reconciliation (s : AppState)
    (hpop : FullyPopulated s.teamMembers s.opponents s.ratings)
    (hslots : SlotsInRoster s)
    (hempty : ∃ slot ∈ reconciliationSlots s, slot = none) :
    ∃ res, collectManualPairs s = some res ∧ res.length < 5 := by
  obtain ⟨res, h1, _, h3⟩ := collectManualPairs_partial s hpop hslots
  exact ⟨res, h1, h3 hempty⟩

theorem afterThreeSteps_slotsInRoster : SlotsInRoster afterThreeSteps := by
  refine ⟨?_, ?_⟩
  · intro slot hs n hn
    simp only [afterThreeSteps, initialState, List.mem_cons, List.mem_singleton,
      List.not_mem_nil, or_false] at hs
    rcases hs with rfl | rfl | rfl | rfl <;> cases hn <;> decide
  · intro slot hs n hn
    simp only [afterThreeSteps, initialState, List.mem_cons, List.mem_singleton,
      List.not_mem_nil, or_false] at hs
    rcases hs with rfl | rfl | rfl | rfl <;> cases hn <;> decide

/-- C12 on the state after the first three steps of the protocol. -/
theorem partial_reconciliation_witness :
    ∃ res, collectManualPairs afterThreeSteps = some res ∧ res.length < 5 :=
  partial_reconciliation afterThreeSteps (by decide)
    afterThreeSteps_slotsInRoster ⟨none, by decide, rfl⟩

/-- C24. On a full protocol state over a fully populated 5-vs-5 roster
`collectManualPairs` returns, in this order, the two defender pairs
(our defender, attacker chosen against it), the two attacker pairs (our
attacker chosen by the opposing side, opposing defender) and one remaining
pair made of the only player and the only opponent not used by the first
four; every rating is the entry of the rating store; the result depends
neither on the optimisation method nor on the step. -/
theorem reconciliation_content (s : AppState) (a b c d w x y z : Name)
    (hp : ValidRoster s.teamMembers) (hpl : s.teamMembers.length = 5)
    (ho : ValidRoster s.opponents) (hol : s.opponents.length = 5)
    (hpop : FullyPopulated s.teamMembers s.opponents s.ratings)
    (h : FullProtocol s a b c d w x y z) :
    ∃ e f, e ∈ s.teamMembers ∧ e ∉ [a, b, c, d]
      ∧ (∀ p ∈ s.teamMembers, p ∉ [a, b, c, d] → p = e)
      ∧ f ∈ s.opponents ∧ f ∉ [w, x, y, z]
      ∧ (∀ o ∈ s.opponents, o ∉ [w, x, y, z] → o = f)
      ∧ collectManualPairs s = some
        [{ ourPlayer := a, opponent := w, rating := ratingAt s.ratings a w,
           type := Role.defender },
         { ourPlayer := b, opponent := x, rating := ratingAt s.ratings b x,
           type := Role.defender },
         { ourPlayer := c, opponent := y, rating := ratingAt s.ratings c y,
           type := Role.attacker },
         { ourPlayer := d, opponent := z, rating := ratingAt s.ratings d z,
           type := Role.attacker },
         { ourPlayer := e, opponent := f, rating := ratingAt s.ratings e f,
           type := Role.remaining }]
      ∧ ∀ (method : String) (step : Nat),
          collectManualPairs { s with optimizationMethod := method, step := step }
            = collectManualPairs s := by
  obtain ⟨e, f, h1, h2, h3, h4, h5, h6, h7⟩ :=
    collectManualPairs_full s a b c d w x y z hp hpl ho hol hpop h
  exact ⟨e, f, h1, h2, h3, h4, h5, h6, h7, fun _ _ => rfl⟩

/-- C24 on the completed protocol over the initial rosters. -/
theorem reconciliation_content_witness :
    ∃ e f, e ∈ completedState.teamMembers ∧ e ∉ ["P1", "P4", "P2", "P3"]
      ∧ (∀ p ∈ completedState.teamMembers, p ∉ ["P1", "P4", "P2", "P3"] → p = e)
      ∧ f ∈ completedState.opponents ∧ f ∉ ["O2", "O3", "O1", "O4"]
      ∧ (∀ o ∈ completedState.opponents, o ∉ ["O2", "O3", "O1", "O4"] → o = f)
      ∧ collectManualPairs completedState = some
        [{ ourPlayer := "P1", opponent := "O2",
           rating := ratingAt completedState.ratings "P1" "O2", type := Role.defender },
         { ourPlayer := "P4", opponent := "O3",
           rating := ratingAt completedState.ratings "P4" "O3", type := Role.defender },
         { ourPlayer := "P2", opponent := "O1",
           rating := ratingAt completedState.ratings "P2" "O1", type := Role.attacker },
         { ourPlayer := "P3", opponent := "O4",
           rating := ratingAt completedState.ratings "P3" "O4", type := Role.attacker },
         { ourPlayer := e, opponent := f,
           rating := ratingAt completedState.ratings e f, type := Role.remaining }]
      ∧ ∀ (method : String) (step : Nat),
          collectManualPairs { completedState with optimizationMethod := method, step := step }
            = collectManualPairs completedState :=
  reconciliation_content completedState "P1" "P4" "P2" "P3" "O2" "O3" "O1" "O4"
    (by decide) (by decide) (by decide) (by decide) (by decide) (by decide)

/-- C13. For rosters with unique names and every protocol state, the
sub-problem solved at step 4 contains none of the players `firstDefender`,
`firstAttackers`, `opponentFirstAttackerChoice` and none of the opponents
`opponentFirstDefender`, `opponentFirstAttackers`, `firstAttackerChoice`; the
defender `getOptimalRecommendations(4)` returns is a player of that
sub-problem, hence none of those players; and the call returns for the
methods `'greedy'` and `'full'` on a fully populated store with at most 5
players, none named by a property of `Object.prototype`. -/
theorem step4_exclusivity (munkres : Munkres) (s : AppState)
    (hp : ValidRoster s.teamMembers) (ho : ValidRoster s.opponents) :
    (∀ n, (s.firstDefender = some n ∨ some n ∈ s.firstAttackers
          ∨ s.opponentFirstAttackerChoice = some n) → n ∉ availablePlayersOf s 4)
      ∧ (∀ n, (s.opponentFirstDefender = some n ∨ some n ∈ s.opponentFirstAttackers
          ∨ s.firstAttackerChoice = some n) → n ∉ availableOpponentsOf s)
      ∧ (∀ rec, getOptimalRecommendations munkres s 4 = some rec →
          ∃ d, rec = Recommendation.defender d
            ∧ ∀ n, d = some n → n ∈ availablePlayersOf s 4
              ∧ s.firstDefender ≠ some n ∧ some n ∉ s.firstAttackers
              ∧ s.opponentFirstAttackerChoice ≠ some n)
      ∧ (FullyPopulated s.teamMembers s.opponents s.ratings → s.teamMembers.length ≤ 5 →
          (s.optimizationMethod = "greedy" ∨ s.optimizationMethod = "full") →
          OwnNames s.teamMembers →
          ∃ rec, getOptimalRecommendations munkres s 4 = some rec) := by
  have hplayers : ∀ n, (s.firstDefender = some n ∨ some n ∈ s.firstAttackers
      ∨ s.opponentFirstAttackerChoice = some n) → n ∉ availablePlayersOf s 4 := by
    intro n hn
    apply availablePlayersOf_excludes s 4 hp n
    rcases hn with h | h | h
    · exact Or.inl ⟨h, by decide⟩
    · exact Or.inr (Or.inr (Or.inl h))
    · exact Or.inr (Or.inr (Or.inr (Or.inr h)))
  refine ⟨hplayers, ?_, ?_, ?_⟩
  · intro n hn
    apply availableOpponentsOf_excludes s ho n
    rcases hn with h | h | h
    · exact Or.inl h
    · exact Or.inr (Or.inr (Or.inl h))
    · exact Or.inr (Or.inr (Or.inr (Or.inr (Or.inl h))))
  · intro rec hrec
    obtain ⟨d, hd, hmem⟩ := getOptimalRecommendations_step4 munkres s rec hrec
    refine ⟨d, hd, ?_⟩
    intro n hn
    have hin := hmem n hn
    exact ⟨hin, fun h => hplayers n (Or.inl h) hin,
      fun h => hplayers n (Or.inr (Or.inl h)) hin,
      fun h => hplayers n (Or.inr (Or.inr h)) hin⟩
  · exact fun hpop hn hm hown =>
      getOptimalRecommendations_step4_returns munkres s hpop hn hm hown

/-- C13 on the state after the first three steps of the protocol. -/
theorem step4_exclusivity_witness :
    (∀ n, (afterThreeSteps.firstDefender = some n ∨ some n ∈ afterThreeSteps.firstAttackers
          ∨ afterThreeSteps.opponentFirstAttackerChoice = some n) →
        n ∉ availablePlayersOf afterThreeSteps 4)
      ∧ (∀ n, (afterThreeSteps.opponentFirstDefender = some n
          ∨ some n ∈ afterThreeSteps.opponentFirstAttackers
          ∨ afterThreeSteps.firstAttackerChoice = some n) →
        n ∉ availableOpponentsOf afterThreeSteps)
      ∧ (∀ rec, getOptimalRecommendations munkresTwoOne afterThreeSteps 4 = some rec →
          ∃ d, rec = Recommendation.defender d
            ∧ ∀ n, d = some n → n ∈ availablePlayersOf afterThreeSteps 4
              ∧ afterThreeSteps.firstDefender ≠ some n
              ∧ some n ∉ afterThreeSteps.firstAttackers
              ∧ afterThreeSteps.opponentFirstAttackerChoice ≠ some n)
      ∧ ∃ rec, getOptimalRecommendations munkresTwoOne afterThreeSteps 4 = some rec :=
  have h := step4_exclusivity munkresTwoOne afterThreeSteps (by decide) (by decide)
  ⟨h.1, h.2.1, h.2.2.1, h.2.2.2 (by decide) (by decide) (by decide) (by decide)⟩

/-- C20 fails on the state after the first three steps of the protocol: the
attacker `P2` the opposing side chose is one of `firstAttackers` and is
already gone when its turn comes, so `indexOf` yields `-1` and `splice`
removes the last available player `P5`, who occurs in no slot; likewise the
opponent `O5` is removed. -/
theorem availability_drops_uncommitted :
    availablePlayersOf afterThreeSteps 4 = ["P4"]
      ∧ availableOpponentsOf afterThreeSteps = ["O4"]
      ∧ afterThreeSteps.teamMembers.filter (fun p =>
          afterThreeSteps.firstDefender != some p && afterThreeSteps.secondDefender != some p
            && !decide (some p ∈ afterThreeSteps.firstAttackers)
            && !decide (some p ∈ afterThreeSteps.secondAttackers)
            && afterThreeSteps.opponentFirstAttackerChoice != some p) = ["P4", "P5"]
      ∧ afterThreeSteps.opponents.filter (fun o =>
          afterThreeSteps.opponentFirstDefender != some o
            && afterThreeSteps.opponentSecondDefender != some o
            && !decide (some o ∈ afterThreeSteps.opponentFirstAttackers)
            && !decide (some o ∈ afterThreeSteps.opponentSecondAttackers)
            && afterThreeSteps.firstAttackerChoice != some o
            && afterThreeSteps.secondAttackerChoice != some o) = ["O4", "O5"] := by
  decide

/-- C22. For a 5-vs-5 roster with unique non-empty names and ratings in
`[1, 5]`, at step 3 (with `firstDefender` and `opponentFirstAttackers`) and at
step 6 (with `secondDefender` and `opponentSecondAttackers`), when the defender
is a roster player and the attackers are a non-empty list of roster opponents,
whatever `getOptimalRecommendations` returns, under any method, is the first
of the attackers whose rating `ratings[defender][.]` is greatest, the value
of `calculateBestAttackerChoice`: the defender is not among the players of
the solved sub-problem, so the solver output does not determine it.  For the
methods `'greedy'` and `'full'` the call returns when no player is named by a
property of `Object.prototype`. -/
theorem attacker_choice_recommendation (munkres : Munkres) (s : AppState) (step : Nat)
    (d : Name) (hstep : step = 3 ∨ step = 6)
    (hp : ValidRoster s.teamMembers) (ho : ValidRoster s.opponents)
    (hpl : s.teamMembers.length = 5) (hol : s.opponents.length = 5)
    (hr : RatingsInRange s.teamMembers s.opponents s.ratings)
    (hd : choiceDefender s step = some d) (hdm : d ∈ s.teamMembers)
    (hne : choiceAttackers s step ≠ [])
    (hatt : ∀ x ∈ choiceAttackers s step, ∃ o ∈ s.opponents, x = some o) :
    d ∉ availablePlayersOf s step
      ∧ (∀ o, some o ∈ choiceAttackers s step →
          ratingAt s.ratings d o = some (choiceScore s d (some o)))
      ∧ ∃ c, IsFirstMax (choiceScore s d) (choiceAttackers s step) (some c)
          ∧ calculateBestAttackerChoice s (choiceAttackers s step) (some d) = some (some c)
          ∧ (∀ rec, getOptimalRecommendations munkres s step = some rec →
              rec = Recommendation.attackerChoice (some c))
          ∧ ((s.optimizationMethod = "greedy" ∨ s.optimizationMethod = "full") →
              OwnNames s.teamMembers →
              getOptimalRecommendations munkres s step
                = some (Recommendation.attackerChoice (some c))) := by
  have hpop : FullyPopulated s.teamMembers s.opponents s.ratings :=
    fullyPopulated_of_inRange _ _ _ (by omega) hr
  have hdne : d ≠ "" := fun h => hp.2 (h ▸ hdm)
  have hrow := (hpop d hdm).1
  have htruthy : ∀ x ∈ choiceAttackers s step, truthy x = true := by
    intro x hx
    obtain ⟨o, hom, rfl⟩ := hatt x hx
    have : o ≠ "" := fun h => ho.2 (h ▸ hom)
    simpa [truthy] using this
  obtain ⟨c, hc, hcalc⟩ :=
    calculateBestAttackerChoice_eq s (choiceAttackers s step) d hdne hrow hne htruthy
  have hex : d ∉ availablePlayersOf s step := by
    rcases hstep with rfl | rfl
    · exact availablePlayersOf_excludes s 3 hp d (Or.inl ⟨hd, by decide⟩)
    · exact availablePlayersOf_excludes s 6 hp d (Or.inr (Or.inl hd))
  have hrec : ∀ res, optimizePairs munkres (availablePlayersOf s step)
      (availableOpponentsOf s) s.ratings (some s.optimizationMethod) = some res →
      getOptimalRecommendations munkres s step
        = some (Recommendation.attackerChoice (some c)) := by
    intro res hres
    have heq : getOptimalRecommendations munkres s step
        = (calculateBestAttackerChoice s (choiceAttackers s step) (some d)).map
            Recommendation.attackerChoice := by
      rcases hstep with rfl | rfl
      · exact getOptimalRecommendations_step3 munkres s d hp hd res hres
      · exact getOptimalRecommendations_step6 munkres s d hp hd res hres
    rw [heq, hcalc]
    rfl
  refine ⟨hex, ?_, c, hc, hcalc, ?_, ?_⟩
  · intro o hmem
    obtain ⟨o', hom, heq⟩ := hatt _ hmem
    cases heq
    obtain ⟨v, hv, _⟩ := isRating_some (hr d hdm o hom)
    simp [choiceScore, keyOf, hv]
  · intro rec h
    obtain ⟨res, hres⟩ := getOptimalRecommendations_solver munkres s step rec h
    have := hrec res hres
    rw [h] at this
    exact Option.some.inj this
  · intro hm hown
    have hsub := availablePlayersOf_sublist s step
    obtain ⟨res, hres⟩ := optimizePairs_returns munkres (availablePlayersOf s step)
      (availableOpponentsOf s) s.ratings s.optimizationMethod hm
      (le_trans hsub.length_le (le_of_eq hpl)) (fun p hp' => (hpop p (hsub.subset hp')).1)
      (fun p hp' => hown p (hsub.subset hp'))
    exact hrec res hres

set_option maxRecDepth 100000 in
/-- C22 at step 3 of the protocol on the initial rosters: `O2`, the first of
the two attackers `O2`, `O3` (both rated 3 by `P1`), is recommended. -/
theorem attacker_choice_recommendation_witness :
    "P1" ∉ availablePlayersOf afterThreeSteps 3
      ∧ (∀ o, some o ∈ choiceAttackers afterThreeSteps 3 →
          ratingAt afterThreeSteps.ratings "P1" o
            = some (choiceScore afterThreeSteps "P1" (some o)))
      ∧ ∃ c, IsFirstMax (choiceScore afterThreeSteps "P1")
              (choiceAttackers afterThreeSteps 3) (some c)
          ∧ calculateBestAttackerChoice afterThreeSteps
              (choiceAttackers afterThreeSteps 3) (some "P1") = some (some c)
          ∧ (∀ rec, getOptimalRecommendations munkresTwoOne afterThreeSteps 3 = some rec →
              rec = Recommendation.attackerChoice (some c))
          ∧ ((afterThreeSteps.optimizationMethod = "greedy"
                ∨ afterThreeSteps.optimizationMethod = "full") →
              OwnNames afterThreeSteps.teamMembers →
              getOptimalRecommendations munkresTwoOne afterThreeSteps 3
                = some (Recommendation.attackerChoice (some c))) :=
  attacker_choice_recommendation munkresTwoOne afterThreeSteps 3 "P1" (by decide)
    (by decide) (by decide) (by decide) (by decide) (by decide) (by decide) (by decide)
    (by decide) (by decide)

/-- C23. For non-empty lists of available players (none named by the empty
string) and available opponents with ratings in `[1, 5]`,
`calculateBestDefender` returns the first player in list order whose rating
sum, and equally whose mean rating, against the available opponents is
greatest: every earlier player has a smaller one and no later player has a
greater one.  It returns `null` for the empty player list and the first
player for the empty opponent list. -/
theorem defender_fallback (s : AppState) (players opponents : List Name)
    (hne : players ≠ []) (hno : opponents ≠ []) (hnames : "" ∉ players)
    (hr : RatingsInRange players opponents s.ratings) :
    calculateBestDefender s [] opponents = some none
      ∧ calculateBestDefender s players [] = some players[0]?
      ∧ ∃ p, calculateBestDefender s players opponents = some (some p)
          ∧ IsFirstMax (ratingSumAgainst s opponents) players p
          ∧ IsFirstMax (meanRatingAgainst s opponents) players p := by
  refine ⟨rfl, ?_, ?_⟩
  · unfold calculateBestDefender
    rw [if_neg (fun h => hne (List.length_eq_zero.1 h))]
    rfl
  · obtain ⟨p, h1, h2⟩ := calculateBestDefender_eq s players opponents hne hno hnames
      (row_of_inRange players opponents s.ratings hr hno)
    exact ⟨p, h1, h2, isFirstMax_mean s players opponents p hno h2⟩

/-- C23 on the players `B`, `A` and the opponents `X`, `Y` of
`exampleRatings`. -/
theorem defender_fallback_witness :
    calculateBestDefender exampleState [] ["X", "Y"] = some none
      ∧ calculateBestDefender exampleState ["B", "A"] [] = some ["B", "A"][0]?
      ∧ ∃ p, calculateBestDefender exampleState ["B", "A"] ["X", "Y"] = some (some p)
          ∧ IsFirstMax (ratingSumAgainst exampleState ["X", "Y"]) ["B", "A"] p
          ∧ IsFirstMax (meanRatingAgainst exampleState ["X", "Y"]) ["B", "A"] p :=
  defender_fallback exampleState ["B", "A"] ["X", "Y"] (by decide) (by decide) (by decide)
    (by decide)

set_option maxRecDepth 100000 in
/-- C21 fails at step 2 on the initial rosters once the attackers `P2`, `P3`
are picked: the players `P4`, `P5` are available, the solver pairs both and
the classifier makes both pairs defenders, so no pair has the role attacker;
`getOptimalRecommendations(2)` returns the empty list, since the empty array
left of `||` is truthy, while `calculateBestAttackers` on the same available
players returns `P4`, `P5`. -/
theorem attackers_fallback_never_runs :
    availablePlayersOf pickingAttackers 2 = ["P4", "P5"]
      ∧ (optimizePairs munkresTwoOne (availablePlayersOf pickingAttackers 2)
            (availableOpponentsOf pickingAttackers) pickingAttackers.ratings
            (some pickingAttackers.optimizationMethod)).map
          (fun res => res.filter fun p => decide (p.type = Role.attacker)) = some []
      ∧ getOptimalRecommendations munkresTwoOne pickingAttackers 2
          = some (Recommendation.attackers [])
      ∧ calculateBestAttackers pickingAttackers pickingAttackers.opponentFirstDefender
            (availablePlayersOf pickingAttackers 2)
          = some [some "P4", some "P5"] := by
  decide

/-- C27. For every list of players and of opponents (uniquely named or not)
and every rating store with entries in `[1, 5]`, twice the total rating of
the pairs `greedyAlgorithm` returns is greater than or equal to the total
rating of every set of pairs over the rosters in which no player and no
opponent repeats.  The call returns when no player is named by a property of
`Object.prototype`. -/
theorem greedy_half_approximation (players opponents : List Name) (ratings : Ratings)
    (asg : List (Name × Name)) (hr : RatingsInRange players opponents ratings)
    (hasg : IsMatching players opponents asg) :
    (∀ res, greedyAlgorithm players opponents ratings = some res →
        ∃ total, totalRating res = some total ∧ assignmentTotal ratings asg ≤ 2 * total)
      ∧ (OwnNames players → ∃ res, greedyAlgorithm players opponents ratings = some res) := by
  refine ⟨?_, greedy_returns_inRange players opponents ratings hr⟩
  intro res h
  obtain ⟨total, h2, h3⟩ := greedy_half players opponents ratings hr res h
  exact ⟨total, h2, h3 asg hasg⟩

/-- C27 at the ratings `{A: {X: 5, Y: 4}, B: {X: 3, Y: 1}}` and the matching
`A`-`Y`, `B`-`X` of total 7, against the greedy total 6. -/
theorem greedy_half_approximation_witness :
    (∀ res, greedyAlgorithm ["A", "B"] ["X", "Y"] exampleRatings = some res →
        ∃ total, totalRating res = some total
          ∧ assignmentTotal exampleRatings [("A", "Y"), ("B", "X")] ≤ 2 * total)
      ∧ ∃ res, greedyAlgorithm ["A", "B"] ["X", "Y"] exampleRatings = some res :=
  have h := greedy_half_approximation ["A", "B"] ["X", "Y"] exampleRatings
    [("A", "Y"), ("B", "X")] (by decide) (by decide)
  ⟨h.1, h.2 (by decide)⟩

set_option maxRecDepth 100000 in
/-- C25 fails on the pairs `3`-`X`, `2`-`Y`, `1`-`Z`, all rated 3: the three
players tie, so in order of first appearance the defenders are `3` and `2`;
`Object.entries` lists the keys `1`, `2`, `3` in ascending numeric order, so
`findBestDefenders` returns the pairs of `1` and `2`, and
`adaptToTournamentRules` emits those as defenders and `3`-`X` as attacker. -/
theorem defender_ties_in_key_order :
    specDefenders tiedIndexPairs 2
        = [⟨some "3", some "X", some 3⟩, ⟨some "2", some "Y", some 3⟩]
      ∧ findBestDefenders tiedIndexPairs 2
        = some [⟨some "1", some "Z", some 3⟩, ⟨some "2", some "Y", some 3⟩]
      ∧ adaptToTournamentRules tiedIndexPairs
        = some [withType Role.defender ⟨some "1", some "Z", some 3⟩,
                withType Role.defender ⟨some "2", some "Y", some 3⟩,
                withType Role.attacker ⟨some "3", some "X", some 3⟩] := by
  decide

set_option maxRecDepth 100000 in
/-- C26 fails for the players `3`, `2`, `1` against `X`, `Y`, `Z` with every
rating 3: `greedyAlgorithm` hands the matching `3`-`X`, `2`-`Y`, `1`-`Z` to
the classifier; stably sorted by descending rating it is unchanged, but the
classifier returns `1`-`Z`, `2`-`Y`, `3`-`X`, a permutation with two
defenders and one attacker. -/
theorem classifier_reorders_tied_matching :
    greedyMatching (candidatePairs ["3", "2", "1"] ["X", "Y", "Z"] indexNamedRatings)
        = tiedIndexPairs
      ∧ stableByRating tiedIndexPairs = tiedIndexPairs
      ∧ (adaptToTournamentRules tiedIndexPairs).map untyped
        = some [⟨some "1", some "Z", some 3⟩, ⟨some "2", some "Y", some 3⟩,
                ⟨some "3", some "X", some 3⟩]
      ∧ (greedyAlgorithm ["3", "2", "1"] ["X", "Y", "Z"] indexNamedRatings).map untyped
        = some [⟨some "1", some "Z", some 3⟩, ⟨some "2", some "Y", some 3⟩,
                ⟨some "3", some "X", some 3⟩] := by
  decide

end Pairings
